import Mathlib

/-!
Incoming-deposit scanner (`src/controllers/ScronWallet.js`)

A shallow embedding of the wallet scanner: the amount decoder
`quantToTokenAmount`, the paginated scan `fetchIncomingSince`, the dedup map
with `pruneProcessed`, the ledger hook `onIncomingDeposit` and the per-wallet
pass `processWallet`, followed by the properties proved about them.

Conventions of the embedding:

* JavaScript strings are `String`; text is built on `List Char` and packed with
  `String.mk`.
* Block timestamps and raw quantities are `Nat`: a field holds the value the
  code computes from the upstream JSON (`Number(t.block_ts || 0)`,
  `BigInt(String(t.quant || "0"))`, `String(t.to_address || "").trim()`).
* An `async` function that can reject returns its effects together with a
  `threw` flag; objects mutated in place are passed and returned explicitly.
* The dedup map is a plain object: its own entries are an association list in
  insertion order, and a property read falls back to the members inherited from
  `Object.prototype`.
-/

namespace ScronWallet

/-! ## Configuration -/

/-- The two scan parameters read from the environment
(`TRONSCAN_LIMIT`, `TRONSCAN_MAX_PAGES`). -/
structure Config where
  LIMIT : Nat
  MAX_PAGES : Nat
  deriving DecidableEq

/-- The defaults of the source: `LIMIT = 20`, `MAX_PAGES = 3`. -/
def defaultConfig : Config := { LIMIT := 20, MAX_PAGES := 3 }

/-- Source constant `DEFAULT_DECIMALS`. -/
def DEFAULT_DECIMALS : Nat := 6

/-! ## Decimal text -/

/-- `BigInt.prototype.toString()` on a non-negative value: its decimal digits. -/
def bigIntToString (n : Nat) : List Char := Nat.toDigits 10 n

/-- `String.prototype.padStart(n, c)` for a one-character filler. -/
def padStart (s : List Char) (n : Nat) (c : Char) : List Char :=
  List.replicate (n - s.length) c ++ s

/-- `s.replace(/0+$/, "")`: the maximal run of trailing zeros is removed. -/
def stripTrailingZeros (s : List Char) : List Char :=
  (s.reverse.dropWhile (fun c => c == '0')).reverse

/-- The text `quantToTokenAmount` hands to `Number`:
`frac ? intPart + "." + frac : intPart`, with `intPart = q / 10^dec`,
`fracPart = q % 10^dec` and
`frac = fracPart.toString().padStart(dec, "0").replace(/0+$/, "")`. -/
def quantChars (q dec : Nat) : List Char :=
  let d := 10 ^ dec
  let intPart := q / d
  let fracPart := q % d
  let frac := stripTrailingZeros (padStart (bigIntToString fracPart) dec '0')
  if frac ≠ [] then bigIntToString intPart ++ '.' :: frac else bigIntToString intPart

/-- The decimal text of `quantToTokenAmount` as a string. -/
def quantText (q dec : Nat) : String := String.mk (quantChars q dec)

/-- Value of one decimal digit character. -/
def digitValue (c : Char) : Nat := c.toNat - '0'.toNat

/-- Value of a run of decimal digits, most significant first. -/
def natOfDigits (s : List Char) : Nat := s.foldl (fun acc c => 10 * acc + digitValue c) 0

/-- Integer part of a decimal text: the characters before the first `.`. -/
def integerDigits (s : List Char) : List Char := s.takeWhile (fun c => c != '.')

/-- Fraction part of a decimal text: the characters after the first `.`. -/
def fractionDigits (s : List Char) : List Char := (s.dropWhile (fun c => c != '.')).drop 1

/-- Reading a decimal text `ddd` or `ddd.ddd` as an exact rational; `none` when
the text is not of that shape. -/
def parseDecimal (s : String) : Option ℚ :=
  let ip := integerDigits s.data
  let fp := fractionDigits s.data
  let shaped := ip ≠ [] ∧ (s.data = ip ∨ (fp ≠ [] ∧ s.data = ip ++ '.' :: fp))
  if shaped ∧ ip.all Char.isDigit = true ∧ fp.all Char.isDigit = true then
    some ((natOfDigits ip : ℚ) + (natOfDigits fp : ℚ) / (10 : ℚ) ^ fp.length)
  else none

/-! ## JavaScript numbers -/

/-- A non-negative JavaScript `Number`: the binary64 value `mant * 2 ^ exp`,
or `Infinity`. -/
inductive JsNumber where
  | finite (mant : Nat) (exp : Int)
  | infinity
  deriving DecidableEq

/-- The exact value of a finite number. -/
def JsNumber.toRat : JsNumber → Option ℚ
  | JsNumber.finite m e => some ((m : ℚ) * (2 : ℚ) ^ e)
  | JsNumber.infinity => none

/-- Floor of the binary logarithm, `0` at `0`; `fuel` bounds the recursion. -/
def log2Fuel : Nat → Nat → Nat
  | 0, _ => 0
  | fuel + 1, n => if 2 ≤ n then log2Fuel fuel (n / 2) + 1 else 0

/-- Floor of the binary logarithm of a natural number. -/
def floorLog2 (n : Nat) : Nat := log2Fuel n n

/-- Floor of the binary logarithm of the positive rational `a / b`. -/
def floorLog2Ratio (a b : Nat) : Int :=
  if b ≤ a then (floorLog2 (a / b) : Int)
  else
    let k := floorLog2 b - floorLog2 a
    if b ≤ a * 2 ^ k then -(k : Int) else -(k : Int) - 1

/-- Rounding of a non-negative integer quotient to the nearest integer, ties to even. -/
def roundHalfEven (n d : Nat) : Nat :=
  let m := n / d
  let r := n % d
  if 2 * r < d then m else if d < 2 * r then m + 1 else m + m % 2

/-- The `Number` value for the rational `a / b` (`b > 0`): round to nearest
binary64 with ties to even, exponent at least `-1074`, overflow to `Infinity`. -/
def numberOfRatio (a b : Nat) : JsNumber :=
  if a = 0 then JsNumber.finite 0 0
  else
    let e : Int := max (floorLog2Ratio a b - 52) (-1074)
    let m := if 0 ≤ e then roundHalfEven a (b * 2 ^ e.toNat)
             else roundHalfEven (a * 2 ^ (-e).toNat) b
    if 971 < e ∨ (e = 971 ∧ m = 2 ^ 53) then JsNumber.infinity else JsNumber.finite m e

/-- `Number(text)` for a decimal text `ddd` or `ddd.ddd`: the exact value of the
text, rounded once. (The language leaves digits beyond the 20th significant one
to the implementation; the rounding here is exact for every length.) -/
def Number (s : List Char) : JsNumber :=
  let ip := integerDigits s
  let fp := fractionDigits s
  numberOfRatio (natOfDigits (ip ++ fp)) (10 ^ fp.length)

/-- Source function `quantToTokenAmount(quantStr, decimals)`; `q` is the value of
`BigInt(String(quantStr || "0"))` and `dec` the finite `decimals`. -/
def quantToTokenAmount (q dec : Nat) : JsNumber := Number (quantChars q dec)

/-! ## Data model -/

/-- One entry of the upstream `token_transfers` list, after the coercions the
code applies to each field it reads. -/
structure Transfer where
  transaction_id : String
  block_ts : Nat
  to_address : String
  from_address : String
  quant : Nat
  confirmed : Bool
  contractRet : String
  finalResult : String
  revert : Bool
  tokenDecimal : Option Nat
  deriving DecidableEq

/-- The validity filter of `processWallet`: `confirmed === true`, one of the two
result fields equal to `"SUCCESS"`, and `revert` not `true`. -/
def Transfer.valid (t : Transfer) : Prop :=
  t.confirmed = true ∧ (t.contractRet = "SUCCESS" ∨ t.finalResult = "SUCCESS") ∧ t.revert = false

instance (t : Transfer) : Decidable t.valid := by
  unfold Transfer.valid
  infer_instance

/-- The own entries of the dedup map `processed` (txid to block timestamp), in
insertion order. -/
abbrev Processed := List (String × Nat)

/-- Per-wallet scan state `{ lastTs, processed }`. -/
structure WState where
  lastTs : Nat
  processed : Processed
  deriving DecidableEq

/-- The state given to a wallet with no entry in the state file. -/
def freshState : WState := { lastTs := 0, processed := [] }

/-- A `WalletDeposit` document, reduced to the fields the properties read. -/
structure Doc where
  wallet : String
  txid : String
  amountRaw : Nat
  amount : JsNumber
  blockTs : Nat
  deriving DecidableEq

/-- The `WalletDeposit` collection. -/
abbrev Ledger := List Doc

/-- What the surroundings do during one pass: the page the upstream returns for
a wallet at offset `start` (`none` when `axiosGetWithRetry` throws), whether
`WalletDeposit.updateOne` rejects for a record, and whether `sendTelegram`
throws for a record. -/
structure Env where
  upstream : String → Nat → Option (List Transfer)
  ledgerFails : Transfer → Bool
  telegramFails : Transfer → Bool

/-- An upstream that serves the list `feed` in pages of `LIMIT` entries. -/
def feedUpstream (cfg : Config) (feed : List Transfer) : String → Nat → Option (List Transfer) :=
  fun _ start => some ((feed.drop start).take cfg.LIMIT)

/-- Surroundings in which the upstream serves `feed` and nothing fails. -/
def quietEnv (cfg : Config) (feed : List Transfer) : Env :=
  { upstream := feedUpstream cfg feed
    ledgerFails := fun _ => false
    telegramFails := fun _ => false }

/-! ## Dedup map -/

/-- The property names a plain object inherits from `Object.prototype`. The dedup
map is always a plain object (a `{}` literal, a `JSON.parse` result or an
`Object.fromEntries` result), so a read of one of these names finds the
inherited member unless the map holds an own entry of that name. -/
def objectPrototypeKeys : List String :=
  ["constructor", "hasOwnProperty", "isPrototypeOf", "propertyIsEnumerable",
   "toLocaleString", "toString", "valueOf", "__proto__", "__defineGetter__",
   "__defineSetter__", "__lookupGetter__", "__lookupSetter__"]

/-- What a property read on the dedup map yields: `undefined`, the number of an
own entry, or a member inherited from `Object.prototype` (a function, or the
prototype object itself for `__proto__`). -/
inductive Slot where
  | undefined
  | number (ts : Nat)
  | inherited
  deriving DecidableEq

/-- JavaScript truthiness of a slot: `undefined` and `0` are falsy, every other
number and every inherited member is truthy. -/
def Slot.truthy : Slot → Bool
  | Slot.undefined => false
  | Slot.number ts => ts != 0
  | Slot.inherited => true

/-- The own entry of the map for `txid`, if any: what `Object.entries` lists and
the state file stores. -/
def Processed.own (m : Processed) (txid : String) : Option Nat := m.lookup txid

/-- Property read `mapObj[txid]`: the own entry if there is one, otherwise the
member of that name inherited from `Object.prototype`, otherwise `undefined`. -/
def Processed.read (m : Processed) (txid : String) : Slot :=
  match m.own txid with
  | some ts => Slot.number ts
  | none => if objectPrototypeKeys.contains txid then Slot.inherited else Slot.undefined

/-- The dedup test `if (wState.processed[txid])`: truthiness of the property read. -/
def Processed.seen (m : Processed) (txid : String) : Bool := (m.read txid).truthy

/-- Whether `txid` is a key of the map (an own entry). -/
def Processed.hasKey (m : Processed) (txid : String) : Bool := (m.own txid).isSome

/-- Writing the own entry `txid`: an existing key keeps its place, a new key is
appended. -/
def Processed.store : Processed → String → Nat → Processed
  | [], txid, ts => [(txid, ts)]
  | (k, v) :: m, txid, ts =>
    if k = txid then (k, ts) :: m else (k, v) :: Processed.store m txid ts

/-- Assignment `mapObj[txid] = ts` of a number: the own entry is written, except
for the name `__proto__` without an own entry, where the assignment reaches the
inherited setter, which ignores a number. -/
def Processed.assign (m : Processed) (txid : String) (ts : Nat) : Processed :=
  if txid = "__proto__" ∧ m.hasKey txid = false then m else m.store txid ts

/-- Source function `pruneProcessed(mapObj, keepLast)`: above `keepLast` entries,
sort by timestamp descending (stable) and keep the first 2000. -/
def pruneProcessed (mapObj : Processed) (keepLast : Nat) : Processed :=
  if mapObj.length ≤ keepLast then mapObj
  else (mapObj.insertionSort (fun a b => b.2 ≤ a.2)).take 2000

/-! ## Scan -/

/-- The `for (const t of list)` loop of `fetchIncomingSince` over one page:
returns the extended `incoming` and whether the function returned early. -/
def scanPage (wallet : String) (lastTs : Nat) :
    List Transfer → List Transfer → List Transfer × Bool
  | [], incoming => (incoming, false)
  | t :: rest, incoming =>
    if t.to_address ≠ wallet then scanPage wallet lastTs rest incoming
    else if t.block_ts ≤ lastTs then (incoming, true)
    else scanPage wallet lastTs rest (incoming ++ [t])

/-- The `while (page < MAX_PAGES)` loop of `fetchIncomingSince`, with `pages`
iterations left; `none` when a page request throws. -/
def fetchLoop (cfg : Config) (upstream : String → Nat → Option (List Transfer))
    (wallet : String) (lastTs : Nat) :
    Nat → Nat → List Transfer → Option (List Transfer)
  | 0, _, incoming => some incoming
  | pages + 1, start, incoming =>
    match upstream wallet start with
    | none => none
    | some list =>
      if list.length = 0 then some incoming
      else
        match scanPage wallet lastTs list incoming with
        | (incoming', true) => some incoming'
        | (incoming', false) =>
          fetchLoop cfg upstream wallet lastTs pages (start + cfg.LIMIT) incoming'

/-- Source function `fetchIncomingSince(wallet, lastTs)`. -/
def fetchIncomingSince (cfg : Config) (upstream : String → Nat → Option (List Transfer))
    (wallet : String) (lastTs : Nat) : Option (List Transfer) :=
  fetchLoop cfg upstream wallet lastTs cfg.MAX_PAGES 0 []

/-! ## Ledger hook -/

/-- Effects of a pass: the ledger, the records for which `onIncomingDeposit` was
called (`updateOne` issued) and those for which `sendTelegram` was called. -/
structure World where
  ledger : Ledger
  writes : List Transfer
  notified : List Transfer
  deriving DecidableEq

/-- Whether the ledger holds a document with key `(wallet, txid)`. -/
def Ledger.hasKey (l : Ledger) (wallet txid : String) : Bool :=
  l.any (fun d => d.wallet = wallet ∧ d.txid = txid)

/-- Number of ledger documents with key `(wallet, txid)`. -/
def Ledger.countKey (l : Ledger) (wallet txid : String) : Nat :=
  l.countP (fun d => d.wallet = wallet ∧ d.txid = txid)

/-- The document `onIncomingDeposit` builds for a record. -/
def depositDoc (wallet : String) (t : Transfer) : Doc :=
  { wallet := wallet
    txid := t.transaction_id
    amountRaw := t.quant
    amount := quantToTokenAmount t.quant (t.tokenDecimal.getD DEFAULT_DECIMALS)
    blockTs := t.block_ts }

/-- Source function `onIncomingDeposit(wallet, tx)`: upsert with `$setOnInsert`,
then `sendTelegram` on a true insertion. Returns the effects and whether it threw. -/
def onIncomingDeposit (env : Env) (wallet : String) (t : Transfer) (w : World) : World × Bool :=
  let w1 : World := { w with writes := w.writes ++ [t] }
  if env.ledgerFails t then (w1, true)
  else if w1.ledger.hasKey wallet t.transaction_id then (w1, false)
  else
    let w2 : World := { w1 with ledger := w1.ledger ++ [depositDoc wallet t],
                                notified := w1.notified ++ [t] }
    (w2, env.telegramFails t)

/-! ## Per-wallet pass -/

/-- The `for (const t of incoming)` loop of `processWallet`. -/
def processLoop (env : Env) (wallet : String) :
    List Transfer → WState → World → WState × World × Bool
  | [], st, w => (st, w, false)
  | t :: rest, st, w =>
    if t.confirmed ≠ true then processLoop env wallet rest st w
    else if t.contractRet ≠ "SUCCESS" ∧ t.finalResult ≠ "SUCCESS" then
      processLoop env wallet rest st w
    else if t.revert = true then processLoop env wallet rest st w
    else if st.processed.seen t.transaction_id then processLoop env wallet rest st w
    else
      let st1 : WState := { st with processed := st.processed.assign t.transaction_id t.block_ts }
      match onIncomingDeposit env wallet t w with
      | (w1, true) => (st1, w1, true)
      | (w1, false) =>
        let st2 : WState := if st1.lastTs < t.block_ts then { st1 with lastTs := t.block_ts } else st1
        processLoop env wallet rest st2 w1

/-- Result of `processWallet`: the wallet state object as the call leaves it,
the ledger, the hook calls made, and whether the call threw. -/
structure Outcome where
  state : WState
  ledger : Ledger
  writes : List Transfer
  notified : List Transfer
  threw : Bool
  deriving DecidableEq

/-- Source function `processWallet(wallet, wState)`. -/
def processWallet (cfg : Config) (env : Env) (wallet : String) (wState : WState)
    (ledger : Ledger) : Outcome :=
  match fetchIncomingSince cfg env.upstream wallet wState.lastTs with
  | none => { state := wState, ledger := ledger, writes := [], notified := [], threw := true }
  | some incoming =>
    if incoming.length = 0 then
      { state := wState, ledger := ledger, writes := [], notified := [], threw := false }
    else
      let sorted := incoming.insertionSort (fun a b => a.block_ts ≤ b.block_ts)
      match processLoop env wallet sorted wState { ledger := ledger, writes := [], notified := [] } with
      | (st, w, true) =>
        { state := st, ledger := w.ledger, writes := w.writes, notified := w.notified, threw := true }
      | (st, w, false) =>
        { state := { st with processed := pruneProcessed st.processed 3000 },
          ledger := w.ledger, writes := w.writes, notified := w.notified, threw := false }

/-- A sequence of passes over one wallet, each with its own surroundings; the
state and the ledger a pass leaves are what the next pass starts from. -/
def scans (cfg : Config) (wallet : String) : List Env → WState → Ledger → WState × Ledger
  | [], st, l => (st, l)
  | env :: envs, st, l =>
    let out := processWallet cfg env wallet st l
    scans cfg wallet envs out.state out.ledger

/-! ## Sample inputs -/

/-- A valid inbound transfer to wallet `W` at timestamp 5. -/
def sampleDeposit : Transfer :=
  { transaction_id := "a", block_ts := 5, to_address := "W", from_address := "F",
    quant := 10229460000, confirmed := true, contractRet := "SUCCESS",
    finalResult := "SUCCESS", revert := false, tokenDecimal := some 6 }

/-- A second valid inbound transfer to `W`, at timestamp 6. -/
def sampleLater : Transfer := { sampleDeposit with transaction_id := "b", block_ts := 6 }

/-- The first sample with `confirmed` false. -/
def sampleUnconfirmed : Transfer := { sampleDeposit with confirmed := false }

/-- The first sample under a transaction id that is the name of a member every
plain object inherits (`Object.prototype.constructor`). -/
def inheritedNameDeposit : Transfer := { sampleDeposit with transaction_id := "constructor" }

/-- A configuration with one page of one entry (`TRONSCAN_LIMIT=1`, `TRONSCAN_MAX_PAGES=1`). -/
def singlePage : Config := { LIMIT := 1, MAX_PAGES := 1 }

/-- Surroundings in which the upstream serves `feed` and every ledger write rejects. -/
def ledgerDownEnv (cfg : Config) (feed : List Transfer) : Env :=
  { upstream := feedUpstream cfg feed
    ledgerFails := fun _ => true
    telegramFails := fun _ => false }

/-! ## Page requests -/

/-- The offsets `start` that the `while (page < MAX_PAGES)` loop of
`fetchIncomingSince` requests from the upstream, in order, with `pages`
iterations left: the same control flow as `fetchLoop`, recording each request. -/
def requestLoop (cfg : Config) (upstream : String → Nat → Option (List Transfer))
    (wallet : String) (lastTs : Nat) :
    Nat → Nat → List Transfer → List Nat
  | 0, _, _ => []
  | pages + 1, start, incoming =>
    start ::
      (match upstream wallet start with
      | none => []
      | some list =>
        if list.length = 0 then []
        else
          match scanPage wallet lastTs list incoming with
          | (_, true) => []
          | (incoming', false) =>
            requestLoop cfg upstream wallet lastTs pages (start + cfg.LIMIT) incoming')

/-- The page offsets `fetchIncomingSince(wallet, lastTs)` requests, in order. -/
def fetchRequests (cfg : Config) (upstream : String → Nat → Option (List Transfer))
    (wallet : String) (lastTs : Nat) : List Nat :=
  requestLoop cfg upstream wallet lastTs cfg.MAX_PAGES 0 []

/-- The scenario entry at `t = 1500`, inbound to `W`, confirmed and successful. -/
def scenarioNew : Transfer := { sampleDeposit with transaction_id := "n", block_ts := 1500 }

/-- The scenario entry at `t = 900`, inbound to `W`. -/
def scenarioOld : Transfer := { sampleDeposit with transaction_id := "o", block_ts := 900 }

/-- An entry at `t = 900` sent by `W` to another address. -/
def scenarioOutbound : Transfer :=
  { sampleDeposit with transaction_id := "x", block_ts := 900, to_address := "V",
                       from_address := "W" }

/-- One entry per page, up to three pages. -/
def threePages : Config := { LIMIT := 1, MAX_PAGES := 3 }

/-! ## Upstream client -/

/-- A rejected `axios.get`: `err?.response?.status` (`none` when there is no
response) and `Number(err?.response?.headers?.["retry-after"] || 0)`. -/
structure Failure where
  status : Option Nat
  retryAfter : Nat
  deriving DecidableEq

/-- What one `axios.get` does: resolve with a response or reject with an error. -/
inductive Reply (α : Type) where
  | ok (data : α)
  | fail (err : Failure)
  deriving DecidableEq

/-- The `retriable` flag of `axiosGetWithRetry`:
`status === 429 || (status >= 500 && status <= 599) || !status`. -/
def retriable (err : Failure) : Bool :=
  match err.status with
  | none => true
  | some s => s == 429 || (decide (500 ≤ s) && decide (s ≤ 599)) || s == 0

/-- Retryable outcomes in the words of the retry policy: HTTP status 429, any
status from 500 to 599, or no status at all. -/
def Failure.retryable (err : Failure) : Prop :=
  err.status = some 429 ∨ (∃ s, err.status = some s ∧ 500 ≤ s ∧ s ≤ 599) ∨ err.status = none

/-- The `delay` of `axiosGetWithRetry`:
`(retryAfter > 0 ? retryAfter * 1000 : baseDelayMs * Math.pow(2, attempt)) + jitter`. -/
def retryDelay (err : Failure) (baseDelayMs attempt jitter : Nat) : Nat :=
  (if err.retryAfter > 0 then err.retryAfter * 1000 else baseDelayMs * 2 ^ attempt) + jitter

/-- What a call of `axiosGetWithRetry` did: its result (the response, or the
error it threw), the number of requests it issued and the waits it slept. -/
structure Attempted (α : Type) where
  result : Except Failure α
  requests : Nat
  delays : List Nat

/-- The `while (true)` loop of `axiosGetWithRetry` at attempt number `attempt`,
with `remaining = retries - attempt` retries left (`attempt >= retries` is
`remaining = 0`). `replies a` is what the request at attempt `a` does and
`rand a % 250` is `Math.floor(Math.random() * 250)` at attempt `a`. -/
def retryLoop {α : Type} (replies : Nat → Reply α) (rand : Nat → Nat) (baseDelayMs : Nat) :
    Nat → Nat → List Nat → Attempted α
  | 0, attempt, delays =>
    match replies attempt with
    | Reply.ok data => { result := Except.ok data, requests := attempt + 1, delays := delays }
    | Reply.fail err => { result := Except.error err, requests := attempt + 1, delays := delays }
  | remaining + 1, attempt, delays =>
    match replies attempt with
    | Reply.ok data => { result := Except.ok data, requests := attempt + 1, delays := delays }
    | Reply.fail err =>
      if retriable err = false then
        { result := Except.error err, requests := attempt + 1, delays := delays }
      else
        retryLoop replies rand baseDelayMs remaining (attempt + 1)
          (delays ++ [retryDelay err baseDelayMs attempt (rand attempt % 250)])

/-- Source function `axiosGetWithRetry(url, config, { retries, baseDelayMs })`. -/
def axiosGetWithRetry {α : Type} (replies : Nat → Reply α) (rand : Nat → Nat)
    (retries baseDelayMs : Nat) : Attempted α :=
  retryLoop replies rand baseDelayMs retries 0 []

/-- The scenario upstream: HTTP 429 twice, then a response. -/
def twice429 (data : List Transfer) : Nat → Reply (List Transfer)
  | 0 => Reply.fail { status := some 429, retryAfter := 0 }
  | 1 => Reply.fail { status := some 429, retryAfter := 0 }
  | _ => Reply.ok data

/-- An upstream that answers every request with the given failure. -/
def alwaysFails (err : Failure) : Nat → Reply (List Transfer) := fun _ => Reply.fail err

/-- Whether every pass of a sequence of passes over one wallet returns normally. -/
def scansOk (cfg : Config) (wallet : String) : List Env → WState → Ledger → Bool
  | [], _, _ => true
  | env :: envs, st, l =>
    !(processWallet cfg env wallet st l).threw &&
      scansOk cfg wallet envs (processWallet cfg env wallet st l).state
        (processWallet cfg env wallet st l).ledger

/-- Surroundings in which the upstream serves `feed`, ledger writes succeed and
every `sendTelegram` call throws. -/
def notifierDownEnv (cfg : Config) (feed : List Transfer) : Env :=
  { upstream := feedUpstream cfg feed
    ledgerFails := fun _ => false
    telegramFails := fun _ => true }

/-! ## Run pass -/

/-- The `wallets` object of the state file: wallet address to scan state, in
insertion order. -/
abbrev WalletMap := List (String × WState)

/-- Property read `state.wallets[wallet]`, as an own-key lookup: the wallet
addresses are the entries of the configured `WALLETS` list, taken not to be
member names of `Object.prototype`. -/
def WalletMap.find (m : WalletMap) (wallet : String) : Option WState := m.lookup wallet

/-- Assignment `state.wallets[wallet] = wState`: an existing key keeps its place. -/
def WalletMap.put : WalletMap → String → WState → WalletMap
  | [], wallet, ws => [(wallet, ws)]
  | (k, v) :: m, wallet, ws =>
    if k = wallet then (k, ws) :: m else (k, v) :: WalletMap.put m wallet ws

/-- What `safeReadJson(STATE_FILE, ...)` finds: no usable file (missing, empty or
not JSON, so the fallback is used), a saved state object, or the JSON value
`null`, on which `st.wallets` throws. -/
inductive StateFile where
  | absent
  | saved (wallets : WalletMap)
  | null
  deriving DecidableEq

/-- Source function `loadState()`: every wallet of `WALLETS` without an entry gets
`{ lastTs: 0, processed: {} }`; `none` when it throws. -/
def loadState (WALLETS : List String) : StateFile → Option WalletMap
  | StateFile.null => none
  | StateFile.absent =>
    some (WALLETS.foldl (fun m w => if (m.find w).isSome then m else m.put w freshState) [])
  | StateFile.saved wallets =>
    some (WALLETS.foldl (fun m w => if (m.find w).isSome then m else m.put w freshState) wallets)

/-- What persists on the machine between passes: the lock marker (present or
not), the state file and the ledger. -/
structure Machine where
  lock : Bool
  stateFile : StateFile
  ledger : Ledger
  deriving DecidableEq

/-- Source function `acquireLock()`: the exclusive create succeeds exactly when the
marker is absent. Returns the result and the marker afterwards. -/
def acquireLock (lock : Bool) : Bool × Bool :=
  if lock then (false, true) else (true, true)

/-- Source function `releaseLock()`: the marker is removed. -/
def releaseLock (_lock : Bool) : Bool := false

/-- The running values of the wallet loop of `run`. -/
structure LoopState where
  wallets : WalletMap
  ledger : Ledger
  scanned : List String
  writes : List Transfer
  notified : List Transfer
  failed : List String
  deriving DecidableEq

/-- One iteration of the wallet loop of `run`, the `try`/`catch` around
`processWallet`: a wallet whose call throws is logged (`failed`); its state
object keeps what the call changed in place. -/
def walletStep (cfg : Config) (env : Env) (wallet : String) (acc : LoopState) : LoopState :=
  let out := processWallet cfg env wallet ((acc.wallets.find wallet).getD freshState) acc.ledger
  { wallets :=
      if out.threw = true ∧ (acc.wallets.find wallet).isSome = false then acc.wallets
      else acc.wallets.put wallet out.state
    ledger := out.ledger
    scanned := acc.scanned ++ [wallet]
    writes := acc.writes ++ out.writes
    notified := acc.notified ++ out.notified
    failed := if out.threw = true then acc.failed ++ [wallet] else acc.failed }

/-- The `for (const wallet of WALLETS)` loop of `run`: the wallets are processed
one after the other, and a failure does not stop the loop. -/
def walletLoop (cfg : Config) (env : Env) : List String → LoopState → LoopState
  | [], acc => acc
  | wallet :: rest, acc => walletLoop cfg env rest (walletStep cfg env wallet acc)

/-- What one call of `run` did: the machine afterwards, the state object handed
to `safeWriteJson`, the wallets scanned, the ledger hook and notifier calls, the
wallets whose processing failed, whether the lock was acquired and whether an
exception escaped. -/
structure RunOutcome where
  machine : Machine
  wallets : WalletMap
  scanned : List String
  writes : List Transfer
  notified : List Transfer
  failed : List String
  acquired : Bool
  threw : Bool
  deriving DecidableEq

/-- Source function `run` of `CronJob`: `acquireLock`, then inside `try`
`loadState`, the wallet loop and `safeWriteJson` (whose failure is only logged),
and `releaseLock` in `finally`. -/
def run (cfg : Config) (WALLETS : List String) (env : Env) (stateWriteFails : Bool)
    (m : Machine) : RunOutcome :=
  match acquireLock m.lock with
  | (false, lock) =>
    { machine := { m with lock := lock }, wallets := [], scanned := [], writes := [],
      notified := [], failed := [], acquired := false, threw := false }
  | (true, lock) =>
    match loadState WALLETS m.stateFile with
    | none =>
      { machine := { m with lock := releaseLock lock }, wallets := [], scanned := [],
        writes := [], notified := [], failed := [], acquired := true, threw := true }
    | some wallets =>
      let acc := walletLoop cfg env WALLETS
        { wallets := wallets, ledger := m.ledger, scanned := [], writes := [], notified := [],
          failed := [] }
      { machine :=
          { lock := releaseLock lock
            stateFile := if stateWriteFails then m.stateFile else StateFile.saved acc.wallets
            ledger := acc.ledger }
        wallets := acc.wallets, scanned := acc.scanned, writes := acc.writes,
        notified := acc.notified, failed := acc.failed, acquired := true, threw := false }

/-- An upstream that serves, for each wallet, its own feed in pages of `LIMIT`. -/
def feedsUpstream (cfg : Config) (feeds : String → List Transfer) :
    String → Nat → Option (List Transfer) :=
  fun wallet start => some (((feeds wallet).drop start).take cfg.LIMIT)

/-- A machine with no lock marker, no state file and an empty ledger. -/
def cleanMachine : Machine := { lock := false, stateFile := StateFile.absent, ledger := [] }

/-- Surroundings in which the upstream serves, for wallet `W`, one page holding
the deposit `b` and throws on the next request, and an empty feed for every
other wallet. -/
def secondPageDownEnv : Env :=
  { upstream := fun wallet start =>
      if wallet = "W" then (if start = 0 then some [sampleLater] else none) else some []
    ledgerFails := fun _ => false
    telegramFails := fun _ => false }

/-- Surroundings in which every page request throws. -/
def upstreamDownEnv : Env :=
  { upstream := fun _ _ => none
    ledgerFails := fun _ => false
    telegramFails := fun _ => false }

/-- A wallet state on which a pass over the feeds changes nothing: whatever the
ledger holds and whatever the ledger and the notifier do, `processWallet`
returns it unchanged without calling the hook. -/
def Settled (cfg : Config) (feeds : String → List Transfer) (wallet : String)
    (s : WState) : Prop :=
  ∀ env2 : Env, (∀ start, env2.upstream wallet start = feedsUpstream cfg feeds wallet start) →
    ∀ ledger2 : Ledger, processWallet cfg env2 wallet s ledger2 =
      { state := s, ledger := ledger2, writes := [], notified := [], threw := false }

/-- A dedup map of 3000 entries: 2999 at timestamp 100 and, last, `a` at 7. -/
def fullMap : Processed :=
  (List.range 2999).map (fun i => ("t" ++ toString i, 100)) ++ [("a", 7)]

/-- The sample deposit `a` at block timestamp 7. -/
def staleDeposit : Transfer := { sampleDeposit with block_ts := 7 }

/-- A machine whose state file holds, for wallet `W`, the watermark 0 and the
3000-entry dedup map, with an empty ledger. -/
def fullMachine : Machine :=
  { lock := false
    stateFile := StateFile.saved [("W", { lastTs := 0, processed := fullMap })]
    ledger := [] }

end ScronWallet

/-! # Properties -/

namespace ScronWallet

/-! ## Decimal digits -/

theorem digitChar_spec : ∀ k, k < 10 →
    digitValue (Nat.digitChar k) = k ∧ (Nat.digitChar k).isDigit = true ∧ Nat.digitChar k ≠ '.' := by
  decide

theorem foldl_digits (s : List Char) (acc : Nat) :
    s.foldl (fun acc c => 10 * acc + digitValue c) acc = acc * 10 ^ s.length + natOfDigits s := by
  induction s generalizing acc with
  | nil => simp [natOfDigits]
  | cons c s ih =>
    simp only [natOfDigits, List.foldl_cons, List.length_cons]
    rw [ih, ih (10 * 0 + digitValue c)]
    simp only [natOfDigits]
    ring

theorem natOfDigits_append (a b : List Char) :
    natOfDigits (a ++ b) = natOfDigits a * 10 ^ b.length + natOfDigits b := by
  unfold natOfDigits
  rw [List.foldl_append, foldl_digits]
  rfl

theorem natOfDigits_replicate_zero (k : Nat) : natOfDigits (List.replicate k '0') = 0 := by
  induction k with
  | zero => rfl
  | succ k ih =>
    have h : List.replicate (k + 1) '0' = ['0'] ++ List.replicate k '0' := rfl
    have h0 : natOfDigits ['0'] = 0 := by decide
    rw [h, natOfDigits_append, ih, h0]
    simp

theorem toDigitsCore_acc (fuel : Nat) : ∀ (n : Nat) (ds : List Char),
    Nat.toDigitsCore 10 fuel n ds = Nat.toDigitsCore 10 fuel n [] ++ ds := by
  induction fuel with
  | zero => intro n ds; simp [Nat.toDigitsCore]
  | succ fuel ih =>
    intro n ds
    simp only [Nat.toDigitsCore]
    by_cases h : n / 10 = 0
    · simp [h]
    · simp only [h, if_false]
      rw [ih (n / 10) (Nat.digitChar (n % 10) :: ds), ih (n / 10) [Nat.digitChar (n % 10)]]
      simp

theorem toDigitsCore_spec (fuel : Nat) : ∀ n, n < fuel →
    natOfDigits (Nat.toDigitsCore 10 fuel n []) = n ∧
    (∀ c ∈ Nat.toDigitsCore 10 fuel n [], c.isDigit = true ∧ c ≠ '.') ∧
    Nat.toDigitsCore 10 fuel n [] ≠ [] := by
  induction fuel with
  | zero => intro n hn; omega
  | succ fuel ih =>
    intro n hn
    have hd := digitChar_spec (n % 10) (Nat.mod_lt _ (by decide))
    simp only [Nat.toDigitsCore]
    by_cases h : n / 10 = 0
    · simp only [h, if_true]
      refine ⟨?_, ?_, by simp⟩
      · simp only [natOfDigits, List.foldl_cons, List.foldl_nil, hd.1]
        omega
      · intro c hc
        simp only [List.mem_singleton] at hc
        subst hc
        exact hd.2
    · simp only [h, if_false]
      rw [toDigitsCore_acc]
      have hlt : n / 10 < fuel := by omega
      obtain ⟨h1, h2, h3⟩ := ih (n / 10) hlt
      refine ⟨?_, ?_, by simp [h3]⟩
      · rw [natOfDigits_append, h1]
        simp only [natOfDigits, List.foldl_cons, List.foldl_nil, hd.1, List.length_singleton]
        omega
      · intro c hc
        rcases List.mem_append.1 hc with hc | hc
        · exact h2 c hc
        · simp only [List.mem_singleton] at hc
          subst hc
          exact hd.2

theorem bigIntToString_value (n : Nat) : natOfDigits (bigIntToString n) = n :=
  (toDigitsCore_spec (n + 1) n (Nat.lt_succ_self n)).1

theorem bigIntToString_digits (n : Nat) :
    ∀ c ∈ bigIntToString n, c.isDigit = true ∧ c ≠ '.' :=
  (toDigitsCore_spec (n + 1) n (Nat.lt_succ_self n)).2.1

theorem bigIntToString_ne_nil (n : Nat) : bigIntToString n ≠ [] :=
  (toDigitsCore_spec (n + 1) n (Nat.lt_succ_self n)).2.2

theorem bigIntToString_length (n e : Nat) (he : 0 < e) (hn : n < 10 ^ e) :
    (bigIntToString n).length ≤ e :=
  Nat.toDigitsCore_length 10 (by decide) (n + 1) n e hn he

theorem stripTrailingZeros_spec (s : List Char) :
    ∃ k, s = stripTrailingZeros s ++ List.replicate k '0' ∧
      (stripTrailingZeros s).getLast? ≠ some '0' := by
  refine ⟨(s.reverse.takeWhile (fun c => c == '0')).length, ?_, ?_⟩
  · have h1 : s.reverse.takeWhile (fun c => c == '0') =
        List.replicate (s.reverse.takeWhile (fun c => c == '0')).length '0' := by
      rw [List.eq_replicate_iff]
      refine ⟨rfl, ?_⟩
      intro b hb
      have := List.mem_takeWhile_imp hb
      simpa using this
    have h2 := List.takeWhile_append_dropWhile (fun c => c == '0') s.reverse
    have h3 : s = (s.reverse.dropWhile (fun c => c == '0')).reverse ++
        (s.reverse.takeWhile (fun c => c == '0')).reverse := by
      rw [← List.reverse_append, h2, List.reverse_reverse]
    rw [h1, List.reverse_replicate] at h3
    exact h3
  · unfold stripTrailingZeros
    rw [List.getLast?_reverse]
    have h := List.head?_dropWhile_not (fun c => c == '0') s.reverse
    intro hc
    rw [hc] at h
    simp at h

theorem quantChars_split (q dec : Nat) :
    ∃ (z : Nat) (frac : List Char) (k : Nat),
      List.replicate z '0' ++ bigIntToString (q % 10 ^ dec) = frac ++ List.replicate k '0' ∧
      (q % 10 ^ dec = 0 ∨ z + (bigIntToString (q % 10 ^ dec)).length = dec) ∧
      frac.getLast? ≠ some '0' ∧
      (frac = [] ↔ q % 10 ^ dec = 0) ∧
      natOfDigits frac * 10 ^ k = q % 10 ^ dec ∧
      (∀ c ∈ frac, c.isDigit = true) ∧
      quantChars q dec =
        if q % 10 ^ dec = 0 then bigIntToString (q / 10 ^ dec)
        else bigIntToString (q / 10 ^ dec) ++ '.' :: frac := by
  obtain ⟨k, hk, hlast⟩ :=
    stripTrailingZeros_spec (padStart (bigIntToString (q % 10 ^ dec)) dec '0')
  have hval : natOfDigits (padStart (bigIntToString (q % 10 ^ dec)) dec '0') = q % 10 ^ dec := by
    unfold padStart
    rw [natOfDigits_append, natOfDigits_replicate_zero, bigIntToString_value]
    simp
  have hmul : natOfDigits (stripTrailingZeros (padStart (bigIntToString (q % 10 ^ dec)) dec '0'))
      * 10 ^ k = q % 10 ^ dec := by
    have h := hval
    rw [hk, natOfDigits_append, natOfDigits_replicate_zero] at h
    simpa using h
  have hempty : stripTrailingZeros (padStart (bigIntToString (q % 10 ^ dec)) dec '0') = [] ↔
      q % 10 ^ dec = 0 := by
    constructor
    · intro h
      rw [h] at hmul
      simpa [natOfDigits] using hmul.symm
    · intro h
      rw [h]
      unfold stripTrailingZeros
      rw [List.reverse_eq_nil_iff, List.dropWhile_eq_nil_iff]
      intro x hx
      have h0 : bigIntToString 0 = ['0'] := by decide
      rw [List.mem_reverse, padStart, h0] at hx
      rcases List.mem_append.1 hx with hx | hx
      · rw [(List.mem_replicate.1 hx).2]; rfl
      · rw [List.mem_singleton.1 hx]; rfl
  refine ⟨dec - (bigIntToString (q % 10 ^ dec)).length,
    stripTrailingZeros (padStart (bigIntToString (q % 10 ^ dec)) dec '0'), k,
    hk, ?_, hlast, hempty, hmul, ?_, ?_⟩
  · by_cases hr : q % 10 ^ dec = 0
    · exact Or.inl hr
    · right
      have hdec : 0 < dec := by
        rcases Nat.eq_zero_or_pos dec with h | h
        · exfalso; apply hr; rw [h]; simp [Nat.mod_one]
        · exact h
      have hlen := bigIntToString_length (q % 10 ^ dec) dec hdec
        (Nat.mod_lt _ (Nat.pos_pow_of_pos _ (by decide)))
      omega
  · intro c hc
    have hsub : c ∈ padStart (bigIntToString (q % 10 ^ dec)) dec '0' := by
      rw [hk]; exact List.mem_append_left _ hc
    unfold padStart at hsub
    rcases List.mem_append.1 hsub with h | h
    · rw [(List.mem_replicate.1 h).2]; rfl
    · exact (bigIntToString_digits _ c h).1
  · unfold quantChars
    by_cases hr : q % 10 ^ dec = 0
    · simp only [hr, if_true]
      have := hempty.2 hr
      rw [hr] at this
      simp [this]
    · have hne := mt hempty.1 hr
      simp only [hr, if_false]
      simp [hne]

theorem integerDigits_plain (a : List Char) (ha : ∀ c ∈ a, c.isDigit = true ∧ c ≠ '.') :
    integerDigits a = a ∧ fractionDigits a = [] := by
  have hp : ∀ c ∈ a, (fun c => c != '.') c = true := by
    intro c hc; simpa using (ha c hc).2
  constructor
  · exact List.takeWhile_eq_self_iff.2 hp
  · unfold fractionDigits
    rw [List.dropWhile_eq_nil_iff.2 hp]
    rfl

theorem integerDigits_dotted (a f : List Char) (ha : ∀ c ∈ a, c.isDigit = true ∧ c ≠ '.') :
    integerDigits (a ++ '.' :: f) = a ∧ fractionDigits (a ++ '.' :: f) = f := by
  have hp : ∀ c ∈ a, (fun c => c != '.') c = true := by
    intro c hc; simpa using (ha c hc).2
  constructor
  · unfold integerDigits
    rw [List.takeWhile_append_of_pos hp]
    simp [List.takeWhile]
  · unfold fractionDigits
    rw [List.dropWhile_append_of_pos hp]
    simp [List.dropWhile]

theorem parseDecimal_quantText (q dec : Nat) :
    ∃ v : ℚ, parseDecimal (quantText q dec) = some v ∧ v * (10 : ℚ) ^ dec = (q : ℚ) := by
  obtain ⟨z, frac, k, hsplit, hlen, -, hempty, hmul, hdig, htext⟩ := quantChars_split q dec
  have hI := bigIntToString_digits (q / 10 ^ dec)
  have hIne := bigIntToString_ne_nil (q / 10 ^ dec)
  have hIall : (bigIntToString (q / 10 ^ dec)).all Char.isDigit = true :=
    List.all_eq_true.2 (fun c hc => (hI c hc).1)
  have hq : q / 10 ^ dec * 10 ^ dec + q % 10 ^ dec = q := Nat.div_add_mod' q (10 ^ dec)
  by_cases hr : q % 10 ^ dec = 0
  · rw [if_pos hr] at htext
    obtain ⟨h1, h2⟩ := integerDigits_plain _ hI
    refine ⟨((q / 10 ^ dec : ℕ) : ℚ), ?_, ?_⟩
    · simp only [parseDecimal, quantText, htext, h1, h2]
      rw [if_pos]
      · have h0 : natOfDigits [] = 0 := rfl
        simp [bigIntToString_value, h0]
      · exact ⟨⟨hIne, Or.inl trivial⟩, hIall, rfl⟩
    · rw [hr, Nat.add_zero] at hq
      exact_mod_cast hq
  · rw [if_neg hr] at htext
    obtain ⟨h1, h2⟩ := integerDigits_dotted _ frac hI
    have hfne : frac ≠ [] := mt hempty.1 hr
    have hfall : frac.all Char.isDigit = true := List.all_eq_true.2 hdig
    have hdec : frac.length + k = dec := by
      rcases hlen with h | h
      · exact absurd h hr
      · have := congrArg List.length hsplit
        simp only [List.length_append, List.length_replicate] at this
        omega
    refine ⟨((q / 10 ^ dec : ℕ) : ℚ) + (natOfDigits frac : ℚ) / (10 : ℚ) ^ frac.length, ?_, ?_⟩
    · simp only [parseDecimal, quantText, htext, h1, h2]
      rw [if_pos]
      · simp [bigIntToString_value]
      · exact ⟨⟨hIne, Or.inr ⟨hfne, trivial⟩⟩, hIall, hfall⟩
    · have hq' : ((q / 10 ^ dec : ℕ) : ℚ) * (10 : ℚ) ^ dec +
          (natOfDigits frac : ℚ) * (10 : ℚ) ^ k = (q : ℚ) := by
        rw [← hmul] at hq
        exact_mod_cast hq
      have h10 : ((10 : ℚ) ^ frac.length) ≠ 0 := pow_ne_zero _ (by norm_num)
      rw [← hq', ← hdec, pow_add]
      field_simp
      ring

/-- C8: the decimal text built by `quantToTokenAmount` reads back, as an exact
rational, to a value whose product with `10 ^ dec` is the raw quantity `q`; and
the text for `q = 10229460000`, `dec = 6` is `10229.46`. -/
theorem quantText_roundtrip :
    (∀ q dec : Nat, ∃ v : ℚ,
      parseDecimal (quantText q dec) = some v ∧ v * (10 : ℚ) ^ dec = (q : ℚ)) ∧
    quantText 10229460000 6 = "10229.46" :=
  ⟨parseDecimal_quantText, by decide⟩

/-- C9: the text is the decimal quotient `q / 10 ^ dec`, followed exactly when the
remainder `q % 10 ^ dec` is non-zero by `.` and `frac`, where the remainder
left-padded with zeros to `dec` digits is `frac` followed by zeros only and
`frac` does not end in a zero; for a zero remainder it is the quotient alone. -/
theorem quantText_shape (q dec : Nat) :
    ∃ (z : Nat) (frac : List Char) (k : Nat),
      List.replicate z '0' ++ bigIntToString (q % 10 ^ dec) = frac ++ List.replicate k '0' ∧
      (q % 10 ^ dec = 0 ∨ z + (bigIntToString (q % 10 ^ dec)).length = dec) ∧
      frac.getLast? ≠ some '0' ∧
      (frac = [] ↔ q % 10 ^ dec = 0) ∧
      quantText q dec =
        if q % 10 ^ dec = 0 then String.mk (bigIntToString (q / 10 ^ dec))
        else String.mk (bigIntToString (q / 10 ^ dec) ++ '.' :: frac) := by
  obtain ⟨z, frac, k, h1, h2, h3, h4, -, -, h7⟩ := quantChars_split q dec
  refine ⟨z, frac, k, h1, h2, h3, h4, ?_⟩
  unfold quantText
  rw [h7]
  split <;> rfl

/-- Values that binary64 holds exactly come back exactly: `2 ^ 53`, `5` and `1.5`. -/
theorem quantToTokenAmount_exact_samples :
    (quantToTokenAmount 9007199254740992 0).toRat = some (9007199254740992 : ℚ) ∧
    (quantToTokenAmount 5000000 6).toRat = some (5 : ℚ) ∧
    (quantToTokenAmount 1500000 6).toRat = some ((1500000 : ℚ) / (10 : ℚ) ^ 6) := by
  have h1 : quantToTokenAmount 9007199254740992 0 = JsNumber.finite 4503599627370496 1 := by
    decide
  have h2 : quantToTokenAmount 5000000 6 = JsNumber.finite 5629499534213120 (-50) := by
    decide
  have h3 : quantToTokenAmount 1500000 6 = JsNumber.finite 6755399441055744 (-52) := by
    decide
  rw [h1, h2, h3]
  simp only [JsNumber.toRat]
  norm_num

/-- C10 (failing input): for the raw quantity `9007199254740993000000` with 6
decimals the text is `9007199254740993`, and `Number` of it is
`4503599627370496 * 2 ^ 1 = 9007199254740992`, not the exact quotient
`9007199254740993`. -/
theorem quantToTokenAmount_inexact :
    quantText 9007199254740993000000 6 = "9007199254740993" ∧
    quantToTokenAmount 9007199254740993000000 6 = JsNumber.finite 4503599627370496 1 ∧
    (quantToTokenAmount 9007199254740993000000 6).toRat = some (9007199254740992 : ℚ) ∧
    (quantToTokenAmount 9007199254740993000000 6).toRat ≠
      some ((9007199254740993000000 : ℚ) / (10 : ℚ) ^ 6) := by
  have h : quantToTokenAmount 9007199254740993000000 6 = JsNumber.finite 4503599627370496 1 := by
    decide
  refine ⟨by decide, h, ?_, ?_⟩
  · rw [h]
    simp only [JsNumber.toRat]
    norm_num
  · rw [h]
    simp only [JsNumber.toRat]
    norm_num

/-! ## Scan -/

theorem takeWhile_append_of_not_all {α : Type} (p : α → Bool) (a b : List α)
    (h : a.all p = false) : (a ++ b).takeWhile p = a.takeWhile p := by
  induction a with
  | nil => simp at h
  | cons x a ih =>
    by_cases hx : p x = true
    · have ha : a.all p = false := by simpa [hx] using h
      simp [List.takeWhile, hx, ih ha]
    · simp [List.takeWhile, hx]

theorem scanPage_spec (wallet : String) (lastTs : Nat) (list : List Transfer) :
    ∀ incoming, scanPage wallet lastTs list incoming =
      (incoming ++ (list.filter (fun t => decide (t.to_address = wallet))).takeWhile
          (fun t => decide (lastTs < t.block_ts)),
       !(list.filter (fun t => decide (t.to_address = wallet))).all
          (fun t => decide (lastTs < t.block_ts))) := by
  induction list with
  | nil => intro incoming; simp [scanPage]
  | cons t rest ih =>
    intro incoming
    unfold scanPage
    by_cases h1 : t.to_address = wallet
    · by_cases h2 : t.block_ts ≤ lastTs
      · have h3 : ¬ lastTs < t.block_ts := by omega
        simp [h1, h2, h3, List.takeWhile]
      · have h3 : lastTs < t.block_ts := by omega
        simp [h1, h2, h3, ih, List.takeWhile]
    · simp [h1, ih]

theorem fetchLoop_spec (cfg : Config) (feed : List Transfer) (wallet : String) (lastTs : Nat)
    (pages : Nat) : ∀ start incoming,
    fetchLoop cfg (feedUpstream cfg feed) wallet lastTs pages start incoming =
      some (incoming ++
        ((((feed.drop start).take (pages * cfg.LIMIT)).filter
          (fun t => decide (t.to_address = wallet))).takeWhile
          (fun t => decide (lastTs < t.block_ts)))) := by
  induction pages with
  | zero => intro start incoming; simp [fetchLoop]
  | succ p ih =>
    intro start incoming
    have hsplit : (feed.drop start).take ((p + 1) * cfg.LIMIT) =
        (feed.drop start).take cfg.LIMIT ++
          (feed.drop (start + cfg.LIMIT)).take (p * cfg.LIMIT) := by
      rw [Nat.succ_mul, Nat.add_comm (p * cfg.LIMIT), List.take_add, List.drop_drop]
    simp only [fetchLoop, feedUpstream]
    by_cases hlen : ((feed.drop start).take cfg.LIMIT).length = 0
    · have hnil : (feed.drop start).take cfg.LIMIT = [] := List.length_eq_zero.1 hlen
      have hall : (feed.drop start).take ((p + 1) * cfg.LIMIT) = [] := by
        rcases Nat.eq_zero_or_pos cfg.LIMIT with h0 | hpos
        · rw [h0]; simp
        · have hd : feed.drop start = [] := by
            rcases List.take_eq_nil_iff.1 hnil with h | h
            · omega
            · exact h
          rw [hd]; simp
      simp [hlen, hall]
    · simp only [hlen, if_false]
      rw [scanPage_spec]
      by_cases hall : (((feed.drop start).take cfg.LIMIT).filter
          (fun t => decide (t.to_address = wallet))).all
          (fun t => decide (lastTs < t.block_ts)) = true
      · simp only [hall, Bool.not_true]
        rw [ih, hsplit, List.filter_append,
          List.takeWhile_append_of_pos (List.all_eq_true.1 hall),
          List.takeWhile_eq_self_iff.2 (List.all_eq_true.1 hall), List.append_assoc]
      · have hall' := Bool.eq_false_iff.2 hall
        simp only [hall', Bool.not_false]
        rw [hsplit, List.filter_append, takeWhile_append_of_not_all _ _ _ hall']

/-- Against an upstream serving `feed`, the scan returns, in feed order, the
inbound entries among the first `MAX_PAGES * LIMIT` that precede the first
inbound entry with `block_ts ≤ lastTs`. -/
theorem fetchIncomingSince_feed (cfg : Config) (feed : List Transfer) (wallet : String)
    (lastTs : Nat) :
    fetchIncomingSince cfg (feedUpstream cfg feed) wallet lastTs =
      some ((((feed.take (cfg.MAX_PAGES * cfg.LIMIT)).filter
        (fun t => decide (t.to_address = wallet))).takeWhile
        (fun t => decide (lastTs < t.block_ts)))) := by
  unfold fetchIncomingSince
  rw [fetchLoop_spec]
  simp

theorem mem_takeWhile_of_sorted (lastTs : Nat) (l : List Transfer)
    (hs : l.Pairwise (fun a b => b.block_ts ≤ a.block_ts)) (t : Transfer) (ht : t ∈ l)
    (hnew : lastTs < t.block_ts) :
    t ∈ l.takeWhile (fun t => decide (lastTs < t.block_ts)) := by
  induction l with
  | nil => cases ht
  | cons x l ih =>
    rw [List.pairwise_cons] at hs
    rcases List.mem_cons.1 ht with h | h
    · subst h
      simp [List.takeWhile, hnew]
    · have hx : lastTs < x.block_ts := lt_of_lt_of_le hnew (hs.1 t h)
      simp only [List.takeWhile, hx, decide_True]
      exact List.mem_cons_of_mem _ (ih hs.2 h)

/-- With the feed in descending timestamp order and no new inbound entry beyond
the page budget, every inbound entry newer than `lastTs` is returned. -/
theorem mem_fetch_of_sorted (cfg : Config) (feed : List Transfer) (wallet : String)
    (lastTs : Nat)
    (hs : feed.Pairwise (fun a b => b.block_ts ≤ a.block_ts))
    (hbudget : ∀ t ∈ feed.drop (cfg.MAX_PAGES * cfg.LIMIT),
      ¬ (t.to_address = wallet ∧ lastTs < t.block_ts))
    (t : Transfer) (ht : t ∈ feed) (hto : t.to_address = wallet) (hnew : lastTs < t.block_ts) :
    t ∈ (((feed.take (cfg.MAX_PAGES * cfg.LIMIT)).filter
        (fun t => decide (t.to_address = wallet))).takeWhile
        (fun t => decide (lastTs < t.block_ts))) := by
  have hmem : t ∈ feed.take (cfg.MAX_PAGES * cfg.LIMIT) := by
    rw [← List.take_append_drop (cfg.MAX_PAGES * cfg.LIMIT) feed] at ht
    rcases List.mem_append.1 ht with h | h
    · exact h
    · exact absurd ⟨hto, hnew⟩ (hbudget t h)
  apply mem_takeWhile_of_sorted
  · exact (hs.sublist (List.take_sublist _ _)).sublist (List.filter_sublist _)
  · exact List.mem_filter.2 ⟨hmem, by simpa using hto⟩
  · exact hnew

/-! ## Dedup map -/

theorem Processed.own_store_ne (m : Processed) (k k' : String) (v : Nat) (h : k ≠ k') :
    (m.store k' v).own k = m.own k := by
  have hb : (k == k') = false := by simpa using h
  induction m with
  | nil =>
    simp [Processed.store, Processed.own, List.lookup, hb]
  | cons p m ih =>
    obtain ⟨a, b⟩ := p
    unfold Processed.store
    by_cases hk : a = k'
    · subst hk
      simp [Processed.own, List.lookup, hb]
    · simp only [hk, if_false]
      simp only [Processed.own, List.lookup] at ih ⊢
      rw [ih]

theorem Processed.own_store_self (m : Processed) (k : String) (v : Nat) :
    (m.store k v).own k = some v := by
  induction m with
  | nil => simp [Processed.store, Processed.own, List.lookup]
  | cons p m ih =>
    obtain ⟨a, b⟩ := p
    unfold Processed.store
    by_cases hk : a = k
    · subst hk
      simp [Processed.own, List.lookup]
    · simp only [hk, if_false]
      have hk' : (k == a) = false := by simpa using (Ne.symm hk)
      simp only [Processed.own, List.lookup, hk'] at ih ⊢
      exact ih

/-- A name the dedup test does not find is not the bare inherited `__proto__`,
so the assignment writes the own entry. -/
theorem Processed.assign_of_unseen (m : Processed) (k : String) (v : Nat)
    (h : m.seen k = false) : m.assign k v = m.store k v := by
  unfold Processed.assign
  split
  · rename_i hc
    obtain ⟨h1, h2⟩ := hc
    exfalso
    unfold Processed.hasKey at h2
    unfold Processed.seen Processed.read at h
    cases ho : m.own k with
    | some ts => rw [ho] at h2; cases h2
    | none =>
      rw [ho, h1] at h
      revert h
      decide
  · rfl

theorem Processed.assign_of_hasKey (m : Processed) (k : String) (v : Nat)
    (h : m.hasKey k = true) : m.assign k v = m.store k v := by
  unfold Processed.assign
  simp [h]

theorem Processed.own_assign_ne (m : Processed) (k k' : String) (v : Nat) (h : k ≠ k') :
    (m.assign k' v).own k = m.own k := by
  unfold Processed.assign
  split
  · rfl
  · exact Processed.own_store_ne m k k' v h

theorem Processed.own_assign_self (m : Processed) (k : String) (v : Nat)
    (h : m.seen k = false) : (m.assign k v).own k = some v := by
  rw [Processed.assign_of_unseen m k v h]
  exact Processed.own_store_self m k v

theorem Processed.read_assign_ne (m : Processed) (k k' : String) (v : Nat) (h : k ≠ k') :
    (m.assign k' v).read k = m.read k := by
  unfold Processed.read
  rw [Processed.own_assign_ne m k k' v h]

theorem Processed.seen_assign (m : Processed) (k k' : String) (v : Nat)
    (hk' : m.seen k' = false) (h : m.seen k = true) : (m.assign k' v).seen k = true := by
  have hne : k ≠ k' := by
    intro he; rw [he, hk'] at h; cases h
  unfold Processed.seen at h ⊢
  rw [Processed.read_assign_ne m k k' v hne]
  exact h

theorem Processed.hasKey_assign (m : Processed) (k k' : String) (v : Nat)
    (h : (m.assign k' v).hasKey k = true) : k = k' ∨ m.hasKey k = true := by
  by_cases hne : k = k'
  · exact Or.inl hne
  · right
    unfold Processed.hasKey at h ⊢
    rw [Processed.own_assign_ne m k k' v hne] at h
    exact h

theorem Processed.hasKey_iff (m : Processed) (k : String) :
    m.hasKey k = true ↔ ∃ v, (k, v) ∈ m := by
  induction m with
  | nil => simp [Processed.hasKey, Processed.own, List.lookup]
  | cons p m ih =>
    obtain ⟨a, b⟩ := p
    by_cases hk : k = a
    · subst hk
      simp [Processed.hasKey, Processed.own, List.lookup]
    · have hk' : (k == a) = false := by simpa using hk
      simp only [Processed.hasKey, Processed.own, List.lookup, hk'] at ih ⊢
      rw [ih]
      simp [hk]

/-- An own entry shadows the inherited member: a txid that is a key is seen
exactly when its timestamp is non-zero. -/
theorem Processed.seen_of_own (m : Processed) (k : String) (v : Nat)
    (h : m.own k = some v) : m.seen k = (v != 0) := by
  unfold Processed.seen Processed.read
  rw [h]
  rfl

/-- A txid that is seen without being a member name of `Object.prototype` is a
key of the map. -/
theorem Processed.hasKey_of_seen (m : Processed) (k : String)
    (hk : k ∉ objectPrototypeKeys) (h : m.seen k = true) : m.hasKey k = true := by
  unfold Processed.seen Processed.read at h
  unfold Processed.hasKey
  cases ho : m.own k with
  | some ts => rfl
  | none =>
    rw [ho] at h
    have hc : objectPrototypeKeys.contains k = false := by
      simpa using hk
    simp only [hc] at h
    cases h

theorem pruneProcessed_hasKey (m : Processed) (keepLast : Nat) (k : String)
    (h : (pruneProcessed m keepLast).hasKey k = true) : m.hasKey k = true := by
  unfold pruneProcessed at h
  split at h
  · exact h
  · rw [Processed.hasKey_iff] at h ⊢
    obtain ⟨v, hv⟩ := h
    exact ⟨v, (List.perm_insertionSort _ m).mem_iff.1 (List.mem_of_mem_take hv)⟩

/-! ## Ledger hook -/

theorem Ledger.hasKey_iff_count (l : Ledger) (wallet txid : String) :
    l.hasKey wallet txid = true ↔ 0 < l.countKey wallet txid := by
  unfold Ledger.hasKey Ledger.countKey
  rw [List.any_eq_true, List.countP_pos_iff]

theorem Ledger.hasKey_append (l l' : Ledger) (wallet txid : String) :
    (l ++ l').hasKey wallet txid = (l.hasKey wallet txid || l'.hasKey wallet txid) := by
  unfold Ledger.hasKey
  rw [List.any_append]

theorem onIncomingDeposit_writes (env : Env) (wallet : String) (t : Transfer) (w : World) :
    (onIncomingDeposit env wallet t w).1.writes = w.writes ++ [t] := by
  unfold onIncomingDeposit
  simp only
  split
  · rfl
  · split <;> rfl

theorem onIncomingDeposit_notified (env : Env) (wallet : String) (t : Transfer) (w : World) :
    (onIncomingDeposit env wallet t w).1.notified = w.notified ∨
    (onIncomingDeposit env wallet t w).1.notified = w.notified ++ [t] := by
  unfold onIncomingDeposit
  simp only
  split
  · exact Or.inl rfl
  · split
    · exact Or.inl rfl
    · exact Or.inr rfl

theorem onIncomingDeposit_ledger (env : Env) (wallet : String) (t : Transfer) (w : World) :
    (onIncomingDeposit env wallet t w).1.ledger = w.ledger ∨
    (w.ledger.hasKey wallet t.transaction_id = false ∧
      (onIncomingDeposit env wallet t w).1.ledger = w.ledger ++ [depositDoc wallet t]) := by
  unfold onIncomingDeposit
  simp only
  split
  · exact Or.inl rfl
  · split
    · exact Or.inl rfl
    · rename_i h
      exact Or.inr ⟨by simpa using h, rfl⟩

theorem onIncomingDeposit_mono (env : Env) (wallet : String) (t : Transfer) (w : World)
    (k : String) (h : w.ledger.hasKey wallet k = true) :
    (onIncomingDeposit env wallet t w).1.ledger.hasKey wallet k = true := by
  rcases onIncomingDeposit_ledger env wallet t w with h1 | ⟨-, h1⟩
  · rw [h1]; exact h
  · rw [h1, Ledger.hasKey_append, h]; rfl

theorem onIncomingDeposit_done (env : Env) (wallet : String) (t : Transfer) (w : World)
    (h : (onIncomingDeposit env wallet t w).2 = false) :
    (onIncomingDeposit env wallet t w).1.ledger.hasKey wallet t.transaction_id = true := by
  unfold onIncomingDeposit at h ⊢
  simp only at h ⊢
  split
  · rename_i hf
    simp [hf] at h
  · split
    · rename_i hk
      exact hk
    · simp [Ledger.hasKey, depositDoc]

theorem onIncomingDeposit_unique (env : Env) (wallet : String) (t : Transfer) (w : World)
    (hu : ∀ k, w.ledger.countKey wallet k ≤ 1) :
    ∀ k, (onIncomingDeposit env wallet t w).1.ledger.countKey wallet k ≤ 1 := by
  intro k
  rcases onIncomingDeposit_ledger env wallet t w with h1 | ⟨h0, h1⟩
  · rw [h1]; exact hu k
  · rw [h1]
    unfold Ledger.countKey
    rw [List.countP_append]
    by_cases hk : k = t.transaction_id
    · subst hk
      have hz : w.ledger.countKey wallet t.transaction_id = 0 := by
        by_contra hne
        have hpos : 0 < w.ledger.countKey wallet t.transaction_id := Nat.pos_of_ne_zero hne
        rw [← Ledger.hasKey_iff_count, h0] at hpos
        cases hpos
      unfold Ledger.countKey at hz
      rw [hz]
      simp [List.countP_cons, depositDoc]
    · have := hu k
      unfold Ledger.countKey at this
      have hd : List.countP (fun d => decide (d.wallet = wallet ∧ d.txid = k))
          [depositDoc wallet t] = 0 := by
        simp [List.countP_cons, depositDoc, Ne.symm hk]
      rw [hd]
      exact this

/-! ## Per-wallet loop -/

theorem processLoop_skip (env : Env) (wallet : String) (t : Transfer) (rest : List Transfer)
    (st : WState) (w : World)
    (h : ¬ (t.valid ∧ st.processed.seen t.transaction_id = false)) :
    processLoop env wallet (t :: rest) st w = processLoop env wallet rest st w := by
  unfold Transfer.valid at h
  rw [processLoop]
  by_cases h1 : t.confirmed = true
  · by_cases h2 : t.contractRet ≠ "SUCCESS" ∧ t.finalResult ≠ "SUCCESS"
    · simp [h1, h2]
    · by_cases h3 : t.revert = true
      · simp [h1, h3]
      · by_cases h4 : st.processed.seen t.transaction_id = true
        · simp [h1, h4]
        · exfalso
          apply h
          refine ⟨⟨h1, ?_, by simpa using h3⟩, by simpa using h4⟩
          by_contra hc
          push_neg at hc
          exact h2 hc
  · simp [h1]

theorem processLoop_go (env : Env) (wallet : String) (t : Transfer) (rest : List Transfer)
    (st : WState) (w : World) (hv : t.valid) (hs : st.processed.seen t.transaction_id = false) :
    processLoop env wallet (t :: rest) st w =
      if (onIncomingDeposit env wallet t w).2 = true then
        ({ st with processed := st.processed.assign t.transaction_id t.block_ts },
          (onIncomingDeposit env wallet t w).1, true)
      else
        processLoop env wallet rest
          { lastTs := if st.lastTs < t.block_ts then t.block_ts else st.lastTs,
            processed := st.processed.assign t.transaction_id t.block_ts }
          (onIncomingDeposit env wallet t w).1 := by
  obtain ⟨h1, h2, h3⟩ := hv
  rw [processLoop]
  have h2' : ¬ (t.contractRet ≠ "SUCCESS" ∧ t.finalResult ≠ "SUCCESS") := by
    rintro ⟨ha, hb⟩
    rcases h2 with h2 | h2
    · exact ha h2
    · exact hb h2
  simp only [h1, h2', h3, hs, ne_eq, not_true_eq_false, if_false, Bool.false_eq_true]
  generalize onIncomingDeposit env wallet t w = r
  obtain ⟨w1, b⟩ := r
  cases b
  · simp only [Bool.false_eq_true, if_false]
    split <;> rfl
  · simp

/-- Every hook call of the loop is for a record of the list that passes the
validity filter and whose txid the dedup map did not hold at the start. -/
theorem processLoop_calls (env : Env) (wallet : String) (l : List Transfer) :
    ∀ (st : WState) (w : World) (t : Transfer),
      (t ∈ (processLoop env wallet l st w).2.1.writes →
        t ∈ w.writes ∨ (t ∈ l ∧ t.valid ∧ st.processed.seen t.transaction_id = false)) ∧
      (t ∈ (processLoop env wallet l st w).2.1.notified →
        t ∈ w.notified ∨ (t ∈ l ∧ t.valid ∧ st.processed.seen t.transaction_id = false)) := by
  induction l with
  | nil => intro st w t; simp [processLoop]
  | cons x rest ih =>
    intro st w t
    by_cases hgo : x.valid ∧ st.processed.seen x.transaction_id = false
    · obtain ⟨hv, hs⟩ := hgo
      rw [processLoop_go env wallet x rest st w hv hs]
      have hw := onIncomingDeposit_writes env wallet x w
      have hn := onIncomingDeposit_notified env wallet x w
      have hx : ∀ u, u ∈ (onIncomingDeposit env wallet x w).1.writes →
          u ∈ w.writes ∨ (u ∈ x :: rest ∧ u.valid ∧ st.processed.seen u.transaction_id = false) := by
        intro u hu
        rw [hw] at hu
        rcases List.mem_append.1 hu with h | h
        · exact Or.inl h
        · rw [List.mem_singleton.1 h]
          exact Or.inr ⟨List.mem_cons_self _ _, hv, hs⟩
      have hy : ∀ u, u ∈ (onIncomingDeposit env wallet x w).1.notified →
          u ∈ w.notified ∨ (u ∈ x :: rest ∧ u.valid ∧ st.processed.seen u.transaction_id = false) := by
        intro u hu
        rcases hn with hn | hn
        · rw [hn] at hu; exact Or.inl hu
        · rw [hn] at hu
          rcases List.mem_append.1 hu with h | h
          · exact Or.inl h
          · rw [List.mem_singleton.1 h]
            exact Or.inr ⟨List.mem_cons_self _ _, hv, hs⟩
      split
      · exact ⟨hx t, hy t⟩
      · have hkeep : ∀ u : Transfer,
            (Processed.seen (st.processed.assign x.transaction_id x.block_ts)
              u.transaction_id = false) → st.processed.seen u.transaction_id = false := by
          intro u hu
          by_contra hc
          have hc' : st.processed.seen u.transaction_id = true := by simpa using hc
          rw [Processed.seen_assign _ _ _ _ hs hc'] at hu
          cases hu
        obtain ⟨i1, i2⟩ := ih
          { lastTs := if st.lastTs < x.block_ts then x.block_ts else st.lastTs,
            processed := st.processed.assign x.transaction_id x.block_ts }
          (onIncomingDeposit env wallet x w).1 t
        constructor
        · intro ht
          rcases i1 ht with h | ⟨h1, h2, h3⟩
          · exact hx t h
          · exact Or.inr ⟨List.mem_cons_of_mem _ h1, h2, hkeep t h3⟩
        · intro ht
          rcases i2 ht with h | ⟨h1, h2, h3⟩
          · exact hy t h
          · exact Or.inr ⟨List.mem_cons_of_mem _ h1, h2, hkeep t h3⟩
    · rw [processLoop_skip env wallet x rest st w hgo]
      obtain ⟨i1, i2⟩ := ih st w t
      constructor
      · intro ht
        rcases i1 ht with h | ⟨h1, h2, h3⟩
        · exact Or.inl h
        · exact Or.inr ⟨List.mem_cons_of_mem _ h1, h2, h3⟩
      · intro ht
        rcases i2 ht with h | ⟨h1, h2, h3⟩
        · exact Or.inl h
        · exact Or.inr ⟨List.mem_cons_of_mem _ h1, h2, h3⟩

/-- The loop only appends hook calls, never lowers `lastTs`, adds as keys only
txids it called the hook for, and when it does not throw leaves `lastTs` at the
maximum of its start value and the timestamps of the records it called the hook for. -/
theorem processLoop_trace (env : Env) (wallet : String) (l : List Transfer) :
    ∀ (st : WState) (w : World), ∃ new : List Transfer,
      (processLoop env wallet l st w).2.1.writes = w.writes ++ new ∧
      st.lastTs ≤ (processLoop env wallet l st w).1.lastTs ∧
      (∀ k, (processLoop env wallet l st w).1.processed.hasKey k = true →
        st.processed.hasKey k = true ∨ ∃ u ∈ new, u.transaction_id = k) ∧
      ((processLoop env wallet l st w).2.2 = false →
        (processLoop env wallet l st w).1.lastTs =
          (new.map (fun u => u.block_ts)).foldl max st.lastTs) := by
  induction l with
  | nil =>
    intro st w
    exact ⟨[], by simp [processLoop], by simp [processLoop],
      fun k hk => Or.inl (by simpa [processLoop] using hk), by simp [processLoop]⟩
  | cons x rest ih =>
    intro st w
    by_cases hgo : x.valid ∧ st.processed.seen x.transaction_id = false
    · obtain ⟨hv, hs⟩ := hgo
      rw [processLoop_go env wallet x rest st w hv hs]
      have hw := onIncomingDeposit_writes env wallet x w
      split
      · refine ⟨[x], hw, le_refl _, ?_, ?_⟩
        · intro k hk
          rcases Processed.hasKey_assign _ _ _ _ hk with h | h
          · exact Or.inr ⟨x, List.mem_singleton.2 rfl, h.symm⟩
          · exact Or.inl h
        · intro h; cases h
      · obtain ⟨new, h1, h2, h3, h4⟩ := ih
          { lastTs := if st.lastTs < x.block_ts then x.block_ts else st.lastTs,
            processed := st.processed.assign x.transaction_id x.block_ts }
          (onIncomingDeposit env wallet x w).1
        have hmax : (if st.lastTs < x.block_ts then x.block_ts else st.lastTs) =
            max st.lastTs x.block_ts := by
          split
          · rw [max_eq_right]; omega
          · rw [max_eq_left]; omega
        refine ⟨x :: new, ?_, ?_, ?_, ?_⟩
        · rw [h1, hw]; simp
        · refine le_trans ?_ h2
          simp only [hmax]
          exact le_max_left _ _
        · intro k hk
          rcases h3 k hk with h | ⟨u, hu, huk⟩
          · rcases Processed.hasKey_assign _ _ _ _ h with h' | h'
            · exact Or.inr ⟨x, List.mem_cons_self _ _, h'.symm⟩
            · exact Or.inl h'
          · exact Or.inr ⟨u, List.mem_cons_of_mem _ hu, huk⟩
        · intro hb
          rw [h4 hb]
          simp only [hmax, List.map_cons, List.foldl_cons]
    · rw [processLoop_skip env wallet x rest st w hgo]
      exact ih st w

/-- The ledger side of the loop: keys stay unique and are never removed, and
when the loop does not throw every valid record of the list has its key, unless
its txid is a member name of `Object.prototype`. The dedup entries meant are the
keys of the map that the dedup test finds. -/
theorem processLoop_ledger (env : Env) (wallet : String) (l : List Transfer) :
    ∀ (st : WState) (w : World),
      (∀ k, w.ledger.countKey wallet k ≤ 1) →
      (∀ k, st.processed.hasKey k = true → st.processed.seen k = true →
        w.ledger.hasKey wallet k = true) →
      (∀ k, (processLoop env wallet l st w).2.1.ledger.countKey wallet k ≤ 1) ∧
      (∀ k, w.ledger.hasKey wallet k = true →
        (processLoop env wallet l st w).2.1.ledger.hasKey wallet k = true) ∧
      ((processLoop env wallet l st w).2.2 = false →
        ∀ t ∈ l, t.valid → t.transaction_id ∉ objectPrototypeKeys →
          (processLoop env wallet l st w).2.1.ledger.hasKey wallet t.transaction_id = true) := by
  induction l with
  | nil =>
    intro st w hu _
    refine ⟨by simpa [processLoop] using hu, by simp [processLoop], by simp⟩
  | cons x rest ih =>
    intro st w hu hd
    by_cases hgo : x.valid ∧ st.processed.seen x.transaction_id = false
    · obtain ⟨hv, hs⟩ := hgo
      rw [processLoop_go env wallet x rest st w hv hs]
      have hu1 := onIncomingDeposit_unique env wallet x w hu
      have hm1 := onIncomingDeposit_mono env wallet x w
      split
      · exact ⟨hu1, hm1, fun h => by cases h⟩
      · rename_i hb
        have hb' : (onIncomingDeposit env wallet x w).2 = false := by simpa using hb
        have hx := onIncomingDeposit_done env wallet x w hb'
        have hd1 : ∀ k,
            Processed.hasKey (st.processed.assign x.transaction_id x.block_ts) k = true →
            Processed.seen (st.processed.assign x.transaction_id x.block_ts) k = true →
            (onIncomingDeposit env wallet x w).1.ledger.hasKey wallet k = true := by
          intro k hkey hk
          by_cases hkx : k = x.transaction_id
          · rw [hkx]; exact hx
          · apply hm1
            apply hd
            · unfold Processed.hasKey at hkey ⊢
              rw [Processed.own_assign_ne _ _ _ _ hkx] at hkey
              exact hkey
            · unfold Processed.seen at hk ⊢
              rw [Processed.read_assign_ne _ _ _ _ hkx] at hk
              exact hk
        obtain ⟨i1, i2, i3⟩ := ih
          { lastTs := if st.lastTs < x.block_ts then x.block_ts else st.lastTs,
            processed := st.processed.assign x.transaction_id x.block_ts }
          (onIncomingDeposit env wallet x w).1 hu1 hd1
        refine ⟨i1, fun k hk => i2 k (hm1 k hk), ?_⟩
        intro hok t ht htv hname
        rcases List.mem_cons.1 ht with h | h
        · rw [h]; exact i2 _ hx
        · exact i3 hok t h htv hname
    · rw [processLoop_skip env wallet x rest st w hgo]
      obtain ⟨i1, i2, i3⟩ := ih st w hu hd
      refine ⟨i1, i2, ?_⟩
      intro hok t ht htv hname
      rcases List.mem_cons.1 ht with h | h
      · subst h
        have hseen : st.processed.seen t.transaction_id = true := by
          by_contra hc
          exact hgo ⟨htv, by simpa using hc⟩
        exact i2 _ (hd _ (Processed.hasKey_of_seen _ _ hname hseen) hseen)
      · exact i3 hok t h htv hname

/-! ## Per-wallet pass -/

/-- The three ways `processWallet` ends: the scan throws, the scan is empty, or
the loop runs over the sorted scan result. -/
theorem processWallet_run (cfg : Config) (env : Env) (wallet : String) (st : WState)
    (ledger : Ledger) :
    (fetchIncomingSince cfg env.upstream wallet st.lastTs = none ∧
      processWallet cfg env wallet st ledger =
        { state := st, ledger := ledger, writes := [], notified := [], threw := true }) ∨
    (∃ incoming, fetchIncomingSince cfg env.upstream wallet st.lastTs = some incoming ∧
      incoming.length = 0 ∧
      processWallet cfg env wallet st ledger =
        { state := st, ledger := ledger, writes := [], notified := [], threw := false }) ∨
    (∃ incoming, fetchIncomingSince cfg env.upstream wallet st.lastTs = some incoming ∧
      incoming.length ≠ 0 ∧
      ∃ r, r = processLoop env wallet
            (incoming.insertionSort (fun a b => a.block_ts ≤ b.block_ts)) st
            { ledger := ledger, writes := [], notified := [] } ∧
        (processWallet cfg env wallet st ledger).state =
          (if r.2.2 = true then r.1
           else { r.1 with processed := pruneProcessed r.1.processed 3000 }) ∧
        (processWallet cfg env wallet st ledger).ledger = r.2.1.ledger ∧
        (processWallet cfg env wallet st ledger).writes = r.2.1.writes ∧
        (processWallet cfg env wallet st ledger).notified = r.2.1.notified ∧
        (processWallet cfg env wallet st ledger).threw = r.2.2) := by
  unfold processWallet
  cases hf : fetchIncomingSince cfg env.upstream wallet st.lastTs with
  | none => exact Or.inl ⟨rfl, rfl⟩
  | some incoming =>
    right
    by_cases hlen : incoming.length = 0
    · left
      exact ⟨incoming, rfl, hlen, by simp [hlen]⟩
    · right
      refine ⟨incoming, rfl, hlen, _, rfl, ?_⟩
      simp only [hlen, if_false]
      generalize processLoop env wallet
        (incoming.insertionSort (fun a b => a.block_ts ≤ b.block_ts)) st
        { ledger := ledger, writes := [], notified := [] } = r
      obtain ⟨st', w', b⟩ := r
      cases b <;> simp

/-- Every hook call of a pass is for a valid record whose txid the dedup map did
not hold when the pass began. -/
theorem processWallet_calls (cfg : Config) (env : Env) (wallet : String) (st : WState)
    (ledger : Ledger) (t : Transfer)
    (h : t ∈ (processWallet cfg env wallet st ledger).writes ∨
      t ∈ (processWallet cfg env wallet st ledger).notified) :
    t.valid ∧ st.processed.seen t.transaction_id = false := by
  rcases processWallet_run cfg env wallet st ledger with ⟨-, h1⟩ | ⟨_, -, -, h1⟩ |
    ⟨incoming, -, -, r, hr, -, -, hw, hn, -⟩
  · rw [h1] at h; simp at h
  · rw [h1] at h; simp at h
  · rw [hw, hn, hr] at h
    obtain ⟨c1, c2⟩ := processLoop_calls env wallet
      (incoming.insertionSort (fun a b => a.block_ts ≤ b.block_ts)) st
      { ledger := ledger, writes := [], notified := [] } t
    rcases h with h | h
    · rcases c1 h with h' | ⟨-, h2, h3⟩
      · simp at h'
      · exact ⟨h2, h3⟩
    · rcases c2 h with h' | ⟨-, h2, h3⟩
      · simp at h'
      · exact ⟨h2, h3⟩

/-- What a pass leaves of the state, in terms of the hook calls it made. -/
theorem processWallet_trace (cfg : Config) (env : Env) (wallet : String) (st : WState)
    (ledger : Ledger) :
    st.lastTs ≤ (processWallet cfg env wallet st ledger).state.lastTs ∧
    (∀ k, (processWallet cfg env wallet st ledger).state.processed.hasKey k = true →
      st.processed.hasKey k = true ∨
        ∃ u ∈ (processWallet cfg env wallet st ledger).writes, u.transaction_id = k) ∧
    ((processWallet cfg env wallet st ledger).threw = false →
      (processWallet cfg env wallet st ledger).state.lastTs =
        ((processWallet cfg env wallet st ledger).writes.map (fun u => u.block_ts)).foldl
          max st.lastTs) := by
  rcases processWallet_run cfg env wallet st ledger with ⟨-, h1⟩ | ⟨_, -, -, h1⟩ |
    ⟨incoming, -, -, r, hr, hs, -, hw, -, ht⟩
  · rw [h1]; exact ⟨le_refl _, fun k hk => Or.inl hk, fun h => by cases h⟩
  · rw [h1]; exact ⟨le_refl _, fun k hk => Or.inl hk, fun _ => rfl⟩
  · obtain ⟨new, t1, t2, t3, t4⟩ := processLoop_trace env wallet
      (incoming.insertionSort (fun a b => a.block_ts ≤ b.block_ts)) st
      { ledger := ledger, writes := [], notified := [] }
    rw [← hr] at t1 t2 t3 t4
    simp only [List.nil_append] at t1
    have hlast : (processWallet cfg env wallet st ledger).state.lastTs = r.1.lastTs := by
      rw [hs]; split <;> rfl
    rw [hs, hw, ht, t1]
    refine ⟨?_, ?_, ?_⟩
    · rw [hs] at hlast; rw [hlast]; exact t2
    · intro k hk
      apply t3
      split at hk
      · exact hk
      · exact pruneProcessed_hasKey _ _ _ hk
    · intro hb
      rw [hs] at hlast
      rw [hlast]
      exact t4 hb

/-! ## Claims about the per-wallet pass -/

/-- C1 (as stated, fails): with one page of one entry, a sorted feed of two valid
inbound transfers newer than the watermark leaves the older one without a
ledger record after a pass that ends without error; a txid already held by
the dedup map is skipped although the ledger has no record for it; and so is,
for a fresh wallet, a valid new inbound transfer whose txid is `constructor`,
which the dedup test finds as an inherited member of the map object. -/
theorem pass_misses_deposit :
    ([sampleLater, sampleDeposit].Pairwise (fun a b => b.block_ts ≤ a.block_ts) ∧
      (processWallet singlePage (quietEnv singlePage [sampleLater, sampleDeposit]) "W"
        freshState []).threw = false ∧
      sampleDeposit ∈ [sampleLater, sampleDeposit] ∧ sampleDeposit.to_address = "W" ∧
      sampleDeposit.valid ∧ freshState.lastTs < sampleDeposit.block_ts ∧
      (processWallet singlePage (quietEnv singlePage [sampleLater, sampleDeposit]) "W"
        freshState []).ledger.countKey "W" sampleDeposit.transaction_id = 0) ∧
    ((processWallet defaultConfig (quietEnv defaultConfig [sampleDeposit]) "W"
        { lastTs := 0, processed := [("a", 5)] } []).threw = false ∧
      (processWallet defaultConfig (quietEnv defaultConfig [sampleDeposit]) "W"
        { lastTs := 0, processed := [("a", 5)] } []).ledger.countKey "W"
          sampleDeposit.transaction_id = 0) ∧
    (inheritedNameDeposit.to_address = "W" ∧ inheritedNameDeposit.valid ∧
      freshState.lastTs < inheritedNameDeposit.block_ts ∧
      freshState.processed.hasKey inheritedNameDeposit.transaction_id = false ∧
      fetchIncomingSince defaultConfig (feedUpstream defaultConfig [inheritedNameDeposit]) "W"
        freshState.lastTs = some [inheritedNameDeposit] ∧
      (processWallet defaultConfig (quietEnv defaultConfig [inheritedNameDeposit]) "W"
        freshState []).threw = false ∧
      (processWallet defaultConfig (quietEnv defaultConfig [inheritedNameDeposit]) "W"
        freshState []).writes = [] ∧
      (processWallet defaultConfig (quietEnv defaultConfig [inheritedNameDeposit]) "W"
        freshState []).ledger.countKey "W" inheritedNameDeposit.transaction_id = 0) := by
  decide

/-- C1 (amended): if the feed is in descending timestamp order, no inbound entry
newer than the watermark lies beyond the first `MAX_PAGES * LIMIT` entries, the
ledger has at most one record per key and a record for every dedup entry (every
key of the dedup map held with a non-zero timestamp), then after a pass that
ends without error every inbound, confirmed, successful, not reverted transfer
of the feed that is newer than the pre-pass watermark and whose txid is not a
member name of `Object.prototype` has exactly one ledger record keyed by
`(wallet, txid)`. -/
theorem pass_records_each_deposit (cfg : Config) (feed : List Transfer)
    (lf tf : Transfer → Bool) (wallet : String) (st : WState) (ledger : Ledger)
    (hsorted : feed.Pairwise (fun a b => b.block_ts ≤ a.block_ts))
    (hbudget : ∀ t ∈ feed.drop (cfg.MAX_PAGES * cfg.LIMIT),
      ¬ (t.to_address = wallet ∧ st.lastTs < t.block_ts))
    (hunique : ∀ k, ledger.countKey wallet k ≤ 1)
    (hdedup : ∀ k, st.processed.hasKey k = true → st.processed.seen k = true →
      ledger.hasKey wallet k = true)
    (hok : (processWallet cfg ⟨feedUpstream cfg feed, lf, tf⟩ wallet st ledger).threw = false)
    (t : Transfer) (ht : t ∈ feed) (hto : t.to_address = wallet)
    (hconf : t.confirmed = true)
    (hres : t.contractRet = "SUCCESS" ∨ t.finalResult = "SUCCESS")
    (hrev : t.revert = false) (hnew : st.lastTs < t.block_ts)
    (hname : t.transaction_id ∉ objectPrototypeKeys) :
    (processWallet cfg ⟨feedUpstream cfg feed, lf, tf⟩ wallet st ledger).ledger.countKey
      wallet t.transaction_id = 1 := by
  have hmem := mem_fetch_of_sorted cfg feed wallet st.lastTs hsorted hbudget t ht hto hnew
  have hfetch := fetchIncomingSince_feed cfg feed wallet st.lastTs
  rcases processWallet_run cfg ⟨feedUpstream cfg feed, lf, tf⟩ wallet st ledger with
    ⟨h0, -⟩ | ⟨incoming, h0, hlen, -⟩ | ⟨incoming, h0, -, r, hr, -, hl, -, -, hthrew⟩
  · rw [hfetch] at h0; cases h0
  · rw [hfetch] at h0
    injection h0 with h0
    rw [h0] at hmem
    rw [List.length_eq_zero.1 hlen] at hmem
    cases hmem
  · rw [hfetch] at h0
    injection h0 with h0
    rw [h0] at hmem
    obtain ⟨l1, -, l3⟩ := processLoop_ledger ⟨feedUpstream cfg feed, lf, tf⟩ wallet
      (incoming.insertionSort (fun a b => a.block_ts ≤ b.block_ts)) st
      { ledger := ledger, writes := [], notified := [] } hunique hdedup
    rw [← hr] at l1 l3
    rw [hthrew] at hok
    have hin : t ∈ incoming.insertionSort (fun a b => a.block_ts ≤ b.block_ts) :=
      (List.perm_insertionSort _ incoming).mem_iff.2 hmem
    have hkey := l3 hok t hin ⟨hconf, hres, hrev⟩ hname
    rw [Ledger.hasKey_iff_count] at hkey
    rw [hl]
    have := l1 t.transaction_id
    omega

/-- Witness for C1 (amended): the default configuration, a fresh wallet, an empty
ledger and the two-entry sample feed. -/
theorem pass_records_each_deposit_witness :
    [sampleLater, sampleDeposit].Pairwise (fun a b => b.block_ts ≤ a.block_ts) ∧
    (processWallet defaultConfig
      ⟨feedUpstream defaultConfig [sampleLater, sampleDeposit], fun _ => false, fun _ => false⟩
      "W" freshState []).threw = false ∧
    sampleDeposit.transaction_id ∉ objectPrototypeKeys ∧
    (processWallet defaultConfig
      ⟨feedUpstream defaultConfig [sampleLater, sampleDeposit], fun _ => false, fun _ => false⟩
      "W" freshState []).ledger.countKey "W" sampleDeposit.transaction_id = 1 :=
  ⟨by decide, by decide, by decide,
    pass_records_each_deposit defaultConfig [sampleLater, sampleDeposit] (fun _ => false)
      (fun _ => false) "W" freshState [] (by decide) (by decide) (fun _ => Nat.zero_le 1)
      (fun _ h _ => by cases h) (by decide) sampleDeposit (by decide) rfl rfl (Or.inl rfl) rfl
      (by decide) (by decide)⟩

/-- C2 (as stated, fails): the txid `a` is a key of the dedup map with the value 0,
the record is fetched, and the pass calls the ledger write and the notifier for it. -/
theorem zero_entry_not_deduplicated :
    Processed.hasKey [("a", 0)] sampleDeposit.transaction_id = true ∧
    fetchIncomingSince defaultConfig (feedUpstream defaultConfig [sampleDeposit]) "W" 0 =
      some [sampleDeposit] ∧
    sampleDeposit ∈ (processWallet defaultConfig (quietEnv defaultConfig [sampleDeposit]) "W"
      { lastTs := 0, processed := [("a", 0)] } []).writes ∧
    sampleDeposit ∈ (processWallet defaultConfig (quietEnv defaultConfig [sampleDeposit]) "W"
      { lastTs := 0, processed := [("a", 0)] } []).notified := by
  decide

/-- C2 (amended): a record whose txid the dedup map holds with a non-zero
timestamp (the test `wState.processed[txid]`, which an inherited member name
passes as well) gets no ledger write and no notification in the pass, nor does
any record with that txid. -/
theorem seen_txid_not_rewritten (cfg : Config) (env : Env) (wallet : String) (st : WState)
    (ledger : Ledger) (t : Transfer) (hseen : st.processed.seen t.transaction_id = true) :
    (∀ u ∈ (processWallet cfg env wallet st ledger).writes,
      u.transaction_id ≠ t.transaction_id) ∧
    (∀ u ∈ (processWallet cfg env wallet st ledger).notified,
      u.transaction_id ≠ t.transaction_id) := by
  constructor
  · intro u hu he
    have := (processWallet_calls cfg env wallet st ledger u (Or.inl hu)).2
    rw [he, hseen] at this
    cases this
  · intro u hu he
    have := (processWallet_calls cfg env wallet st ledger u (Or.inr hu)).2
    rw [he, hseen] at this
    cases this

/-- Witness for C2 (amended): the sample deposit with its txid recorded at timestamp 5. -/
theorem seen_txid_not_rewritten_witness :
    Processed.seen [("a", 5)] sampleDeposit.transaction_id = true ∧
    (∀ u ∈ (processWallet defaultConfig (quietEnv defaultConfig [sampleDeposit]) "W"
        { lastTs := 0, processed := [("a", 5)] } []).writes,
      u.transaction_id ≠ sampleDeposit.transaction_id) ∧
    (∀ u ∈ (processWallet defaultConfig (quietEnv defaultConfig [sampleDeposit]) "W"
        { lastTs := 0, processed := [("a", 5)] } []).notified,
      u.transaction_id ≠ sampleDeposit.transaction_id) :=
  ⟨by decide, seen_txid_not_rewritten defaultConfig (quietEnv defaultConfig [sampleDeposit]) "W"
    { lastTs := 0, processed := [("a", 5)] } [] sampleDeposit (by decide)⟩

/-- C3: a record with `confirmed` not true, or with neither result field equal to
`SUCCESS`, or with `revert` true, is never handed to the ledger write and never
notified by `processWallet`. -/
theorem invalid_never_written (cfg : Config) (env : Env) (wallet : String) (st : WState)
    (ledger : Ledger) (t : Transfer)
    (hinvalid : t.confirmed ≠ true ∨
      (t.contractRet ≠ "SUCCESS" ∧ t.finalResult ≠ "SUCCESS") ∨ t.revert = true) :
    t ∉ (processWallet cfg env wallet st ledger).writes ∧
    t ∉ (processWallet cfg env wallet st ledger).notified := by
  have hnv : ¬ t.valid := by
    rintro ⟨h1, h2, h3⟩
    rcases hinvalid with h | ⟨ha, hb⟩ | h
    · exact h h1
    · rcases h2 with h2 | h2
      · exact ha h2
      · exact hb h2
    · rw [h3] at h; cases h
  exact ⟨fun h => hnv (processWallet_calls cfg env wallet st ledger t (Or.inl h)).1,
    fun h => hnv (processWallet_calls cfg env wallet st ledger t (Or.inr h)).1⟩

/-- Witness for C3: the unconfirmed sample, fetched for a fresh wallet. -/
theorem invalid_never_written_witness :
    sampleUnconfirmed.confirmed ≠ true ∧
    sampleUnconfirmed ∉ (processWallet defaultConfig
      (quietEnv defaultConfig [sampleUnconfirmed]) "W" freshState []).writes ∧
    sampleUnconfirmed ∉ (processWallet defaultConfig
      (quietEnv defaultConfig [sampleUnconfirmed]) "W" freshState []).notified :=
  ⟨by decide, invalid_never_written defaultConfig (quietEnv defaultConfig [sampleUnconfirmed])
    "W" freshState [] sampleUnconfirmed (Or.inl (by decide))⟩

/-- C4 (as stated, fails): an unconfirmed record is fetched for a fresh wallet, the
pass returns without error, and its txid is not a key of the dedup map afterwards;
the watermark is unchanged, so the next scan fetches the record again. -/
theorem unconfirmed_not_marked :
    fetchIncomingSince defaultConfig (feedUpstream defaultConfig [sampleUnconfirmed]) "W"
      freshState.lastTs = some [sampleUnconfirmed] ∧
    sampleUnconfirmed.confirmed ≠ true ∧
    (processWallet defaultConfig (quietEnv defaultConfig [sampleUnconfirmed]) "W"
      freshState []).threw = false ∧
    (processWallet defaultConfig (quietEnv defaultConfig [sampleUnconfirmed]) "W"
      freshState []).state.processed.hasKey sampleUnconfirmed.transaction_id = false ∧
    fetchIncomingSince defaultConfig (feedUpstream defaultConfig [sampleUnconfirmed]) "W"
      (processWallet defaultConfig (quietEnv defaultConfig [sampleUnconfirmed]) "W"
        freshState []).state.lastTs = some [sampleUnconfirmed] := by
  decide

/-- C4 (amended): a record skipped as invalid adds no key: if its txid is a key of
the dedup map after the pass, it was a key before the pass or the pass called the
hook for another, valid record with the same txid. -/
theorem invalid_adds_no_key (cfg : Config) (env : Env) (wallet : String) (st : WState)
    (ledger : Ledger) (t : Transfer)
    (hinvalid : t.confirmed ≠ true ∨
      (t.contractRet ≠ "SUCCESS" ∧ t.finalResult ≠ "SUCCESS") ∨ t.revert = true)
    (hkey : (processWallet cfg env wallet st ledger).state.processed.hasKey
      t.transaction_id = true) :
    st.processed.hasKey t.transaction_id = true ∨
    ∃ u ∈ (processWallet cfg env wallet st ledger).writes,
      u.transaction_id = t.transaction_id ∧ u.valid ∧ u ≠ t := by
  have hnv : ¬ t.valid := by
    rintro ⟨h1, h2, h3⟩
    rcases hinvalid with h | ⟨ha, hb⟩ | h
    · exact h h1
    · rcases h2 with h2 | h2
      · exact ha h2
      · exact hb h2
    · rw [h3] at h; cases h
  rcases (processWallet_trace cfg env wallet st ledger).2.1 _ hkey with h | ⟨u, hu, hk⟩
  · exact Or.inl h
  · have hv := (processWallet_calls cfg env wallet st ledger u (Or.inl hu)).1
    refine Or.inr ⟨u, hu, hk, hv, ?_⟩
    intro he
    rw [he] at hv
    exact hnv hv

/-- Witness for C4 (amended): the unconfirmed sample against a dedup map that
already holds its txid. -/
theorem invalid_adds_no_key_witness :
    sampleUnconfirmed.confirmed ≠ true ∧
    (Processed.hasKey [("a", 5)] sampleUnconfirmed.transaction_id = true ∨
      ∃ u ∈ (processWallet defaultConfig (quietEnv defaultConfig [sampleUnconfirmed]) "W"
          { lastTs := 0, processed := [("a", 5)] } []).writes,
        u.transaction_id = sampleUnconfirmed.transaction_id ∧ u.valid ∧
          u ≠ sampleUnconfirmed) :=
  ⟨by decide, invalid_adds_no_key defaultConfig (quietEnv defaultConfig [sampleUnconfirmed])
    "W" { lastTs := 0, processed := [("a", 5)] } [] sampleUnconfirmed (Or.inl (by decide))
    (by decide)⟩

/-- C5: `lastTs` after `processWallet`, whether it returns or throws, is at least
`lastTs` before; hence it is non-decreasing over any sequence of passes. -/
theorem lastTs_never_decreases :
    (∀ (cfg : Config) (env : Env) (wallet : String) (st : WState) (ledger : Ledger),
      st.lastTs ≤ (processWallet cfg env wallet st ledger).state.lastTs) ∧
    (∀ (cfg : Config) (wallet : String) (envs : List Env) (st : WState) (ledger : Ledger),
      st.lastTs ≤ (scans cfg wallet envs st ledger).1.lastTs) := by
  have h1 : ∀ (cfg : Config) (env : Env) (wallet : String) (st : WState) (ledger : Ledger),
      st.lastTs ≤ (processWallet cfg env wallet st ledger).state.lastTs :=
    fun cfg env wallet st ledger => (processWallet_trace cfg env wallet st ledger).1
  refine ⟨h1, ?_⟩
  intro cfg wallet envs
  induction envs with
  | nil => intro st ledger; exact le_refl _
  | cons env envs ih =>
    intro st ledger
    simp only [scans]
    exact le_trans (h1 cfg env wallet st ledger) (ih _ _)

/-- C6 (as stated, fails): the scanner returns one unconfirmed record at timestamp
5 for a fresh wallet, the pass ends without error, and `lastTs` stays 0 while the
maximum over the returned records is 5. -/
theorem skipped_record_keeps_watermark :
    fetchIncomingSince defaultConfig (feedUpstream defaultConfig [sampleUnconfirmed]) "W"
      freshState.lastTs = some [sampleUnconfirmed] ∧
    (processWallet defaultConfig (quietEnv defaultConfig [sampleUnconfirmed]) "W"
      freshState []).threw = false ∧
    (processWallet defaultConfig (quietEnv defaultConfig [sampleUnconfirmed]) "W"
      freshState []).state.lastTs = 0 ∧
    ([sampleUnconfirmed].map (fun u => u.block_ts)).foldl max freshState.lastTs = 5 := by
  decide

/-- C6 (amended): after a pass that ends without error, `lastTs` is the maximum of
its previous value and the block timestamps of the records the pass handed to the
ledger hook (the valid records not held by the dedup map). -/
theorem lastTs_is_max_of_written (cfg : Config) (env : Env) (wallet : String) (st : WState)
    (ledger : Ledger) (hok : (processWallet cfg env wallet st ledger).threw = false) :
    (processWallet cfg env wallet st ledger).state.lastTs =
      ((processWallet cfg env wallet st ledger).writes.map (fun u => u.block_ts)).foldl
        max st.lastTs :=
  (processWallet_trace cfg env wallet st ledger).2.2 hok

/-- Witness for C6 (amended): the two-entry sample feed for a fresh wallet. -/
theorem lastTs_is_max_of_written_witness :
    (processWallet defaultConfig (quietEnv defaultConfig [sampleLater, sampleDeposit]) "W"
      freshState []).threw = false ∧
    (processWallet defaultConfig (quietEnv defaultConfig [sampleLater, sampleDeposit]) "W"
      freshState []).state.lastTs =
      ((processWallet defaultConfig (quietEnv defaultConfig [sampleLater, sampleDeposit]) "W"
        freshState []).writes.map (fun u => u.block_ts)).foldl max freshState.lastTs :=
  ⟨by decide, lastTs_is_max_of_written defaultConfig
    (quietEnv defaultConfig [sampleLater, sampleDeposit]) "W" freshState [] (by decide)⟩

/-- C7 (failing input): the ledger write for the one fetched record rejects; the
pass throws with the txid already a key of the dedup map, no ledger record and
the watermark not advanced; the next pass, with the ledger working, fetches the
record again, skips it as a duplicate and writes nothing. -/
theorem failed_write_leaves_txid_marked :
    (processWallet defaultConfig (ledgerDownEnv defaultConfig [sampleDeposit]) "W"
      freshState []).threw = true ∧
    (processWallet defaultConfig (ledgerDownEnv defaultConfig [sampleDeposit]) "W"
      freshState []).ledger = [] ∧
    (processWallet defaultConfig (ledgerDownEnv defaultConfig [sampleDeposit]) "W"
      freshState []).state = { lastTs := 0, processed := [("a", 5)] } ∧
    Processed.hasKey [("a", 5)] sampleDeposit.transaction_id = true ∧
    fetchIncomingSince defaultConfig (feedUpstream defaultConfig [sampleDeposit]) "W" 0 =
      some [sampleDeposit] ∧
    processWallet defaultConfig (quietEnv defaultConfig [sampleDeposit]) "W"
      { lastTs := 0, processed := [("a", 5)] } [] =
      { state := { lastTs := 0, processed := [("a", 5)] }, ledger := [], writes := [],
        notified := [], threw := false } := by
  decide

/-! ## Claims about the scan -/

theorem takeWhile_eq_filter_of_sorted (lastTs : Nat) (l : List Transfer)
    (hs : l.Pairwise (fun a b => b.block_ts ≤ a.block_ts)) :
    l.takeWhile (fun t => decide (lastTs < t.block_ts)) =
      l.filter (fun t => decide (lastTs < t.block_ts)) := by
  induction l with
  | nil => rfl
  | cons x l ih =>
    rw [List.pairwise_cons] at hs
    by_cases hx : lastTs < x.block_ts
    · simp only [List.takeWhile, List.filter, hx, decide_True]
      rw [ih hs.2]
    · simp only [List.takeWhile, List.filter, hx, decide_False]
      symm
      rw [List.filter_eq_nil_iff]
      intro a ha
      have := hs.1 a ha
      simp only [decide_eq_true_eq]
      omega

/-- C11: for a feed in descending timestamp order that fits in `MAX_PAGES` pages,
`fetchIncomingSince` returns exactly the feed entries whose `to_address` is the
wallet and whose `block_ts` exceeds `lastTs`; with watermark 1000 and inbound
entries at 1500 and 900 it returns only the entry at 1500. -/
theorem fetch_returns_new_inbound :
    (∀ (cfg : Config) (feed : List Transfer) (wallet : String) (lastTs : Nat),
      feed.Pairwise (fun a b => b.block_ts ≤ a.block_ts) →
      feed.length ≤ cfg.MAX_PAGES * cfg.LIMIT →
      fetchIncomingSince cfg (feedUpstream cfg feed) wallet lastTs =
        some (feed.filter (fun t => decide (t.to_address = wallet ∧ lastTs < t.block_ts)))) ∧
    fetchIncomingSince defaultConfig (feedUpstream defaultConfig [scenarioNew, scenarioOld])
      "W" 1000 = some [scenarioNew] := by
  refine ⟨?_, by decide⟩
  intro cfg feed wallet lastTs hs hfit
  rw [fetchIncomingSince_feed, List.take_of_length_le hfit,
    takeWhile_eq_filter_of_sorted lastTs _ (hs.sublist (List.filter_sublist _)),
    List.filter_filter]
  congr 1
  apply List.filter_congr
  intro t _
  by_cases h1 : t.to_address = wallet <;> by_cases h2 : lastTs < t.block_ts <;> simp [h1, h2]

/-- Witness for C11: the scenario feed under the default configuration. -/
theorem fetch_returns_new_inbound_witness :
    [scenarioNew, scenarioOld].Pairwise (fun a b => b.block_ts ≤ a.block_ts) ∧
    [scenarioNew, scenarioOld].length ≤ defaultConfig.MAX_PAGES * defaultConfig.LIMIT ∧
    fetchIncomingSince defaultConfig (feedUpstream defaultConfig [scenarioNew, scenarioOld])
      "W" 1000 =
      some ([scenarioNew, scenarioOld].filter
        (fun t => decide (t.to_address = "W" ∧ 1000 < t.block_ts))) :=
  ⟨by decide, by decide,
    fetch_returns_new_inbound.1 defaultConfig [scenarioNew, scenarioOld] "W" 1000
      (by decide) (by decide)⟩

theorem scanPage_early (wallet : String) (lastTs : Nat) (list incoming : List Transfer) :
    (scanPage wallet lastTs list incoming).2 = true ↔
      ∃ t ∈ list, t.to_address = wallet ∧ t.block_ts ≤ lastTs := by
  rw [scanPage_spec]
  simp only [Bool.not_eq_true', List.all_eq_false, List.mem_filter, decide_eq_true_eq]
  constructor
  · rintro ⟨t, ⟨h1, h2⟩, h3⟩
    exact ⟨t, h1, h2, by omega⟩
  · rintro ⟨t, h1, h2, h3⟩
    exact ⟨t, ⟨h1, h2⟩, by omega⟩

theorem requestLoop_spec (cfg : Config) (upstream : String → Nat → Option (List Transfer))
    (wallet : String) (lastTs : Nat) (pages : Nat) :
    ∀ (start : Nat) (incoming : List Transfer),
      (requestLoop cfg upstream wallet lastTs pages start incoming).length ≤ pages ∧
      ∀ (s : Nat) (list : List Transfer) (t : Transfer),
        s ∈ requestLoop cfg upstream wallet lastTs pages start incoming →
        upstream wallet s = some list → t ∈ list → t.to_address = wallet →
        t.block_ts ≤ lastTs →
        (requestLoop cfg upstream wallet lastTs pages start incoming).getLast? = some s := by
  induction pages with
  | zero => intro start incoming; simp [requestLoop]
  | succ p ih =>
    intro start incoming
    have hone : ([start] : List Nat).length ≤ p + 1 ∧
        ∀ (s : Nat) (list : List Transfer) (t : Transfer), s ∈ [start] →
          upstream wallet s = some list → t ∈ list → t.to_address = wallet →
          t.block_ts ≤ lastTs → ([start] : List Nat).getLast? = some s := by
      refine ⟨by simp, ?_⟩
      intro s list t hs _ _ _ _
      rw [List.mem_singleton.1 hs]
      rfl
    unfold requestLoop
    cases hup : upstream wallet start with
    | none => simpa using hone
    | some list0 =>
      by_cases hlen : list0.length = 0
      · simpa [hlen] using hone
      · simp only [hlen, if_false]
        cases hscan : scanPage wallet lastTs list0 incoming with
        | mk inc' b =>
          cases b with
          | true => simpa using hone
          | false =>
            simp only
            obtain ⟨i1, i2⟩ := ih (start + cfg.LIMIT) inc'
            refine ⟨by simp only [List.length_cons]; omega, ?_⟩
            intro s list t hs hpage ht hto hold
            have hnotstart : s ≠ start := by
              intro he
              rw [he, hup] at hpage
              injection hpage with hpage
              have hearly := (scanPage_early wallet lastTs list0 incoming).2
                ⟨t, by rw [hpage]; exact ht, hto, hold⟩
              rw [hscan] at hearly
              cases hearly
            have hin : s ∈ requestLoop cfg upstream wallet lastTs p (start + cfg.LIMIT) inc' := by
              rcases List.mem_cons.1 hs with h | h
              · exact absurd h hnotstart
              · exact h
            have hlast := i2 s list t hin hpage ht hto hold
            cases htail : requestLoop cfg upstream wallet lastTs p (start + cfg.LIMIT) inc' with
            | nil => rw [htail] at hin; cases hin
            | cons a rest =>
              rw [htail] at hlast
              rw [List.getLast?_cons_cons]
              exact hlast

/-- C12 (as stated, fails): with one entry per page, the first page holds an entry
at timestamp 900, not above the watermark 1000 but sent to another address, and
the scan still requests the page at offset 1. -/
theorem outbound_old_entry_does_not_stop :
    feedUpstream threePages [scenarioOutbound, scenarioOld] "W" 0 = some [scenarioOutbound] ∧
    scenarioOutbound.block_ts ≤ 1000 ∧
    fetchRequests threePages (feedUpstream threePages [scenarioOutbound, scenarioOld])
      "W" 1000 = [0, 1] := by
  decide

/-- The request trace of the page loop, page by page: the offsets are `start`,
`start + LIMIT`, ..., and the page with index `i` is requested exactly when the
budget allows it and every earlier page was delivered, was non-empty and held no
entry addressed to the wallet at or below the watermark. -/
theorem requestLoop_pages (cfg : Config) (upstream : String → Nat → Option (List Transfer))
    (wallet : String) (lastTs : Nat) (pages : Nat) :
    ∀ (start : Nat) (incoming : List Transfer),
      requestLoop cfg upstream wallet lastTs pages start incoming =
        (List.range (requestLoop cfg upstream wallet lastTs pages start incoming).length).map
          (fun i => start + i * cfg.LIMIT) ∧
      ∀ i, i < (requestLoop cfg upstream wallet lastTs pages start incoming).length ↔
        i < pages ∧ ∀ j < i, ∃ list, upstream wallet (start + j * cfg.LIMIT) = some list ∧
          list ≠ [] ∧ ∀ t ∈ list, t.block_ts ≤ lastTs → t.to_address ≠ wallet := by
  induction pages with
  | zero => intro start incoming; simp [requestLoop]
  | succ p ih =>
    intro start incoming
    -- the loop stops after the page at `start`
    have hstop : (¬ ∃ list, upstream wallet start = some list ∧ list ≠ [] ∧
          ∀ t ∈ list, t.block_ts ≤ lastTs → t.to_address ≠ wallet) →
        ([start] : List Nat) = (List.range ([start] : List Nat).length).map
            (fun i => start + i * cfg.LIMIT) ∧
          ∀ i, i < ([start] : List Nat).length ↔
            i < p + 1 ∧ ∀ j < i, ∃ list, upstream wallet (start + j * cfg.LIMIT) = some list ∧
              list ≠ [] ∧ ∀ t ∈ list, t.block_ts ≤ lastTs → t.to_address ≠ wallet := by
      intro hno
      refine ⟨by simp [List.range_succ], ?_⟩
      intro i
      constructor
      · intro hi
        have hi0 : i = 0 := by simpa using hi
        subst hi0
        exact ⟨by omega, fun j hj => absurd hj (by omega)⟩
      · rintro ⟨-, hall⟩
        by_contra hc
        have hpos : 0 < i := by simp at hc; omega
        apply hno
        simpa using hall 0 hpos
    unfold requestLoop
    cases hup : upstream wallet start with
    | none =>
      simp only
      apply hstop
      rintro ⟨list, h1, -⟩
      rw [hup] at h1
      cases h1
    | some list0 =>
      by_cases hlen : list0.length = 0
      · simp only [hlen, if_true]
        apply hstop
        rintro ⟨list, h1, h2, -⟩
        rw [hup] at h1
        injection h1 with h1
        rw [← h1] at h2
        exact h2 (List.length_eq_zero.1 hlen)
      · simp only [hlen, if_false]
        cases hscan : scanPage wallet lastTs list0 incoming with
        | mk inc' b =>
          cases b with
          | true =>
            simp only
            apply hstop
            rintro ⟨list, h1, -, h3⟩
            rw [hup] at h1
            injection h1 with h1
            have hearly : (scanPage wallet lastTs list0 incoming).2 = true := by rw [hscan]
            obtain ⟨t, ht, hto, hold⟩ := (scanPage_early wallet lastTs list0 incoming).1 hearly
            exact h3 t (by rw [← h1]; exact ht) hold hto
          | false =>
            simp only
            obtain ⟨i1, i2⟩ := ih (start + cfg.LIMIT) inc'
            have hcont : ∃ list, upstream wallet start = some list ∧ list ≠ [] ∧
                ∀ t ∈ list, t.block_ts ≤ lastTs → t.to_address ≠ wallet := by
              refine ⟨list0, hup, fun h => hlen (by rw [h]; rfl), ?_⟩
              intro t ht hold hto
              have hearly := (scanPage_early wallet lastTs list0 incoming).2 ⟨t, ht, hto, hold⟩
              rw [hscan] at hearly
              cases hearly
            constructor
            · rw [List.length_cons, List.range_succ_eq_map, List.map_cons, List.map_map]
              simp only [Nat.zero_mul, Nat.add_zero]
              congr 1
              nth_rewrite 1 [i1]
              apply List.map_congr_left
              intro i _
              simp only [Function.comp_apply, Nat.succ_eq_add_one]
              rw [Nat.add_mul]
              omega
            · intro i
              rw [List.length_cons]
              cases i with
              | zero =>
                constructor
                · intro _
                  exact ⟨by omega, fun j hj => absurd hj (by omega)⟩
                · intro _
                  omega
              | succ i' =>
                constructor
                · intro hi
                  obtain ⟨h1, h2⟩ := (i2 i').1 (by omega)
                  refine ⟨by omega, ?_⟩
                  intro j hj
                  cases j with
                  | zero => simpa using hcont
                  | succ j' =>
                    have := h2 j' (by omega)
                    have he : start + (j' + 1) * cfg.LIMIT = start + cfg.LIMIT + j' * cfg.LIMIT := by
                      rw [Nat.add_mul]; omega
                    rw [he]
                    exact this
                · rintro ⟨h1, h2⟩
                  have : i' < (requestLoop cfg upstream wallet lastTs p (start + cfg.LIMIT)
                      inc').length := by
                    apply (i2 i').2
                    refine ⟨by omega, ?_⟩
                    intro j hj
                    have := h2 (j + 1) (by omega)
                    have he : start + (j + 1) * cfg.LIMIT = start + cfg.LIMIT + j * cfg.LIMIT := by
                      rw [Nat.add_mul]; omega
                    rw [he] at this
                    exact this
                  omega

/-- C12 (amended): at most `MAX_PAGES` pages are requested in any case; a
requested page that holds an entry addressed to the wallet with a block
timestamp at most the watermark is the last page requested; and entries not
addressed to the wallet never stop the scan: the requested offsets are
`0, LIMIT, 2 * LIMIT, ...`, and the page with index `i` is requested exactly
when `i < MAX_PAGES` and every earlier page was delivered, was non-empty and
held no entry at or below the watermark other than entries addressed elsewhere. -/
theorem no_request_after_old_inbound (cfg : Config)
    (upstream : String → Nat → Option (List Transfer)) (wallet : String) (lastTs : Nat) :
    (fetchRequests cfg upstream wallet lastTs).length ≤ cfg.MAX_PAGES ∧
    (∀ (s : Nat) (list : List Transfer) (t : Transfer),
      s ∈ fetchRequests cfg upstream wallet lastTs → upstream wallet s = some list →
      t ∈ list → t.to_address = wallet → t.block_ts ≤ lastTs →
      (fetchRequests cfg upstream wallet lastTs).getLast? = some s) ∧
    fetchRequests cfg upstream wallet lastTs =
      (List.range (fetchRequests cfg upstream wallet lastTs).length).map
        (fun i => i * cfg.LIMIT) ∧
    (∀ i, i < (fetchRequests cfg upstream wallet lastTs).length ↔
      i < cfg.MAX_PAGES ∧ ∀ j < i, ∃ list, upstream wallet (j * cfg.LIMIT) = some list ∧
        list ≠ [] ∧ ∀ t ∈ list, t.block_ts ≤ lastTs → t.to_address ≠ wallet) := by
  obtain ⟨h1, h2⟩ := requestLoop_spec cfg upstream wallet lastTs cfg.MAX_PAGES 0 []
  obtain ⟨h3, h4⟩ := requestLoop_pages cfg upstream wallet lastTs cfg.MAX_PAGES 0 []
  simp only [Nat.zero_add] at h3 h4
  exact ⟨h1, h2, h3, h4⟩

/-- Witness for C12 (amended): in the scenario feed the first page holds the
inbound entry at 900 and only offset 0 is requested; with one entry per page, the
page after the outbound entry at 900 is requested. -/
theorem no_request_after_old_inbound_witness :
    ((0 : Nat) ∈ fetchRequests defaultConfig
        (feedUpstream defaultConfig [scenarioNew, scenarioOld]) "W" 1000 ∧
      (fetchRequests defaultConfig (feedUpstream defaultConfig [scenarioNew, scenarioOld])
        "W" 1000).getLast? = some 0 ∧
      (fetchRequests defaultConfig (feedUpstream defaultConfig [scenarioNew, scenarioOld])
        "W" 1000).length ≤ defaultConfig.MAX_PAGES) ∧
    (feedUpstream threePages [scenarioOutbound, scenarioOld] "W" (0 * threePages.LIMIT) =
        some [scenarioOutbound] ∧
      1 < (fetchRequests threePages (feedUpstream threePages [scenarioOutbound, scenarioOld])
        "W" 1000).length) :=
  ⟨⟨by decide,
      (no_request_after_old_inbound defaultConfig
        (feedUpstream defaultConfig [scenarioNew, scenarioOld]) "W" 1000).2.1 0
        [scenarioNew, scenarioOld] scenarioOld (by decide) (by decide) (by decide) rfl
        (by decide),
      (no_request_after_old_inbound defaultConfig
        (feedUpstream defaultConfig [scenarioNew, scenarioOld]) "W" 1000).1⟩,
    by decide,
    ((no_request_after_old_inbound threePages
      (feedUpstream threePages [scenarioOutbound, scenarioOld]) "W" 1000).2.2.2 1).2
      ⟨by decide, fun j hj => by
        have hj0 : j = 0 := by omega
        subst hj0
        exact ⟨[scenarioOutbound], by decide, by decide, by decide⟩⟩⟩

/-! ## Claims about pruning -/

theorem pruneProcessed_sorted (m : Processed) :
    (m.insertionSort (fun a b => b.2 ≤ a.2)).Pairwise (fun a b => b.2 ≤ a.2) := by
  haveI : IsTotal (String × Nat) (fun a b => b.2 ≤ a.2) := ⟨fun a b => le_total b.2 a.2⟩
  haveI : IsTrans (String × Nat) (fun a b => b.2 ≤ a.2) :=
    ⟨fun a b c hab hbc => le_trans hbc hab⟩
  exact List.sorted_insertionSort (fun a b => b.2 ≤ a.2) m

/-- C13: a dedup map with at most 3000 entries is returned unchanged; one with
more than 3000 entries is cut to exactly 2000 entries, each an entry of the
input with its timestamp, and every retained timestamp is at least every
dropped one. -/
theorem pruneProcessed_keeps_newest (m : Processed) :
    (m.length ≤ 3000 ∧ pruneProcessed m 3000 = m) ∨
    (3000 < m.length ∧ (pruneProcessed m 3000).length = 2000 ∧
      (∀ e ∈ pruneProcessed m 3000, e ∈ m) ∧
      ∃ dropped : Processed, (pruneProcessed m 3000 ++ dropped).Perm m ∧
        ∀ r ∈ pruneProcessed m 3000, ∀ d ∈ dropped, d.2 ≤ r.2) := by
  by_cases h : m.length ≤ 3000
  · exact Or.inl ⟨h, by simp [pruneProcessed, h]⟩
  · right
    have hperm := List.perm_insertionSort (fun a b : String × Nat => b.2 ≤ a.2) m
    have hprune : pruneProcessed m 3000 =
        (m.insertionSort (fun a b => b.2 ≤ a.2)).take 2000 := by
      simp [pruneProcessed, h]
    rw [hprune]
    refine ⟨by omega, ?_, ?_, (m.insertionSort (fun a b => b.2 ≤ a.2)).drop 2000, ?_, ?_⟩
    · rw [List.length_take, hperm.length_eq]
      omega
    · intro e he
      exact hperm.mem_iff.1 (List.mem_of_mem_take he)
    · rw [List.take_append_drop]
      exact hperm
    · have hs := pruneProcessed_sorted m
      rw [← List.take_append_drop 2000 (m.insertionSort (fun a b => b.2 ≤ a.2)),
        List.pairwise_append] at hs
      intro r hr d hd
      exact hs.2.2 r hr d hd

/-! ## Claims about the upstream client -/

theorem retriable_iff (err : Failure) (h : ∀ s, err.status = some s → 100 ≤ s) :
    retriable err = true ↔ err.retryable := by
  unfold retriable Failure.retryable
  cases hs : err.status with
  | none => simp
  | some s =>
    have h100 := h s hs
    have h0 : s ≠ 0 := by omega
    simp [h0]

theorem retryLoop_spec {α : Type} (replies : Nat → Reply α) (rand : Nat → Nat)
    (baseDelayMs : Nat) (remaining : Nat) :
    ∀ (attempt : Nat) (delays : List Nat),
      attempt < (retryLoop replies rand baseDelayMs remaining attempt delays).requests ∧
      (retryLoop replies rand baseDelayMs remaining attempt delays).requests ≤
        attempt + remaining + 1 ∧
      ∀ (a : Nat) (err : Failure), attempt ≤ a →
        a < (retryLoop replies rand baseDelayMs remaining attempt delays).requests →
        replies a = Reply.fail err →
        ((a + 1 < (retryLoop replies rand baseDelayMs remaining attempt delays).requests ↔
            (retriable err = true ∧ a < attempt + remaining)) ∧
          (¬ (retriable err = true ∧ a < attempt + remaining) →
            (retryLoop replies rand baseDelayMs remaining attempt delays).result =
              Except.error err)) := by
  induction remaining with
  | zero =>
    intro attempt delays
    unfold retryLoop
    cases hr : replies attempt with
    | ok data =>
      refine ⟨by simp, by simp, ?_⟩
      intro a err ha1 ha2 hfail
      simp only at ha2
      have : a = attempt := by omega
      rw [this, hr] at hfail
      cases hfail
    | fail e =>
      refine ⟨by simp, by simp, ?_⟩
      intro a err ha1 ha2 hfail
      simp only at ha2
      have hae : a = attempt := by omega
      rw [hae, hr] at hfail
      injection hfail with hfail
      subst hfail
      subst hae
      simp
  | succ r ih =>
    intro attempt delays
    unfold retryLoop
    cases hr : replies attempt with
    | ok data =>
      refine ⟨by simp, by simp, ?_⟩
      intro a err ha1 ha2 hfail
      simp only at ha2
      have : a = attempt := by omega
      rw [this, hr] at hfail
      cases hfail
    | fail e =>
      by_cases hret : retriable e = false
      · simp only [hret, if_true]
        refine ⟨by simp, by omega, ?_⟩
        intro a err ha1 ha2 hfail
        have hae : a = attempt := by omega
        rw [hae, hr] at hfail
        injection hfail with hfail
        subst hfail
        subst hae
        simp [hret]
      · dsimp only
        rw [if_neg hret]
        have hret' : retriable e = true := by simpa using hret
        obtain ⟨i1, i2, i3⟩ := ih (attempt + 1)
          (delays ++ [retryDelay e baseDelayMs attempt (rand attempt % 250)])
        refine ⟨by omega, by omega, ?_⟩
        intro a err ha1 ha2 hfail
        by_cases hae : a = attempt
        · rw [hae, hr] at hfail
          injection hfail with hfail
          subst hfail
          subst hae
          refine ⟨⟨fun _ => ⟨hret', by omega⟩, fun _ => by omega⟩, ?_⟩
          intro hn
          exact absurd ⟨hret', by omega⟩ hn
        · have ha3 : attempt + 1 ≤ a := by omega
          have := i3 a err ha3 ha2 hfail
          have heq : attempt + 1 + r = attempt + (r + 1) := by omega
          rw [heq] at this
          exact this

/-- C17: after a failed request at attempt `a`, `axiosGetWithRetry` issues another
request exactly when the failure is retryable (status 429, 500 to 599, or none)
and `a` is below the retry ceiling, and otherwise throws that failure's error;
so a 404 is thrown after one request, at most `retries + 1 = 7` requests are
made, and when all 7 fail the last error is thrown. -/
theorem retry_policy {α : Type} (replies : Nat → Reply α) (rand : Nat → Nat)
    (retries baseDelayMs : Nat)
    (hstatus : ∀ a err s, replies a = Reply.fail err → err.status = some s → 100 ≤ s) :
    (∀ (a : Nat) (err : Failure),
      a < (axiosGetWithRetry replies rand retries baseDelayMs).requests →
      replies a = Reply.fail err →
      ((a + 1 < (axiosGetWithRetry replies rand retries baseDelayMs).requests ↔
          (err.retryable ∧ a < retries)) ∧
        (¬ (err.retryable ∧ a < retries) →
          (axiosGetWithRetry replies rand retries baseDelayMs).result = Except.error err))) ∧
    1 ≤ (axiosGetWithRetry replies rand retries baseDelayMs).requests ∧
    (axiosGetWithRetry replies rand retries baseDelayMs).requests ≤ retries + 1 ∧
    (∀ ra, replies 0 = Reply.fail { status := some 404, retryAfter := ra } →
      (axiosGetWithRetry replies rand retries baseDelayMs).requests = 1 ∧
      (axiosGetWithRetry replies rand retries baseDelayMs).result =
        Except.error { status := some 404, retryAfter := ra }) ∧
    ((∀ a, a ≤ retries → ∃ err, replies a = Reply.fail err ∧ err.retryable) →
      (axiosGetWithRetry replies rand retries baseDelayMs).requests = retries + 1 ∧
      ∀ err, replies retries = Reply.fail err →
        (axiosGetWithRetry replies rand retries baseDelayMs).result = Except.error err) := by
  obtain ⟨h1, h2, h3⟩ := retryLoop_spec replies rand baseDelayMs retries 0 []
  simp only [Nat.zero_add] at h2 h3
  have hmain : ∀ (a : Nat) (err : Failure),
      a < (axiosGetWithRetry replies rand retries baseDelayMs).requests →
      replies a = Reply.fail err →
      ((a + 1 < (axiosGetWithRetry replies rand retries baseDelayMs).requests ↔
          (err.retryable ∧ a < retries)) ∧
        (¬ (err.retryable ∧ a < retries) →
          (axiosGetWithRetry replies rand retries baseDelayMs).result = Except.error err)) := by
    intro a err ha hfail
    have hiff := retriable_iff err (fun s hs => hstatus a err s hfail hs)
    have := h3 a err (Nat.zero_le a) ha hfail
    rw [hiff] at this
    exact this
  refine ⟨hmain, h1, h2, ?_, ?_⟩
  · intro ra h404
    have h := hmain 0 _ h1 h404
    have hnot : ¬ (Failure.retryable { status := some 404, retryAfter := ra } ∧ 0 < retries) := by
      rintro ⟨hr, -⟩
      unfold Failure.retryable at hr
      simp at hr
    refine ⟨?_, h.2 hnot⟩
    have := h.1
    have hlt : ¬ (0 + 1 < (axiosGetWithRetry replies rand retries baseDelayMs).requests) :=
      fun hc => hnot (this.1 hc)
    have h1' : 0 < (axiosGetWithRetry replies rand retries baseDelayMs).requests := h1
    omega
  · intro hall
    have hstep : ∀ a, a ≤ retries →
        a < (axiosGetWithRetry replies rand retries baseDelayMs).requests := by
      intro a
      induction a with
      | zero => intro _; exact h1
      | succ n ihn =>
        intro hn
        have hn' : n < (axiosGetWithRetry replies rand retries baseDelayMs).requests :=
          ihn (by omega)
        obtain ⟨err, he, hre⟩ := hall n (by omega)
        exact ((hmain n err hn' he).1).2 ⟨hre, by omega⟩
    have hreq : (axiosGetWithRetry replies rand retries baseDelayMs).requests = retries + 1 := by
      have := hstep retries (le_refl _)
      have h2' : (axiosGetWithRetry replies rand retries baseDelayMs).requests ≤ retries + 1 := h2
      omega
    refine ⟨hreq, ?_⟩
    intro err he
    exact (hmain retries err (hstep retries (le_refl _)) he).2 (by omega)

/-- Witness for C17: seven HTTP 503 answers under the default ceiling 6. -/
theorem retry_policy_witness :
    (axiosGetWithRetry (alwaysFails { status := some 503, retryAfter := 0 }) (fun _ => 0)
      6 900).requests ≤ 6 + 1 ∧
    (axiosGetWithRetry (alwaysFails { status := some 503, retryAfter := 0 }) (fun _ => 0)
      6 900).result = Except.error { status := some 503, retryAfter := 0 } :=
  have h := retry_policy (alwaysFails { status := some 503, retryAfter := 0 }) (fun _ => 0)
    6 900 (by
      intro a err s he hs
      simp only [alwaysFails, Reply.fail.injEq] at he
      subst he
      simp only [Option.some.injEq] at hs
      omega)
  ⟨h.2.2.1, (h.2.2.2.2 (fun a _ => ⟨_, rfl, Or.inr (Or.inl ⟨503, rfl, by omega, by omega⟩)⟩)).2
    _ rfl⟩

theorem retryLoop_delays {α : Type} (replies : Nat → Reply α) (rand : Nat → Nat)
    (baseDelayMs : Nat) (remaining : Nat) :
    ∀ (attempt : Nat) (delays : List Nat), ∃ extra : List Nat,
      (retryLoop replies rand baseDelayMs remaining attempt delays).delays = delays ++ extra ∧
      extra.length + attempt + 1 =
        (retryLoop replies rand baseDelayMs remaining attempt delays).requests ∧
      ∀ (a : Nat) (err : Failure), attempt ≤ a →
        a + 1 < (retryLoop replies rand baseDelayMs remaining attempt delays).requests →
        replies a = Reply.fail err →
        extra[a - attempt]? = some (retryDelay err baseDelayMs a (rand a % 250)) := by
  induction remaining with
  | zero =>
    intro attempt delays
    refine ⟨[], ?_, ?_, ?_⟩
    · unfold retryLoop; cases replies attempt <;> simp
    · unfold retryLoop; cases replies attempt <;> simp
    · intro a err h1 h2 _
      exfalso
      unfold retryLoop at h2
      cases hr : replies attempt <;> rw [hr] at h2 <;> simp only at h2 <;> omega
  | succ r ih =>
    intro attempt delays
    have hstop : ∀ res : Attempted α, res.delays = delays → res.requests = attempt + 1 →
        ∃ extra : List Nat, res.delays = delays ++ extra ∧
          extra.length + attempt + 1 = res.requests ∧
          ∀ (a : Nat) (err : Failure), attempt ≤ a → a + 1 < res.requests →
            replies a = Reply.fail err →
            extra[a - attempt]? = some (retryDelay err baseDelayMs a (rand a % 250)) := by
      intro res hd hq
      refine ⟨[], by simp [hd], by simp [hq], ?_⟩
      intro a err h1 h2 _
      omega
    unfold retryLoop
    cases hr : replies attempt with
    | ok data => exact hstop _ rfl rfl
    | fail e =>
      dsimp only
      by_cases hret : retriable e = false
      · rw [if_pos hret]
        exact hstop _ rfl rfl
      · rw [if_neg hret]
        obtain ⟨extra, e1, e2, e3⟩ := ih (attempt + 1)
          (delays ++ [retryDelay e baseDelayMs attempt (rand attempt % 250)])
        refine ⟨retryDelay e baseDelayMs attempt (rand attempt % 250) :: extra, ?_, ?_, ?_⟩
        · rw [e1]; simp
        · rw [← e2]; simp only [List.length_cons]; omega
        · intro a err h1 h2 hfail
          by_cases hae : a = attempt
          · rw [hae, hr] at hfail
            injection hfail with hfail
            subst hfail
            subst hae
            simp
          · have h3 : attempt + 1 ≤ a := by omega
            have := e3 a err h3 h2 hfail
            have hidx : a - attempt = (a - (attempt + 1)) + 1 := by omega
            rw [hidx, List.getElem?_cons_succ]
            exact this

/-- C18: the wait slept after attempt `a` is `retryAfter * 1000` for a positive
`Retry-After` and `baseDelayMs * 2 ^ a` otherwise, plus a jitter between 0 and
249; with `baseDelayMs = 900` and no `Retry-After` the wait after attempt
`a + 1` exceeds the wait after attempt `a` for all jitter values; after two 429
answers the second wait exceeds the first and the following response is returned. -/
theorem backoff_waits :
    (∀ (replies : Nat → Reply (List Transfer)) (rand : Nat → Nat)
        (retries baseDelayMs a : Nat) (err : Failure),
      a + 1 < (axiosGetWithRetry replies rand retries baseDelayMs).requests →
      replies a = Reply.fail err →
      (axiosGetWithRetry replies rand retries baseDelayMs).delays[a]? =
          some ((if 0 < err.retryAfter then err.retryAfter * 1000 else baseDelayMs * 2 ^ a)
            + rand a % 250) ∧
        rand a % 250 ≤ 249) ∧
    (∀ (s s' : Option Nat) (a j j' : Nat),
      retryDelay { status := s, retryAfter := 0 } 900 a (j % 250) <
        retryDelay { status := s', retryAfter := 0 } 900 (a + 1) (j' % 250)) ∧
    (∀ (data : List Transfer) (rand : Nat → Nat),
      (axiosGetWithRetry (twice429 data) rand 6 900).result = Except.ok data ∧
      (axiosGetWithRetry (twice429 data) rand 6 900).requests = 3 ∧
      (axiosGetWithRetry (twice429 data) rand 6 900).delays =
        [900 + rand 0 % 250, 1800 + rand 1 % 250] ∧
      900 + rand 0 % 250 < 1800 + rand 1 % 250) := by
  refine ⟨?_, ?_, ?_⟩
  · intro replies rand retries baseDelayMs a err h1 h2
    obtain ⟨extra, e1, -, e3⟩ := retryLoop_delays replies rand baseDelayMs retries 0 []
    have h := e3 a err (Nat.zero_le a) h1 h2
    unfold axiosGetWithRetry
    rw [e1]
    simp only [List.nil_append, Nat.sub_zero] at h ⊢
    rw [h]
    refine ⟨rfl, ?_⟩
    have := Nat.mod_lt (rand a) (by decide : 0 < 250)
    omega
  · intro s s' a j j'
    simp only [retryDelay, lt_irrefl, if_false]
    have h1 := Nat.mod_lt j (by decide : 0 < 250)
    have h2 : 1 ≤ 2 ^ a := Nat.one_le_two_pow
    rw [pow_succ]
    omega
  · intro data rand
    have h1 := Nat.mod_lt (rand 0) (by decide : 0 < 250)
    refine ⟨rfl, rfl, ?_, by omega⟩
    simp [axiosGetWithRetry, retryLoop, twice429, retriable, retryDelay]

/-! ## Claims about notifier failure and the size of the dedup map -/

/-- The three ways `onIncomingDeposit` ends. -/
theorem onIncomingDeposit_cases (env : Env) (wallet : String) (t : Transfer) (w : World) :
    (env.ledgerFails t = true ∧
      onIncomingDeposit env wallet t w = ({ w with writes := w.writes ++ [t] }, true)) ∨
    (env.ledgerFails t = false ∧ w.ledger.hasKey wallet t.transaction_id = true ∧
      onIncomingDeposit env wallet t w = ({ w with writes := w.writes ++ [t] }, false)) ∨
    (env.ledgerFails t = false ∧ w.ledger.hasKey wallet t.transaction_id = false ∧
      onIncomingDeposit env wallet t w =
        ({ ledger := w.ledger ++ [depositDoc wallet t], writes := w.writes ++ [t],
           notified := w.notified ++ [t] }, env.telegramFails t)) := by
  unfold onIncomingDeposit
  by_cases h1 : env.ledgerFails t = true
  · left; simp [h1]
  · right
    have h1' : env.ledgerFails t = false := by simpa using h1
    by_cases h2 : w.ledger.hasKey wallet t.transaction_id = true
    · left; simp [h1', h2]
    · right
      have h2' : w.ledger.hasKey wallet t.transaction_id = false := by simpa using h2
      simp [h1', h2']

theorem Processed.hasKey_assign_self (m : Processed) (k : String) (v : Nat)
    (h : m.seen k = false) : (m.assign k v).hasKey k = true := by
  unfold Processed.hasKey
  rw [Processed.own_assign_self m k v h]
  rfl

theorem Processed.hasKey_assign_mono (m : Processed) (k k' : String) (v : Nat)
    (h : m.hasKey k = true) : (m.assign k' v).hasKey k = true := by
  by_cases hk : k = k'
  · rw [← hk, Processed.assign_of_hasKey m k v h]
    unfold Processed.hasKey
    rw [Processed.own_store_self]
    rfl
  · unfold Processed.hasKey at h ⊢
    rw [Processed.own_assign_ne m k k' v hk]
    exact h

/-- The loop never removes a key of the dedup map. -/
theorem processLoop_keys_mono (env : Env) (wallet : String) (l : List Transfer) :
    ∀ (st : WState) (w : World) (k : String), st.processed.hasKey k = true →
      (processLoop env wallet l st w).1.processed.hasKey k = true := by
  induction l with
  | nil => intro st w k h; simpa [processLoop] using h
  | cons x rest ih =>
    intro st w k h
    by_cases hgo : x.valid ∧ st.processed.seen x.transaction_id = false
    · rw [processLoop_go env wallet x rest st w hgo.1 hgo.2]
      split
      · exact Processed.hasKey_assign_mono _ _ _ _ h
      · exact ih _ _ k (Processed.hasKey_assign_mono _ _ _ _ h)
    · rw [processLoop_skip env wallet x rest st w hgo]
      exact ih st w k h

/-- A notifier failure ends the loop at that record: the ledger record and the
dedup entry are in place, the record is the last one handed to the hook, and
`lastTs` is the maximum over the records handed to the hook before it. -/
theorem processLoop_notifier_fails (env : Env) (wallet : String) (l : List Transfer) :
    ∀ (st : WState) (w : World) (t : Transfer),
      t ∈ (processLoop env wallet l st w).2.1.notified → t ∉ w.notified →
      env.telegramFails t = true →
      (processLoop env wallet l st w).2.2 = true ∧
      (processLoop env wallet l st w).2.1.ledger.hasKey wallet t.transaction_id = true ∧
      (processLoop env wallet l st w).1.processed.hasKey t.transaction_id = true ∧
      ∃ before : List Transfer,
        (processLoop env wallet l st w).2.1.writes = w.writes ++ before ++ [t] ∧
        (processLoop env wallet l st w).1.lastTs =
          (before.map (fun u => u.block_ts)).foldl max st.lastTs := by
  induction l with
  | nil =>
    intro st w t h1 h2 _
    simp only [processLoop] at h1
    exact absurd h1 h2
  | cons x rest ih =>
    intro st w t h1 h2 h3
    by_cases hgo : x.valid ∧ st.processed.seen x.transaction_id = false
    · rw [processLoop_go env wallet x rest st w hgo.1 hgo.2] at h1 ⊢
      have hmax : (if st.lastTs < x.block_ts then x.block_ts else st.lastTs) =
          max st.lastTs x.block_ts := by
        split
        · rw [max_eq_right]; omega
        · rw [max_eq_left]; omega
      rcases onIncomingDeposit_cases env wallet x w with ⟨-, hc⟩ | ⟨-, -, hc⟩ | ⟨-, -, hc⟩
      · rw [hc] at h1
        simp only [if_true] at h1
        exact absurd h1 h2
      · rw [hc] at h1 ⊢
        simp only [Bool.false_eq_true, if_false] at h1 ⊢
        obtain ⟨i1, i2, i3, before, i4, i5⟩ := ih _ _ t h1 h2 h3
        refine ⟨i1, i2, i3, x :: before, ?_, ?_⟩
        · rw [i4]; simp
        · rw [i5]; simp only [hmax, List.map_cons, List.foldl_cons]
      · rw [hc] at h1 ⊢
        by_cases hx : env.telegramFails x = true
        · simp only [hx, if_true] at h1 ⊢
          have htx : t = x := by
            rcases List.mem_append.1 h1 with h | h
            · exact absurd h h2
            · exact List.mem_singleton.1 h
          subst htx
          refine ⟨trivial, ?_, Processed.hasKey_assign_self _ _ _ hgo.2, [], by simp, by simp⟩
          rw [Ledger.hasKey_append]
          simp [Ledger.hasKey, depositDoc]
        · have hx' : env.telegramFails x = false := by simpa using hx
          simp only [hx', Bool.false_eq_true, if_false] at h1 ⊢
          have hne : t ≠ x := by
            intro he
            rw [he, hx'] at h3
            cases h3
          have h2' : t ∉ w.notified ++ [x] := by
            intro hc2
            rcases List.mem_append.1 hc2 with h | h
            · exact h2 h
            · exact hne (List.mem_singleton.1 h)
          obtain ⟨i1, i2, i3, before, i4, i5⟩ := ih _ _ t h1 h2' h3
          refine ⟨i1, i2, i3, x :: before, ?_, ?_⟩
          · rw [i4]; simp
          · rw [i5]; simp only [hmax, List.map_cons, List.foldl_cons]
    · rw [processLoop_skip env wallet x rest st w hgo] at h1 ⊢
      exact ih st w t h1 h2 h3

/-- C15 (as stated, fails): with the notifier down, the pass over a feed of two
new deposits throws at the first one it inserts: the ledger record and the
dedup entry for it are kept, but `lastTs` stays 0 and the later deposit is not
processed in this pass. -/
theorem notifier_failure_aborts_wallet :
    processWallet defaultConfig (notifierDownEnv defaultConfig [sampleLater, sampleDeposit])
      "W" freshState [] =
      { state := { lastTs := 0, processed := [("a", 5)] },
        ledger := [depositDoc "W" sampleDeposit],
        writes := [sampleDeposit], notified := [sampleDeposit], threw := true } ∧
    sampleDeposit.block_ts = 5 ∧
    fetchIncomingSince defaultConfig (feedUpstream defaultConfig [sampleLater, sampleDeposit])
      "W" 0 = some [sampleLater, sampleDeposit] := by
  decide

/-- C15 (amended): if `sendTelegram` fails for a record the pass has just inserted,
`processWallet` throws at that record: the ledger record and the dedup entry are
kept, the record is the last one handed to the ledger hook in the pass, and
`lastTs` is the maximum over the records handed to the hook before it, not
advanced by the record itself. -/
theorem notifier_failure_keeps_write (cfg : Config) (env : Env) (wallet : String)
    (st : WState) (ledger : Ledger) (t : Transfer)
    (hnotified : t ∈ (processWallet cfg env wallet st ledger).notified)
    (hfails : env.telegramFails t = true) :
    (processWallet cfg env wallet st ledger).threw = true ∧
    (processWallet cfg env wallet st ledger).ledger.hasKey wallet t.transaction_id = true ∧
    (processWallet cfg env wallet st ledger).state.processed.hasKey t.transaction_id = true ∧
    ∃ before : List Transfer,
      (processWallet cfg env wallet st ledger).writes = before ++ [t] ∧
      (processWallet cfg env wallet st ledger).state.lastTs =
        (before.map (fun u => u.block_ts)).foldl max st.lastTs := by
  rcases processWallet_run cfg env wallet st ledger with ⟨-, h1⟩ | ⟨_, -, -, h1⟩ |
    ⟨incoming, -, -, r, hr, hs, hl, hw, hn, ht⟩
  · rw [h1] at hnotified; simp at hnotified
  · rw [h1] at hnotified; simp at hnotified
  · rw [hn, hr] at hnotified
    obtain ⟨i1, i2, i3, before, i4, i5⟩ := processLoop_notifier_fails env wallet
      (incoming.insertionSort (fun a b => a.block_ts ≤ b.block_ts)) st
      { ledger := ledger, writes := [], notified := [] } t hnotified (by simp) hfails
    rw [← hr] at i1 i2 i3 i4 i5
    rw [hs, hl, hw, ht, i1]
    simp only [if_true]
    refine ⟨trivial, i2, i3, before, ?_, i5⟩
    rw [i4]; simp

/-- Witness for C15 (amended): the two-entry sample feed with the notifier down. -/
theorem notifier_failure_keeps_write_witness :
    (processWallet defaultConfig (notifierDownEnv defaultConfig [sampleLater, sampleDeposit])
      "W" freshState []).threw = true ∧
    (processWallet defaultConfig (notifierDownEnv defaultConfig [sampleLater, sampleDeposit])
      "W" freshState []).ledger.hasKey "W" sampleDeposit.transaction_id = true :=
  have h := notifier_failure_keeps_write defaultConfig
    (notifierDownEnv defaultConfig [sampleLater, sampleDeposit]) "W" freshState []
    sampleDeposit (by decide) rfl
  ⟨h.1, h.2.1⟩

theorem pruneProcessed_length (m : Processed) : (pruneProcessed m 3000).length ≤ 3000 := by
  unfold pruneProcessed
  split
  · assumption
  · rw [List.length_take]
    omega

/-- C20: from a dedup map of at most 3000 entries, a pass that returns normally
leaves at most 3000 entries, and so does any sequence of passes that all return
normally; in particular from the empty state. -/
theorem processed_stays_bounded (cfg : Config) (wallet : String) (st : WState)
    (ledger : Ledger) (hsize : st.processed.length ≤ 3000) :
    (∀ env : Env, (processWallet cfg env wallet st ledger).threw = false →
      (processWallet cfg env wallet st ledger).state.processed.length ≤ 3000) ∧
    (∀ envs : List Env, scansOk cfg wallet envs st ledger = true →
      (scans cfg wallet envs st ledger).1.processed.length ≤ 3000) := by
  have hone : ∀ (st : WState) (ledger : Ledger) (env : Env), st.processed.length ≤ 3000 →
      (processWallet cfg env wallet st ledger).threw = false →
      (processWallet cfg env wallet st ledger).state.processed.length ≤ 3000 := by
    intro st ledger env hsize hok
    rcases processWallet_run cfg env wallet st ledger with ⟨-, h1⟩ | ⟨_, -, -, h1⟩ |
      ⟨incoming, -, -, r, -, hs, -, -, -, ht⟩
    · rw [h1] at hok; cases hok
    · rw [h1]; exact hsize
    · rw [ht] at hok
      rw [hs, hok]
      simp only [Bool.false_eq_true, if_false]
      exact pruneProcessed_length _
  refine ⟨fun env => hone st ledger env hsize, ?_⟩
  intro envs
  induction envs generalizing st ledger with
  | nil => intro _; exact hsize
  | cons env envs ih =>
    intro hok
    simp only [scansOk, Bool.and_eq_true, Bool.not_eq_true'] at hok
    simp only [scans]
    exact ih _ _ (hone st ledger env hsize hok.1) hok.2

/-- Witness for C20: two passes over the sample feed from the empty state. -/
theorem processed_stays_bounded_witness :
    freshState.processed.length ≤ 3000 ∧
    (scans defaultConfig "W"
      [quietEnv defaultConfig [sampleDeposit], quietEnv defaultConfig [sampleLater, sampleDeposit]]
      freshState []).1.processed.length ≤ 3000 :=
  ⟨by decide,
    (processed_stays_bounded defaultConfig "W" freshState [] (by decide)).2
      [quietEnv defaultConfig [sampleDeposit], quietEnv defaultConfig [sampleLater, sampleDeposit]]
      (by decide)⟩

/-! ## Claims about the run pass -/

/-- C19: `acquireLock` returns true exactly when the marker is absent, and the
marker exists after it; every pass that acquired the lock ends with the marker
absent, whether it completes normally, a wallet's processing fails or an
exception escapes; a pass that finds the marker present scans nothing, calls no
ledger write and leaves the state file, the ledger and the marker as they were. -/
theorem lock_released_on_every_exit :
    (∀ lock : Bool, (acquireLock lock).1 = true ↔ lock = false) ∧
    (∀ lock : Bool, (acquireLock lock).2 = true) ∧
    (∀ (cfg : Config) (WALLETS : List String) (env : Env) (stateWriteFails : Bool)
        (m : Machine), (run cfg WALLETS env stateWriteFails m).acquired = true →
      (run cfg WALLETS env stateWriteFails m).machine.lock = false) ∧
    (∀ (cfg : Config) (WALLETS : List String) (env : Env) (stateWriteFails : Bool)
        (m : Machine), m.lock = false →
      (run cfg WALLETS env stateWriteFails m).acquired = true) ∧
    (∀ (cfg : Config) (WALLETS : List String) (env : Env) (stateWriteFails : Bool)
        (m : Machine), m.lock = true →
      run cfg WALLETS env stateWriteFails m =
        { machine := m, wallets := [], scanned := [], writes := [], notified := [],
          failed := [], acquired := false, threw := false }) ∧
    ((run defaultConfig ["W"] (quietEnv defaultConfig [sampleDeposit]) false
        cleanMachine).failed = [] ∧
      (run defaultConfig ["W"] (quietEnv defaultConfig [sampleDeposit]) false
        cleanMachine).threw = false ∧
      (run defaultConfig ["W"] (quietEnv defaultConfig [sampleDeposit]) false
        cleanMachine).machine.lock = false) ∧
    ((run defaultConfig ["W"] upstreamDownEnv false cleanMachine).failed = ["W"] ∧
      (run defaultConfig ["W"] upstreamDownEnv false cleanMachine).machine.lock = false) ∧
    ((run defaultConfig ["W"] upstreamDownEnv false
        { lock := false, stateFile := StateFile.null, ledger := [] }).threw = true ∧
      (run defaultConfig ["W"] upstreamDownEnv false
        { lock := false, stateFile := StateFile.null, ledger := [] }).machine.lock = false) := by
  refine ⟨?_, ?_, ?_, ?_, ?_, by decide, by decide, by decide⟩
  · intro lock
    cases lock <;> simp [acquireLock]
  · intro lock
    cases lock <;> simp [acquireLock]
  · intro cfg WALLETS env swf m hacq
    obtain ⟨lock, file, ledger⟩ := m
    cases lock with
    | true => simp [run, acquireLock] at hacq
    | false =>
      cases hload : loadState WALLETS file <;> simp [run, acquireLock, releaseLock, hload]
  · intro cfg WALLETS env swf m hlock
    obtain ⟨lock, file, ledger⟩ := m
    simp only at hlock
    subst hlock
    cases hload : loadState WALLETS file <;> simp [run, acquireLock, hload]
  · intro cfg WALLETS env swf m hlock
    obtain ⟨lock, file, ledger⟩ := m
    simp only at hlock
    subst hlock
    simp [run, acquireLock]

theorem WalletMap.find_put_ne (m : WalletMap) (k k' : String) (v : WState) (h : k ≠ k') :
    (m.put k' v).find k = m.find k := by
  have hb : (k == k') = false := by simpa using h
  induction m with
  | nil => simp [WalletMap.put, WalletMap.find, List.lookup, hb]
  | cons p m ih =>
    obtain ⟨a, b⟩ := p
    unfold WalletMap.put
    by_cases hk : a = k'
    · subst hk
      simp [WalletMap.find, List.lookup, hb]
    · simp only [hk, if_false]
      simp only [WalletMap.find, List.lookup] at ih ⊢
      rw [ih]

theorem WalletMap.find_put_self (m : WalletMap) (k : String) (v : WState) :
    (m.put k v).find k = some v := by
  induction m with
  | nil => simp [WalletMap.put, WalletMap.find, List.lookup]
  | cons p m ih =>
    obtain ⟨a, b⟩ := p
    unfold WalletMap.put
    by_cases hk : a = k
    · subst hk
      simp [WalletMap.find, List.lookup]
    · simp only [hk, if_false]
      have hk' : (k == a) = false := by simpa using (Ne.symm hk)
      simp only [WalletMap.find, List.lookup, hk'] at ih ⊢
      exact ih

theorem WalletMap.put_same (m : WalletMap) (k : String) (v : WState)
    (h : m.find k = some v) : m.put k v = m := by
  induction m with
  | nil => simp [WalletMap.find, List.lookup] at h
  | cons p m ih =>
    obtain ⟨a, b⟩ := p
    unfold WalletMap.put
    by_cases hk : a = k
    · subst hk
      simp only [WalletMap.find, List.lookup, beq_self_eq_true, Option.some.injEq] at h
      simp [h]
    · have hk' : (k == a) = false := by simpa using (Ne.symm hk)
      simp only [WalletMap.find, List.lookup, hk'] at h ih
      simp only [hk, if_false]
      rw [ih h]

theorem fetchLoop_congr (cfg : Config) (up1 up2 : String → Nat → Option (List Transfer))
    (wallet : String) (lastTs : Nat) (h : ∀ s, up1 wallet s = up2 wallet s) (pages : Nat) :
    ∀ start incoming, fetchLoop cfg up1 wallet lastTs pages start incoming =
      fetchLoop cfg up2 wallet lastTs pages start incoming := by
  induction pages with
  | zero => intro start incoming; rfl
  | succ p ih =>
    intro start incoming
    simp only [fetchLoop, h start]
    cases up2 wallet start with
    | none => rfl
    | some list =>
      simp only
      split
      · rfl
      · cases scanPage wallet lastTs list incoming with
        | mk inc b => cases b <;> simp [ih]

theorem fetchIncomingSince_congr (cfg : Config)
    (up1 up2 : String → Nat → Option (List Transfer)) (wallet : String) (lastTs : Nat)
    (h : ∀ s, up1 wallet s = up2 wallet s) :
    fetchIncomingSince cfg up1 wallet lastTs = fetchIncomingSince cfg up2 wallet lastTs :=
  fetchLoop_congr cfg up1 up2 wallet lastTs h cfg.MAX_PAGES 0 []

/-- The loop reads the ledger only through the keys of its own wallet: two runs
that agree on those keys make the same calls, reach the same state and append
the same documents, all of them for this wallet. -/
theorem processLoop_congr (env env' : Env) (wallet : String)
    (hl : env'.ledgerFails = env.ledgerFails) (ht : env'.telegramFails = env.telegramFails)
    (l : List Transfer) :
    ∀ (st : WState) (w w' : World), w.writes = w'.writes → w.notified = w'.notified →
      (∀ k, w.ledger.hasKey wallet k = w'.ledger.hasKey wallet k) →
      (processLoop env wallet l st w).1 = (processLoop env' wallet l st w').1 ∧
      (processLoop env wallet l st w).2.2 = (processLoop env' wallet l st w').2.2 ∧
      (processLoop env wallet l st w).2.1.writes = (processLoop env' wallet l st w').2.1.writes ∧
      (processLoop env wallet l st w).2.1.notified =
        (processLoop env' wallet l st w').2.1.notified ∧
      ∃ added : Ledger,
        (processLoop env wallet l st w).2.1.ledger = w.ledger ++ added ∧
        (processLoop env' wallet l st w').2.1.ledger = w'.ledger ++ added ∧
        ∀ d ∈ added, d.wallet = wallet := by
  induction l with
  | nil =>
    intro st w w' h1 h2 _
    exact ⟨rfl, rfl, h1, h2, [], by simp [processLoop], by simp [processLoop], by simp⟩
  | cons x rest ih =>
    intro st w w' h1 h2 h3
    by_cases hgo : x.valid ∧ st.processed.seen x.transaction_id = false
    · rw [processLoop_go env wallet x rest st w hgo.1 hgo.2,
        processLoop_go env' wallet x rest st w' hgo.1 hgo.2]
      rcases onIncomingDeposit_cases env wallet x w with ⟨c0, hc⟩ | ⟨c0, c1, hc⟩ | ⟨c0, c1, hc⟩
      · rcases onIncomingDeposit_cases env' wallet x w' with
          ⟨d0, hd⟩ | ⟨d0, -, -⟩ | ⟨d0, -, -⟩
        · rw [hc, hd]
          simp only [if_true]
          exact ⟨by simp, by simp, by simp [h1], by simp [h2], [], by simp, by simp, by simp⟩
        · rw [hl, c0] at d0; cases d0
        · rw [hl, c0] at d0; cases d0
      · rcases onIncomingDeposit_cases env' wallet x w' with
          ⟨d0, -⟩ | ⟨-, -, hd⟩ | ⟨-, d1, -⟩
        · rw [hl, c0] at d0; cases d0
        · rw [hc, hd]
          simp only [Bool.false_eq_true, if_false]
          exact ih _ _ _ (by simp [h1]) h2 h3
        · rw [← h3, c1] at d1; cases d1
      · rcases onIncomingDeposit_cases env' wallet x w' with
          ⟨d0, -⟩ | ⟨-, d1, -⟩ | ⟨-, -, hd⟩
        · rw [hl, c0] at d0; cases d0
        · rw [← h3, c1] at d1; cases d1
        · rw [hc, hd, ht]
          by_cases hx : env.telegramFails x = true
          · simp only [hx, if_true]
            refine ⟨by simp, by simp, by simp [h1], by simp [h2], [depositDoc wallet x],
              by simp, by simp, ?_⟩
            intro d hd'
            rw [List.mem_singleton.1 hd']
            rfl
          · have hx' : env.telegramFails x = false := by simpa using hx
            simp only [hx', Bool.false_eq_true, if_false]
            obtain ⟨i1, i2, i3, i4, added, i5, i6, i7⟩ := ih
              { lastTs := if st.lastTs < x.block_ts then x.block_ts else st.lastTs,
                processed := st.processed.assign x.transaction_id x.block_ts }
              { ledger := w.ledger ++ [depositDoc wallet x], writes := w.writes ++ [x],
                notified := w.notified ++ [x] }
              { ledger := w'.ledger ++ [depositDoc wallet x], writes := w'.writes ++ [x],
                notified := w'.notified ++ [x] }
              (by simp [h1]) (by simp [h2])
              (by intro k; simp only [Ledger.hasKey_append, h3])
            refine ⟨i1, i2, i3, i4, depositDoc wallet x :: added, ?_, ?_, ?_⟩
            · rw [i5]; simp
            · rw [i6]; simp
            · intro d hd'
              rcases List.mem_cons.1 hd' with h | h
              · rw [h]; rfl
              · exact i7 d h
    · rw [processLoop_skip env wallet x rest st w hgo,
        processLoop_skip env' wallet x rest st w' hgo]
      exact ih st w w' h1 h2 h3

/-- `processWallet` depends on the upstream only at its own wallet and on the
ledger only through the keys of its own wallet. -/
theorem processWallet_congr (cfg : Config) (env env' : Env) (wallet : String)
    (hup : ∀ s, env'.upstream wallet s = env.upstream wallet s)
    (hl : env'.ledgerFails = env.ledgerFails) (ht : env'.telegramFails = env.telegramFails)
    (st : WState) (ledger ledger' : Ledger)
    (hkeys : ∀ k, ledger.hasKey wallet k = ledger'.hasKey wallet k) :
    (processWallet cfg env wallet st ledger).state =
      (processWallet cfg env' wallet st ledger').state ∧
    (processWallet cfg env wallet st ledger).threw =
      (processWallet cfg env' wallet st ledger').threw ∧
    (processWallet cfg env wallet st ledger).writes =
      (processWallet cfg env' wallet st ledger').writes ∧
    (processWallet cfg env wallet st ledger).notified =
      (processWallet cfg env' wallet st ledger').notified ∧
    ∃ added : Ledger,
      (processWallet cfg env wallet st ledger).ledger = ledger ++ added ∧
      (processWallet cfg env' wallet st ledger').ledger = ledger' ++ added ∧
      ∀ d ∈ added, d.wallet = wallet := by
  have hfetch := fetchIncomingSince_congr cfg env'.upstream env.upstream wallet st.lastTs hup
  rcases processWallet_run cfg env wallet st ledger with ⟨f0, h1⟩ | ⟨inc, f0, hlen, h1⟩ |
    ⟨incoming, f0, hlen, r, hr, a1, a2, a3, a4, a5⟩
  · rcases processWallet_run cfg env' wallet st ledger' with ⟨-, h2⟩ | ⟨_, g0, -, -⟩ |
      ⟨_, g0, -, -⟩
    · rw [h1, h2]
      exact ⟨rfl, rfl, rfl, rfl, [], by simp, by simp, by simp⟩
    · rw [hfetch, f0] at g0; cases g0
    · rw [hfetch, f0] at g0; cases g0
  · rcases processWallet_run cfg env' wallet st ledger' with ⟨g0, -⟩ | ⟨_, -, -, h2⟩ |
      ⟨inc', g0, hlen', -⟩
    · rw [hfetch, f0] at g0; cases g0
    · rw [h1, h2]
      exact ⟨rfl, rfl, rfl, rfl, [], by simp, by simp, by simp⟩
    · rw [hfetch, f0] at g0
      injection g0 with g0
      rw [← g0] at hlen'
      exact absurd hlen hlen'
  · rcases processWallet_run cfg env' wallet st ledger' with ⟨g0, -⟩ | ⟨inc', g0, hlen', -⟩ |
      ⟨incoming', g0, -, r', hr', b1, b2, b3, b4, b5⟩
    · rw [hfetch, f0] at g0; cases g0
    · rw [hfetch, f0] at g0
      injection g0 with g0
      rw [← g0] at hlen'
      exact absurd hlen' hlen
    · rw [hfetch, f0] at g0
      injection g0 with g0
      subst g0
      obtain ⟨i1, i2, i3, i4, added, i5, i6, i7⟩ := processLoop_congr env env' wallet hl ht
        (incoming.insertionSort (fun a b => a.block_ts ≤ b.block_ts)) st
        { ledger := ledger, writes := [], notified := [] }
        { ledger := ledger', writes := [], notified := [] } rfl rfl hkeys
      rw [← hr, ← hr'] at i1 i2 i3 i4
      rw [← hr] at i5
      rw [← hr'] at i6
      rw [a1, a2, a3, a4, a5, b1, b2, b3, b4, b5, i1, i2, i3, i4]
      exact ⟨rfl, rfl, rfl, rfl, added, i5, i6, i7⟩

end ScronWallet
namespace ScronWallet

theorem Ledger.hasKey_other (added : Ledger) (w w' k : String)
    (hadded : ∀ d ∈ added, d.wallet = w) (hne : w' ≠ w) : added.hasKey w' k = false := by
  unfold Ledger.hasKey
  rw [List.any_eq_false]
  intro d hd
  have := hadded d hd
  simp only [decide_eq_true_eq, not_and]
  intro hc
  exact absurd (this.symm.trans hc).symm hne

/-- A wallet whose scan, from the watermark the loop state holds for it, throws
leaves the loop state as it was, apart from the trace: same ledger, and the same
state for every wallet. -/
theorem walletStep_fetch_fails (cfg : Config) (env : Env) (w : String) (acc : LoopState)
    (hfail : fetchIncomingSince cfg env.upstream w
      ((acc.wallets.find w).getD freshState).lastTs = none) :
    (walletStep cfg env w acc).ledger = acc.ledger ∧
    (∀ w', (walletStep cfg env w acc).wallets.find w' = acc.wallets.find w') ∧
    (walletStep cfg env w acc).scanned = acc.scanned ++ [w] := by
  have hout : processWallet cfg env w ((acc.wallets.find w).getD freshState) acc.ledger =
      { state := (acc.wallets.find w).getD freshState, ledger := acc.ledger, writes := [],
        notified := [], threw := true } := by
    rcases processWallet_run cfg env w ((acc.wallets.find w).getD freshState) acc.ledger with
      ⟨-, h1⟩ | ⟨_, f0, -, -⟩ | ⟨_, f0, -, -⟩
    · exact h1
    · rw [hfail] at f0; cases f0
    · rw [hfail] at f0; cases f0
  unfold walletStep
  simp only [hout]
  refine ⟨trivial, ?_, trivial⟩
  intro w'
  cases hfind : acc.wallets.find w with
  | none => simp
  | some s =>
    simp only [Option.isSome_some, Bool.true_eq_false, and_false, if_false, Option.getD_some]
    by_cases hw : w' = w
    · rw [hw, WalletMap.find_put_self, hfind]
    · rw [WalletMap.find_put_ne _ _ _ _ hw]

/-- One loop iteration for a wallet other than `w`, run under two surroundings
that differ only in the upstream of `w`, from loop states that agree on every
wallet other than `w`: the results agree on every wallet other than `w`. -/
theorem walletStep_congr (cfg : Config) (env env' : Env) (w x : String) (hx : x ≠ w)
    (hup : ∀ w', w' ≠ w → ∀ s, env'.upstream w' s = env.upstream w' s)
    (hl : env'.ledgerFails = env.ledgerFails) (ht : env'.telegramFails = env.telegramFails)
    (acc acc' : LoopState)
    (hw : ∀ w', w' ≠ w → acc.wallets.find w' = acc'.wallets.find w')
    (hk : ∀ w', w' ≠ w → ∀ k, acc.ledger.hasKey w' k = acc'.ledger.hasKey w' k) :
    (∀ w', w' ≠ w →
      (walletStep cfg env x acc).wallets.find w' = (walletStep cfg env' x acc').wallets.find w') ∧
    (∀ w', w' ≠ w → ∀ k, (walletStep cfg env x acc).ledger.hasKey w' k =
      (walletStep cfg env' x acc').ledger.hasKey w' k) ∧
    (walletStep cfg env x acc).wallets.find w = acc.wallets.find w ∧
    (walletStep cfg env x acc).scanned = acc.scanned ++ [x] := by
  have hfx := hw x hx
  obtain ⟨c1, c2, -, -, added, c5, c6, -⟩ := processWallet_congr cfg env env' x (hup x hx) hl ht
    ((acc.wallets.find x).getD freshState) acc.ledger acc'.ledger (hk x hx)
  unfold walletStep
  simp only
  rw [← hfx, ← c1, ← c2, c5, c6]
  refine ⟨?_, ?_, ?_, trivial⟩
  · intro w' hw'
    split
    · exact hw w' hw'
    · by_cases hwx : w' = x
      · rw [hwx, WalletMap.find_put_self, WalletMap.find_put_self]
      · rw [WalletMap.find_put_ne _ _ _ _ hwx, WalletMap.find_put_ne _ _ _ _ hwx]
        exact hw w' hw'
  · intro w' hw' k
    rw [Ledger.hasKey_append, Ledger.hasKey_append, hk w' hw' k]
  · split
    · rfl
    · rw [WalletMap.find_put_ne _ _ _ _ (Ne.symm hx)]

/-- One loop iteration for `w` itself under the other surroundings changes no
other wallet's state and no other wallet's ledger keys. -/
theorem walletStep_own (cfg : Config) (env : Env) (w : String) (acc : LoopState) :
    (∀ w', w' ≠ w → (walletStep cfg env w acc).wallets.find w' = acc.wallets.find w') ∧
    (∀ w', w' ≠ w → ∀ k, (walletStep cfg env w acc).ledger.hasKey w' k =
      acc.ledger.hasKey w' k) := by
  obtain ⟨-, -, -, -, added, c5, -, c7⟩ := processWallet_congr cfg env env w (fun _ => rfl) rfl rfl
    ((acc.wallets.find w).getD freshState) acc.ledger acc.ledger (fun _ => rfl)
  unfold walletStep
  simp only
  refine ⟨?_, ?_⟩
  · intro w' hw'
    split
    · rfl
    · rw [WalletMap.find_put_ne _ _ _ _ hw']
  · intro w' hw' k
    rw [c5, Ledger.hasKey_append, Ledger.hasKey_other added w w' k c7 hw']
    simp

theorem walletLoop_isolated (cfg : Config) (env env' : Env) (w : String)
    (hup : ∀ w', w' ≠ w → ∀ s, env'.upstream w' s = env.upstream w' s)
    (hl : env'.ledgerFails = env.ledgerFails) (ht : env'.telegramFails = env.telegramFails)
    (WALLETS : List String) :
    ∀ (acc acc' : LoopState),
      fetchIncomingSince cfg env.upstream w
        ((acc.wallets.find w).getD freshState).lastTs = none →
      (∀ w', w' ≠ w → acc.wallets.find w' = acc'.wallets.find w') →
      (∀ w', w' ≠ w → ∀ k, acc.ledger.hasKey w' k = acc'.ledger.hasKey w' k) →
      (∀ w', w' ≠ w → (walletLoop cfg env WALLETS acc).wallets.find w' =
        (walletLoop cfg env' WALLETS acc').wallets.find w') ∧
      (walletLoop cfg env WALLETS acc).wallets.find w = acc.wallets.find w ∧
      (walletLoop cfg env WALLETS acc).scanned = acc.scanned ++ WALLETS := by
  induction WALLETS with
  | nil =>
    intro acc acc' _ hw _
    exact ⟨hw, rfl, by simp [walletLoop]⟩
  | cons x rest ih =>
    intro acc acc' hfail hw hk
    simp only [walletLoop]
    by_cases hx : x = w
    · subst hx
      obtain ⟨s1, s2, s3⟩ := walletStep_fetch_fails cfg env x acc hfail
      obtain ⟨o1, o2⟩ := walletStep_own cfg env' x acc'
      obtain ⟨j1, j2, j3⟩ := ih (walletStep cfg env x acc) (walletStep cfg env' x acc')
        (by rw [s2 x]; exact hfail)
        (fun w' hw' => by rw [s2 w', o1 w' hw']; exact hw w' hw')
        (fun w' hw' k => by rw [s1, o2 w' hw' k]; exact hk w' hw' k)
      refine ⟨j1, ?_, ?_⟩
      · rw [j2, s2]
      · rw [j3, s3]; simp
    · obtain ⟨t1, t2, t3, t4⟩ := walletStep_congr cfg env env' w x hx hup hl ht acc acc' hw hk
      obtain ⟨j1, j2, j3⟩ := ih (walletStep cfg env x acc) (walletStep cfg env' x acc')
        (by rw [t3]; exact hfail) t1 t2
      refine ⟨j1, ?_, ?_⟩
      · rw [j2, t3]
      · rw [j3, t4]; simp

/-- C16: when the scan of wallet `w`, started from the watermark the pass loaded
for it, throws, the pass still scans every wallet of the list, ends without an
escaping exception and hands the state to the state-file write; `w` keeps the
state it had when the pass loaded it, and every other wallet ends in the state
it reaches in the pass that differs only in the upstream of `w`. -/
theorem failed_fetch_is_isolated (cfg : Config) (WALLETS : List String) (env env' : Env)
    (stateWriteFails : Bool) (m : Machine) (w : String) (loaded : WalletMap)
    (hlock : m.lock = false) (hload : loadState WALLETS m.stateFile = some loaded)
    (hfail : fetchIncomingSince cfg env.upstream w
      ((loaded.find w).getD freshState).lastTs = none)
    (hup : ∀ w', w' ≠ w → ∀ s, env'.upstream w' s = env.upstream w' s)
    (hl : env'.ledgerFails = env.ledgerFails) (ht : env'.telegramFails = env.telegramFails) :
    (run cfg WALLETS env stateWriteFails m).threw = false ∧
    (run cfg WALLETS env stateWriteFails m).scanned = WALLETS ∧
    (run cfg WALLETS env stateWriteFails m).machine.stateFile =
      (if stateWriteFails then m.stateFile
       else StateFile.saved (run cfg WALLETS env stateWriteFails m).wallets) ∧
    (run cfg WALLETS env stateWriteFails m).wallets.find w = loaded.find w ∧
    ∀ w', w' ≠ w → (run cfg WALLETS env stateWriteFails m).wallets.find w' =
      (run cfg WALLETS env' stateWriteFails m).wallets.find w' := by
  obtain ⟨j1, j2, j3⟩ := walletLoop_isolated cfg env env' w hup hl ht WALLETS
    { wallets := loaded, ledger := m.ledger, scanned := [], writes := [], notified := [],
      failed := [] }
    { wallets := loaded, ledger := m.ledger, scanned := [], writes := [], notified := [],
      failed := [] }
    hfail (fun _ _ => rfl) (fun _ _ _ => rfl)
  simp only [run, acquireLock, hlock, hload, Bool.false_eq_true, if_false]
  exact ⟨trivial, by simpa using j3, trivial, j2, j1⟩

/-- Witness for C16: two wallets; for `W` the upstream serves one page holding
the deposit `b` at timestamp 6 and throws on the next request, so the scan of
`W` throws from the loaded watermark 0 (and would return from watermark 6). -/
theorem failed_fetch_is_isolated_witness :
    fetchIncomingSince defaultConfig secondPageDownEnv.upstream "W" 0 = none ∧
    fetchIncomingSince defaultConfig secondPageDownEnv.upstream "W" 6 = some [] ∧
    (run defaultConfig ["W", "V"] secondPageDownEnv false cleanMachine).scanned = ["W", "V"] ∧
    (run defaultConfig ["W", "V"] secondPageDownEnv false cleanMachine).wallets.find "W" =
      some freshState :=
  have h := failed_fetch_is_isolated defaultConfig ["W", "V"] secondPageDownEnv
    (quietEnv defaultConfig []) false cleanMachine "W"
    [("W", freshState), ("V", freshState)] rfl (by decide) (by decide)
    (fun w' hw' s => by simp [quietEnv, feedUpstream, secondPageDownEnv, hw']) rfl rfl
  ⟨by decide, by decide, h.2.1, h.2.2.2.1.trans (by decide)⟩

/-! ## Two passes over an unchanged feed -/

theorem mem_takeWhile_mono {α : Type} (p q : α → Bool) (h : ∀ x, p x = true → q x = true)
    (l : List α) (t : α) (ht : t ∈ l.takeWhile p) : t ∈ l.takeWhile q := by
  induction l with
  | nil => simp at ht
  | cons x l ih =>
    by_cases hx : p x = true
    · simp only [List.takeWhile, hx] at ht
      simp only [List.takeWhile, h x hx]
      rcases List.mem_cons.1 ht with h1 | h1
      · rw [h1]; exact List.mem_cons_self _ _
      · exact List.mem_cons_of_mem _ (ih h1)
    · have hx' : p x = false := by simpa using hx
      simp [List.takeWhile, hx'] at ht

theorem Processed.seen_assign_self (m : Processed) (k : String) (v : Nat) (hv : v ≠ 0) :
    (m.assign k v).seen k = true := by
  by_cases hs : m.seen k = true
  · by_cases hk : m.hasKey k = true
    · rw [Processed.assign_of_hasKey m k v hk,
        Processed.seen_of_own _ k v (Processed.own_store_self m k v)]
      simpa using hv
    · have hk' : m.hasKey k = false := by simpa using hk
      unfold Processed.assign
      split
      · exact hs
      · rw [Processed.seen_of_own _ k v (Processed.own_store_self m k v)]
        simpa using hv
  · have hs' : m.seen k = false := by simpa using hs
    rw [Processed.seen_of_own _ k v (Processed.own_assign_self m k v hs')]
    simpa using hv

theorem Processed.length_store (m : Processed) (k : String) (v : Nat) :
    (m.store k v).length ≤ m.length + 1 := by
  induction m with
  | nil => simp [Processed.store]
  | cons p m ih =>
    obtain ⟨a, b⟩ := p
    unfold Processed.store
    split
    · simp
    · simp only [List.length_cons]
      omega

theorem Processed.length_assign (m : Processed) (k : String) (v : Nat) :
    (m.assign k v).length ≤ m.length + 1 := by
  unfold Processed.assign
  split
  · omega
  · exact Processed.length_store m k v

theorem pruneProcessed_small (m : Processed) (h : m.length ≤ 3000) :
    pruneProcessed m 3000 = m := by
  simp [pruneProcessed, h]

theorem processLoop_seen_mono (env : Env) (wallet : String) (l : List Transfer) :
    ∀ (st : WState) (w : World) (k : String), st.processed.seen k = true →
      (processLoop env wallet l st w).1.processed.seen k = true := by
  induction l with
  | nil => intro st w k h; simpa [processLoop] using h
  | cons x rest ih =>
    intro st w k h
    by_cases hgo : x.valid ∧ st.processed.seen x.transaction_id = false
    · rw [processLoop_go env wallet x rest st w hgo.1 hgo.2]
      split
      · exact Processed.seen_assign _ _ _ _ hgo.2 h
      · exact ih _ _ k (Processed.seen_assign _ _ _ _ hgo.2 h)
    · rw [processLoop_skip env wallet x rest st w hgo]
      exact ih st w k h

/-- After a loop that did not throw, the dedup map holds every valid record of
the list that has a non-zero timestamp. -/
theorem processLoop_marks (env : Env) (wallet : String) (l : List Transfer) :
    ∀ (st : WState) (w : World), (processLoop env wallet l st w).2.2 = false →
      ∀ t ∈ l, t.valid → t.block_ts ≠ 0 →
        (processLoop env wallet l st w).1.processed.seen t.transaction_id = true := by
  induction l with
  | nil => intro st w _ t ht; cases ht
  | cons x rest ih =>
    intro st w hok t ht hv hts
    by_cases hgo : x.valid ∧ st.processed.seen x.transaction_id = false
    · rw [processLoop_go env wallet x rest st w hgo.1 hgo.2] at hok ⊢
      split at hok
      · cases hok
      · rename_i hb
        rw [if_neg hb]
        rcases List.mem_cons.1 ht with h | h
        · subst h
          exact processLoop_seen_mono env wallet rest _ _ _
            (Processed.seen_assign_self _ _ _ hts)
        · exact ih _ _ hok t h hv hts
    · rw [processLoop_skip env wallet x rest st w hgo] at hok ⊢
      rcases List.mem_cons.1 ht with h | h
      · subst h
        have hseen : st.processed.seen t.transaction_id = true := by
          by_contra hc
          exact hgo ⟨hv, by simpa using hc⟩
        exact processLoop_seen_mono env wallet rest st w _ hseen
      · exact ih st w hok t h hv hts

/-- The dedup map grows by at most one entry per hook call. -/
theorem processLoop_size (env : Env) (wallet : String) (l : List Transfer) :
    ∀ (st : WState) (w : World), ∃ new : List Transfer,
      (processLoop env wallet l st w).2.1.writes = w.writes ++ new ∧
      (processLoop env wallet l st w).1.processed.length ≤ st.processed.length + new.length := by
  induction l with
  | nil => intro st w; exact ⟨[], by simp [processLoop], by simp [processLoop]⟩
  | cons x rest ih =>
    intro st w
    by_cases hgo : x.valid ∧ st.processed.seen x.transaction_id = false
    · rw [processLoop_go env wallet x rest st w hgo.1 hgo.2]
      have hw := onIncomingDeposit_writes env wallet x w
      have hlen := Processed.length_assign st.processed x.transaction_id x.block_ts
      split
      · exact ⟨[x], hw, by simpa using hlen⟩
      · obtain ⟨new, h1, h2⟩ := ih
          { lastTs := if st.lastTs < x.block_ts then x.block_ts else st.lastTs,
            processed := st.processed.assign x.transaction_id x.block_ts }
          (onIncomingDeposit env wallet x w).1
        refine ⟨x :: new, by rw [h1, hw]; simp, ?_⟩
        simp only [List.length_cons] at h2 ⊢
        omega
    · rw [processLoop_skip env wallet x rest st w hgo]
      exact ih st w

/-- A loop over records that are all invalid or already held changes nothing. -/
theorem processLoop_all_skipped (env : Env) (wallet : String) (l : List Transfer)
    (st : WState) (w : World)
    (h : ∀ t ∈ l, ¬ (t.valid ∧ st.processed.seen t.transaction_id = false)) :
    processLoop env wallet l st w = (st, w, false) := by
  induction l with
  | nil => rfl
  | cons x rest ih =>
    rw [processLoop_skip env wallet x rest st w (h x (List.mem_cons_self _ _))]
    exact ih (fun t ht => h t (List.mem_cons_of_mem _ ht))

theorem processWallet_of_empty (cfg : Config) (env : Env) (wallet : String) (st : WState)
    (ledger : Ledger) (incoming : List Transfer)
    (hf : fetchIncomingSince cfg env.upstream wallet st.lastTs = some incoming)
    (hlen : incoming.length = 0) :
    processWallet cfg env wallet st ledger =
      { state := st, ledger := ledger, writes := [], notified := [], threw := false } := by
  unfold processWallet
  rw [hf]
  simp [hlen]

theorem processWallet_of_skipped (cfg : Config) (env : Env) (wallet : String) (st : WState)
    (ledger : Ledger) (incoming : List Transfer)
    (hf : fetchIncomingSince cfg env.upstream wallet st.lastTs = some incoming)
    (hsize : st.processed.length ≤ 3000)
    (h : ∀ t ∈ incoming, ¬ (t.valid ∧ st.processed.seen t.transaction_id = false)) :
    processWallet cfg env wallet st ledger =
      { state := st, ledger := ledger, writes := [], notified := [], threw := false } := by
  by_cases hlen : incoming.length = 0
  · exact processWallet_of_empty cfg env wallet st ledger incoming hf hlen
  · unfold processWallet
    rw [hf]
    simp only [hlen, if_false]
    rw [processLoop_all_skipped env wallet _ st _
      (fun t ht => h t ((List.perm_insertionSort _ incoming).mem_iff.1 ht))]
    simp only [pruneProcessed_small _ hsize]

/-- Per wallet: after a pass over a feed that returned normally without the
dedup map outgrowing 3000 entries, a further pass over the same feed calls no
hook and returns the same state, whatever the ledger and the notifier do. -/
theorem second_pass_noop (cfg : Config) (env env2 : Env) (wallet : String)
    (feed : List Transfer) (st : WState) (ledger : Ledger)
    (hup : ∀ s, env.upstream wallet s = feedUpstream cfg feed wallet s)
    (hup2 : ∀ s, env2.upstream wallet s = feedUpstream cfg feed wallet s)
    (hok : (processWallet cfg env wallet st ledger).threw = false)
    (hsize : st.processed.length + (processWallet cfg env wallet st ledger).writes.length
      ≤ 3000) (ledger2 : Ledger) :
    processWallet cfg env2 wallet (processWallet cfg env wallet st ledger).state ledger2 =
      { state := (processWallet cfg env wallet st ledger).state, ledger := ledger2,
        writes := [], notified := [], threw := false } := by
  have hf1 : fetchIncomingSince cfg env.upstream wallet st.lastTs = _ :=
    (fetchIncomingSince_congr cfg _ _ wallet st.lastTs hup).trans
      (fetchIncomingSince_feed cfg feed wallet st.lastTs)
  have hf2 : fetchIncomingSince cfg env2.upstream wallet
      (processWallet cfg env wallet st ledger).state.lastTs = _ :=
    (fetchIncomingSince_congr cfg _ _ wallet _ hup2).trans
      (fetchIncomingSince_feed cfg feed wallet _)
  have hmono := (processWallet_trace cfg env wallet st ledger).1
  have hsub : ∀ t, t ∈ (((feed.take (cfg.MAX_PAGES * cfg.LIMIT)).filter
        (fun t => decide (t.to_address = wallet))).takeWhile
        (fun t => decide ((processWallet cfg env wallet st ledger).state.lastTs < t.block_ts))) →
      t ∈ (((feed.take (cfg.MAX_PAGES * cfg.LIMIT)).filter
        (fun t => decide (t.to_address = wallet))).takeWhile
        (fun t => decide (st.lastTs < t.block_ts))) := by
    intro t ht
    refine mem_takeWhile_mono _ _ ?_ _ t ht
    intro x hx
    simp only [decide_eq_true_eq] at hx ⊢
    omega
  rcases processWallet_run cfg env wallet st ledger with ⟨f0, -⟩ | ⟨inc, f0, hlen, h1⟩ |
    ⟨incoming, f0, -, r, hr, a1, -, a3, -, a5⟩
  · rw [hf1] at f0; cases f0
  · -- the first scan was empty: so is the second
    rw [hf1] at f0
    injection f0 with f0
    have hst : (processWallet cfg env wallet st ledger).state = st := by rw [h1]
    apply processWallet_of_empty cfg env2 wallet _ ledger2 _ hf2
    rw [List.length_eq_zero]
    rw [List.eq_nil_iff_forall_not_mem]
    intro t ht
    have := hsub t ht
    rw [f0, List.length_eq_zero.1 hlen] at this
    cases this
  · rw [hf1] at f0
    injection f0 with f0
    rw [a5] at hok
    obtain ⟨new, s1, s2⟩ := processLoop_size env wallet
      (incoming.insertionSort (fun a b => a.block_ts ≤ b.block_ts)) st
      { ledger := ledger, writes := [], notified := [] }
    rw [← hr] at s1 s2
    simp only [List.nil_append] at s1
    rw [a3, s1] at hsize
    have hsmall : r.1.processed.length ≤ 3000 := by omega
    have hstate : (processWallet cfg env wallet st ledger).state = r.1 := by
      rw [a1, hok]
      simp only [Bool.false_eq_true, if_false, pruneProcessed_small _ hsmall]
    have hmarks := processLoop_marks env wallet
      (incoming.insertionSort (fun a b => a.block_ts ≤ b.block_ts)) st
      { ledger := ledger, writes := [], notified := [] } (by rw [← hr]; exact hok)
    rw [← hr] at hmarks
    apply processWallet_of_skipped cfg env2 wallet _ ledger2 _ hf2
    · rw [hstate]; exact hsmall
    · intro t ht
      rintro ⟨hv, hns⟩
      have hin := hsub t ht
      rw [f0] at hin
      have hnew : st.lastTs < t.block_ts := by
        have := List.mem_takeWhile_imp (hsub t ht)
        simpa using this
      have hseen := hmarks t ((List.perm_insertionSort _ incoming).mem_iff.2 hin) hv
        (by omega)
      rw [hstate, hseen] at hns
      cases hns

theorem ensure_foldl (WALLETS : List String) :
    ∀ (m : WalletMap),
      (∀ x, (m.find x).isSome = true →
        ((WALLETS.foldl (fun m w => if (m.find w).isSome then m else m.put w freshState)
          m).find x).isSome = true) ∧
      (∀ x ∈ WALLETS,
        ((WALLETS.foldl (fun m w => if (m.find w).isSome then m else m.put w freshState)
          m).find x).isSome = true) ∧
      ((∀ x ∈ WALLETS, (m.find x).isSome = true) →
        WALLETS.foldl (fun m w => if (m.find w).isSome then m else m.put w freshState) m = m) := by
  induction WALLETS with
  | nil => intro m; simp
  | cons w rest ih =>
    intro m
    simp only [List.foldl_cons]
    by_cases hw : (m.find w).isSome = true
    · simp only [hw, if_true]
      obtain ⟨i1, i2, i3⟩ := ih m
      refine ⟨i1, ?_, ?_⟩
      · intro x hx
        rcases List.mem_cons.1 hx with h | h
        · rw [h]; exact i1 w hw
        · exact i2 x h
      · intro hall
        exact i3 (fun x hx => hall x (List.mem_cons_of_mem _ hx))
    · simp only [hw, if_false]
      obtain ⟨i1, i2, -⟩ := ih (m.put w freshState)
      have hput : ∀ x, (m.find x).isSome = true → ((m.put w freshState).find x).isSome = true := by
        intro x hx
        by_cases hxw : x = w
        · rw [hxw, WalletMap.find_put_self]; rfl
        · rw [WalletMap.find_put_ne _ _ _ _ hxw]; exact hx
      refine ⟨fun x hx => i1 x (hput x hx), ?_, ?_⟩
      · intro x hx
        rcases List.mem_cons.1 hx with h | h
        · rw [h]
          apply i1
          rw [WalletMap.find_put_self]; rfl
        · exact i2 x h
      · intro hall
        exact absurd (hall w (List.mem_cons_self _ _)) hw

theorem loadState_present (WALLETS : List String) (file : StateFile) (loaded : WalletMap)
    (h : loadState WALLETS file = some loaded) :
    ∀ x ∈ WALLETS, ∃ s, loaded.find x = some s := by
  intro x hx
  have key : ∀ m : WalletMap,
      ((WALLETS.foldl (fun m w => if (m.find w).isSome then m else m.put w freshState)
        m).find x).isSome = true := fun m => (ensure_foldl WALLETS m).2.1 x hx
  cases file with
  | null => simp [loadState] at h
  | absent =>
    simp only [loadState, Option.some.injEq] at h
    rw [← h]
    exact Option.isSome_iff_exists.1 (key [])
  | saved ws =>
    simp only [loadState, Option.some.injEq] at h
    rw [← h]
    exact Option.isSome_iff_exists.1 (key ws)

theorem loadState_fixed (WALLETS : List String) (m : WalletMap)
    (h : ∀ x ∈ WALLETS, ∃ s, m.find x = some s) :
    loadState WALLETS (StateFile.saved m) = some m := by
  simp only [loadState]
  rw [(ensure_foldl WALLETS m).2.2 (fun x hx => Option.isSome_iff_exists.2 (h x hx))]

theorem walletLoop_grows (cfg : Config) (env : Env) (WALLETS : List String) :
    ∀ acc : LoopState,
      (∃ extra, (walletLoop cfg env WALLETS acc).failed = acc.failed ++ extra) ∧
      (∃ extra, (walletLoop cfg env WALLETS acc).writes = acc.writes ++ extra) := by
  induction WALLETS with
  | nil => intro acc; exact ⟨⟨[], by simp [walletLoop]⟩, ⟨[], by simp [walletLoop]⟩⟩
  | cons x rest ih =>
    intro acc
    simp only [walletLoop]
    obtain ⟨⟨e1, h1⟩, ⟨e2, h2⟩⟩ := ih (walletStep cfg env x acc)
    constructor
    · rw [h1]
      unfold walletStep
      simp only
      split
      · exact ⟨[x] ++ e1, by simp⟩
      · exact ⟨e1, rfl⟩
    · rw [h2]
      unfold walletStep
      simp only
      exact ⟨(processWallet cfg env x ((acc.wallets.find x).getD freshState) acc.ledger).writes
        ++ e2, by simp⟩

/-- One loop iteration on a settled wallet changes the trace only. -/
theorem walletStep_settled (cfg : Config) (feeds : String → List Transfer) (env : Env)
    (hup : env.upstream = feedsUpstream cfg feeds) (x : String) (acc : LoopState) (s : WState)
    (hfind : acc.wallets.find x = some s) (hs : Settled cfg feeds x s) :
    walletStep cfg env x acc = { acc with scanned := acc.scanned ++ [x] } := by
  have hout := hs env (fun start => by rw [hup]) acc.ledger
  unfold walletStep
  simp only [hfind, Option.getD_some, hout, Option.isSome_some, Bool.true_eq_false,
    and_false, if_false, List.append_nil, Bool.false_eq_true]
  rw [WalletMap.put_same _ _ _ hfind]

theorem walletLoop_noop (cfg : Config) (feeds : String → List Transfer) (env : Env)
    (hup : env.upstream = feedsUpstream cfg feeds) (WALLETS : List String) :
    ∀ acc : LoopState,
      (∀ x ∈ WALLETS, ∃ s, acc.wallets.find x = some s ∧ Settled cfg feeds x s) →
      walletLoop cfg env WALLETS acc = { acc with scanned := acc.scanned ++ WALLETS } := by
  induction WALLETS with
  | nil => intro acc _; simp [walletLoop]
  | cons x rest ih =>
    intro acc h
    obtain ⟨s, hfind, hs⟩ := h x (List.mem_cons_self _ _)
    simp only [walletLoop]
    rw [walletStep_settled cfg feeds env hup x acc s hfind hs]
    rw [ih { acc with scanned := acc.scanned ++ [x] }
      (fun y hy => h y (List.mem_cons_of_mem _ hy))]
    simp

/-- The wallet loop of a pass in which no wallet fails leaves every wallet of
the list settled, provided each starts settled or with room for the writes of
the pass below the pruning threshold. -/
theorem walletLoop_settles (cfg : Config) (feeds : String → List Transfer) (env : Env)
    (hup : env.upstream = feedsUpstream cfg feeds) (bound : Nat) (WALLETS : List String) :
    ∀ acc : LoopState,
      (walletLoop cfg env WALLETS acc).failed = [] →
      (walletLoop cfg env WALLETS acc).writes.length ≤ bound →
      (∀ x ∈ WALLETS, ∃ s, acc.wallets.find x = some s ∧
        (Settled cfg feeds x s ∨ s.processed.length + bound ≤ 3000)) →
      (∀ x s, acc.wallets.find x = some s → Settled cfg feeds x s →
        ∃ s', (walletLoop cfg env WALLETS acc).wallets.find x = some s' ∧
          Settled cfg feeds x s') ∧
      (∀ x ∈ WALLETS, ∃ s', (walletLoop cfg env WALLETS acc).wallets.find x = some s' ∧
        Settled cfg feeds x s') := by
  induction WALLETS with
  | nil =>
    intro acc _ _ _
    exact ⟨fun x s h1 h2 => ⟨s, h1, h2⟩, fun x hx => by cases hx⟩
  | cons x rest ih =>
    intro acc hfailed hwrites hgood
    simp only [walletLoop] at hfailed hwrites ⊢
    obtain ⟨s, hfind, hs⟩ := hgood x (List.mem_cons_self _ _)
    obtain ⟨⟨e1, g1⟩, ⟨e2, g2⟩⟩ := walletLoop_grows cfg env rest (walletStep cfg env x acc)
    -- the step for `x` did not throw and its writes are within the bound
    have hthrew : (processWallet cfg env x s acc.ledger).threw = false := by
      by_contra hc
      have hc' : (processWallet cfg env x s acc.ledger).threw = true := by simpa using hc
      rw [hfailed] at g1
      have : (walletStep cfg env x acc).failed = acc.failed ++ [x] := by
        unfold walletStep
        simp only [hfind, Option.getD_some, hc', if_true]
      rw [this] at g1
      have hl := congrArg List.length g1
      simp at hl
      omega
    have hlen : (processWallet cfg env x s acc.ledger).writes.length ≤ bound := by
      have : (walletStep cfg env x acc).writes =
          acc.writes ++ (processWallet cfg env x s acc.ledger).writes := by
        unfold walletStep
        simp only [hfind, Option.getD_some]
      rw [g2, this] at hwrites
      simp only [List.length_append] at hwrites
      omega
    -- after the step, `x` is settled
    have hstep : ∃ s', (walletStep cfg env x acc).wallets.find x = some s' ∧
        Settled cfg feeds x s' := by
      rcases hs with hs | hs
      · rw [walletStep_settled cfg feeds env hup x acc s hfind hs]
        exact ⟨s, hfind, hs⟩
      · refine ⟨(processWallet cfg env x s acc.ledger).state, ?_, ?_⟩
        · unfold walletStep
          simp only [hfind, Option.getD_some, hthrew, Bool.false_eq_true, false_and, if_false]
          exact WalletMap.find_put_self _ _ _
        · intro env2 hup2 ledger2
          exact second_pass_noop cfg env env2 x (feeds x) s acc.ledger
            (fun start => by rw [hup]; rfl) (fun start => by rw [hup2]; rfl) hthrew
            (by omega) ledger2
    have hother : ∀ y, y ≠ x →
        (walletStep cfg env x acc).wallets.find y = acc.wallets.find y := by
      intro y hy
      unfold walletStep
      simp only
      split
      · rfl
      · exact WalletMap.find_put_ne _ _ _ _ hy
    obtain ⟨i1, i2⟩ := ih (walletStep cfg env x acc) hfailed hwrites (by
      intro y hy
      by_cases hyx : y = x
      · obtain ⟨s', h1, h2⟩ := hstep
        exact ⟨s', by rw [hyx]; exact h1, Or.inl (by rw [hyx]; exact h2)⟩
      · rw [hother y hyx]
        exact hgood y (List.mem_cons_of_mem _ hy))
    constructor
    · intro y sy hy hsy
      by_cases hyx : y = x
      · obtain ⟨s', h1, h2⟩ := hstep
        exact i1 y s' (by rw [hyx]; exact h1) (by rw [hyx]; exact h2)
      · exact i1 y sy (by rw [hother y hyx]; exact hy) hsy
    · intro y hy
      rcases List.mem_cons.1 hy with h | h
      · obtain ⟨s', h1, h2⟩ := hstep
        exact i1 y s' (by rw [h]; exact h1) (by rw [h]; exact h2)
      · exact i2 y h

theorem run_unlocked (cfg : Config) (WALLETS : List String) (env : Env)
    (stateWriteFails : Bool) (m : Machine) (loaded : WalletMap)
    (hlock : m.lock = false) (hload : loadState WALLETS m.stateFile = some loaded) :
    run cfg WALLETS env stateWriteFails m =
      { machine :=
          { lock := false
            stateFile :=
              if stateWriteFails then m.stateFile
              else StateFile.saved (walletLoop cfg env WALLETS
                { wallets := loaded, ledger := m.ledger, scanned := [], writes := [],
                  notified := [], failed := [] }).wallets
            ledger := (walletLoop cfg env WALLETS
              { wallets := loaded, ledger := m.ledger, scanned := [], writes := [],
                notified := [], failed := [] }).ledger }
        wallets := (walletLoop cfg env WALLETS
          { wallets := loaded, ledger := m.ledger, scanned := [], writes := [],
            notified := [], failed := [] }).wallets
        scanned := (walletLoop cfg env WALLETS
          { wallets := loaded, ledger := m.ledger, scanned := [], writes := [],
            notified := [], failed := [] }).scanned
        writes := (walletLoop cfg env WALLETS
          { wallets := loaded, ledger := m.ledger, scanned := [], writes := [],
            notified := [], failed := [] }).writes
        notified := (walletLoop cfg env WALLETS
          { wallets := loaded, ledger := m.ledger, scanned := [], writes := [],
            notified := [], failed := [] }).notified
        failed := (walletLoop cfg env WALLETS
          { wallets := loaded, ledger := m.ledger, scanned := [], writes := [],
            notified := [], failed := [] }).failed
        acquired := true, threw := false } := by
  simp [run, acquireLock, releaseLock, hlock, hload]

/-- C14 (as stated, fails): wallet `W` is persisted with watermark 0 and a dedup
map of 3000 entries that holds `a`; the feed has `a` at 7 and a new deposit `b`
at 6. The first pass completes without error: it writes `b`, skips `a` as a
duplicate and prunes the map, dropping `a`. The second pass over the same feed
then inserts `a` into the ledger, notifies, and moves `lastTs` from 6 to 7. -/
theorem pruned_entry_is_reprocessed :
    ((run defaultConfig ["W"] (quietEnv defaultConfig [staleDeposit, sampleLater]) false
        fullMachine).failed = [] ∧
      (run defaultConfig ["W"] (quietEnv defaultConfig [staleDeposit, sampleLater]) false
        fullMachine).threw = false ∧
      (run defaultConfig ["W"] (quietEnv defaultConfig [staleDeposit, sampleLater]) false
        fullMachine).machine.ledger = [depositDoc "W" sampleLater] ∧
      ((run defaultConfig ["W"] (quietEnv defaultConfig [staleDeposit, sampleLater]) false
        fullMachine).wallets.find "W").map (fun s => s.lastTs) = some 6) ∧
    ((run defaultConfig ["W"] (quietEnv defaultConfig [staleDeposit, sampleLater]) false
        (run defaultConfig ["W"] (quietEnv defaultConfig [staleDeposit, sampleLater]) false
          fullMachine).machine).notified = [staleDeposit] ∧
      (run defaultConfig ["W"] (quietEnv defaultConfig [staleDeposit, sampleLater]) false
        (run defaultConfig ["W"] (quietEnv defaultConfig [staleDeposit, sampleLater]) false
          fullMachine).machine).machine.ledger =
        [depositDoc "W" sampleLater, depositDoc "W" staleDeposit] ∧
      ((run defaultConfig ["W"] (quietEnv defaultConfig [staleDeposit, sampleLater]) false
        (run defaultConfig ["W"] (quietEnv defaultConfig [staleDeposit, sampleLater]) false
          fullMachine).machine).wallets.find "W").map (fun s => s.lastTs) = some 7) := by
  decide!

/-- C14 (amended): if a pass acquires the lock, no wallet's processing fails, the
state is written, and no wallet's dedup map can outgrow 3000 entries during the
pass (its entries plus the records written), then a second pass against the
same feeds calls no ledger write, sends no notification, fails for no wallet,
and leaves the ledger, every wallet's state and the state file as the first
pass left them. -/
theorem second_pass_changes_nothing (cfg : Config) (WALLETS : List String)
    (feeds : String → List Transfer) (lf tf lf2 tf2 : Transfer → Bool)
    (stateWriteFails2 : Bool) (m : Machine) (loaded : WalletMap)
    (hlock : m.lock = false) (hload : loadState WALLETS m.stateFile = some loaded)
    (hok : (run cfg WALLETS ⟨feedsUpstream cfg feeds, lf, tf⟩ false m).failed = [])
    (hsize : ∀ x s, loaded.find x = some s → s.processed.length +
      (run cfg WALLETS ⟨feedsUpstream cfg feeds, lf, tf⟩ false m).writes.length ≤ 3000) :
    (run cfg WALLETS ⟨feedsUpstream cfg feeds, lf2, tf2⟩ stateWriteFails2
      (run cfg WALLETS ⟨feedsUpstream cfg feeds, lf, tf⟩ false m).machine).writes = [] ∧
    (run cfg WALLETS ⟨feedsUpstream cfg feeds, lf2, tf2⟩ stateWriteFails2
      (run cfg WALLETS ⟨feedsUpstream cfg feeds, lf, tf⟩ false m).machine).notified = [] ∧
    (run cfg WALLETS ⟨feedsUpstream cfg feeds, lf2, tf2⟩ stateWriteFails2
      (run cfg WALLETS ⟨feedsUpstream cfg feeds, lf, tf⟩ false m).machine).failed = [] ∧
    (run cfg WALLETS ⟨feedsUpstream cfg feeds, lf2, tf2⟩ stateWriteFails2
      (run cfg WALLETS ⟨feedsUpstream cfg feeds, lf, tf⟩ false m).machine).machine.ledger =
      (run cfg WALLETS ⟨feedsUpstream cfg feeds, lf, tf⟩ false m).machine.ledger ∧
    (run cfg WALLETS ⟨feedsUpstream cfg feeds, lf2, tf2⟩ stateWriteFails2
      (run cfg WALLETS ⟨feedsUpstream cfg feeds, lf, tf⟩ false m).machine).wallets =
      (run cfg WALLETS ⟨feedsUpstream cfg feeds, lf, tf⟩ false m).wallets ∧
    (run cfg WALLETS ⟨feedsUpstream cfg feeds, lf2, tf2⟩ stateWriteFails2
      (run cfg WALLETS ⟨feedsUpstream cfg feeds, lf, tf⟩ false m).machine).machine.stateFile =
      (run cfg WALLETS ⟨feedsUpstream cfg feeds, lf, tf⟩ false m).machine.stateFile := by
  rw [run_unlocked cfg WALLETS ⟨feedsUpstream cfg feeds, lf, tf⟩ false m loaded hlock hload]
    at hok hsize ⊢
  simp only [Bool.false_eq_true, if_false] at hok hsize ⊢
  obtain ⟨-, hsettled⟩ := walletLoop_settles cfg feeds ⟨feedsUpstream cfg feeds, lf, tf⟩ rfl
    (walletLoop cfg ⟨feedsUpstream cfg feeds, lf, tf⟩ WALLETS
      { wallets := loaded, ledger := m.ledger, scanned := [], writes := [], notified := [],
        failed := [] }).writes.length
    WALLETS
    { wallets := loaded, ledger := m.ledger, scanned := [], writes := [], notified := [],
      failed := [] } hok (le_refl _)
    (by
      intro x hx
      obtain ⟨s, hs⟩ := loadState_present WALLETS m.stateFile loaded hload x hx
      exact ⟨s, hs, Or.inr (hsize x s hs)⟩)
  generalize walletLoop cfg ⟨feedsUpstream cfg feeds, lf, tf⟩ WALLETS
    { wallets := loaded, ledger := m.ledger, scanned := [], writes := [], notified := [],
      failed := [] } = first at hsettled ⊢
  have hload2 : loadState WALLETS (StateFile.saved first.wallets) = some first.wallets :=
    loadState_fixed WALLETS _ (fun x hx => (hsettled x hx).imp (fun s h => h.1))
  rw [run_unlocked cfg WALLETS ⟨feedsUpstream cfg feeds, lf2, tf2⟩ stateWriteFails2
    { lock := false, stateFile := StateFile.saved first.wallets, ledger := first.ledger }
    first.wallets rfl hload2]
  rw [walletLoop_noop cfg feeds ⟨feedsUpstream cfg feeds, lf2, tf2⟩ rfl WALLETS
    { wallets := first.wallets, ledger := first.ledger, scanned := [], writes := [],
      notified := [], failed := [] } hsettled]
  simp

/-- Witness for C14 (amended): one wallet, a clean machine and the two-entry
sample feed. -/
theorem second_pass_changes_nothing_witness :
    (run defaultConfig ["W"]
      ⟨feedsUpstream defaultConfig (fun _ => [sampleLater, sampleDeposit]),
        fun _ => false, fun _ => false⟩ false cleanMachine).failed = [] ∧
    (run defaultConfig ["W"]
      ⟨feedsUpstream defaultConfig (fun _ => [sampleLater, sampleDeposit]),
        fun _ => false, fun _ => false⟩ false
      (run defaultConfig ["W"]
        ⟨feedsUpstream defaultConfig (fun _ => [sampleLater, sampleDeposit]),
          fun _ => false, fun _ => false⟩ false cleanMachine).machine).writes = [] :=
  ⟨by decide,
    (second_pass_changes_nothing defaultConfig ["W"] (fun _ => [sampleLater, sampleDeposit])
      (fun _ => false) (fun _ => false) (fun _ => false) (fun _ => false) false cleanMachine
      [("W", freshState)] rfl (by decide) (by decide)
      (by
        intro x s h
        have hw : (run defaultConfig ["W"]
            ⟨feedsUpstream defaultConfig (fun _ => [sampleLater, sampleDeposit]),
              fun _ => false, fun _ => false⟩ false cleanMachine).writes.length = 2 := by
          decide
        rw [hw]
        simp only [WalletMap.find, List.lookup] at h
        split at h
        · injection h with h
          rw [← h]
          decide
        · cases h)).1⟩

end ScronWallet
